import Mathlib

/-!
Verification development for the circuit layout/recording engine
(`Records` / `Context` hierarchy) of a halo2-style circuit library.
The definitions below are a shallow embedding of
`src/circuit/src/context.rs`; Rust `Vec` becomes `List`, machine indices
become `Nat`, field values become an abstract type `N`, and the two panic
sources of the code (`assert!` and debug-mode integer underflow / index
out of bounds) become `Except` / `Option` failures that carry the ledger
state at the moment of the panic.
-/

namespace Halo2Layout

/-- Modelled from the spec (source file `assign.rs` is not part of `src/`):
the two functional units ("chips") of the layout. The Rust enum casts
`BaseChip` to `0` and `RangeChip` to `1` when indexing the materialized
cell tables. -/
inductive Chip where
  | BaseChip
  | RangeChip
deriving DecidableEq

/-- The index a `Chip` takes when used as `cell.region as usize`. -/
def Chip.toIdx : Chip → Nat
  | .BaseChip => 0
  | .RangeChip => 1

/-- Modelled from the spec (source file `assign.rs` is not part of `src/`):
immutable identity of a witness slot, `(functional unit, lane, step)`. -/
structure Cell where
  region : Chip
  col : Nat
  row : Nat
deriving DecidableEq

/-- `Cell::new(region, col, row)`. -/
def Cell.new (region : Chip) (col row : Nat) : Cell := ⟨region, col, row⟩

/-- Modelled from the spec (source file `assign.rs` is not part of `src/`):
the handle returned after a value is placed; a `Cell` plus the value. -/
structure AssignedValue (N : Type) where
  cell : Cell
  val : N
deriving DecidableEq

/-- `AssignedValue::new(region, col, row, value)`. -/
def AssignedValue.new (region : Chip) (col row : Nat) (v : N) : AssignedValue N :=
  ⟨⟨region, col, row⟩, v⟩

/-- Modelled from the spec (source file `assign.rs` is not part of `src/`):
a request-time value, either a literal field element with no prior
placement, or a reference to an existing `AssignedValue`. -/
inductive ValueSchema (N : Type) where
  | assigned : AssignedValue N → ValueSchema N
  | unassigned : N → ValueSchema N
deriving DecidableEq

/-- `ValueSchema::cell()`: the referenced cell, when present. -/
def ValueSchema.cell : ValueSchema N → Option Cell
  | .assigned av => some av.cell
  | .unassigned _ => none

/-- `ValueSchema::value()`: the carried field element. -/
def ValueSchema.value : ValueSchema N → N
  | .assigned av => av.val
  | .unassigned v => v

/-- The column-count and range-unit constants imported by `context.rs` from
`base_chip.rs` / `range_chip.rs` (not part of `src/`); the engine is
parametric in them, so they are kept as parameters here. -/
structure Consts where
  VAR_COLUMNS : Nat
  MUL_COLUMNS : Nat
  MAX_CHUNKS : Nat
  COMMON_RANGE_BITS : Nat

/-- `FIXED_COLUMNS = VAR_COLUMNS + MUL_COLUMNS + 2` (linear coefficients,
product coefficients, next-row coefficient, constant). -/
def FIXED_COLUMNS (C : Consts) : Nat := C.VAR_COLUMNS + C.MUL_COLUMNS + 2

/-- The layout ledger `Records<N>`; Rust `Vec` fields become lists.
`base_adv_record[step][lane] = (value, needs_copy)`,
`base_fix_record[step][lane] = Option value`,
`range_adv_record[step] = (value, needs_copy)`,
`range_fix_record[step] = (block_first, range_class)`. -/
structure Records (N : Type) where
  base_adv_record : List (List (Option N × Bool))
  base_fix_record : List (List (Option N))
  base_height : Nat
  range_adv_record : List (Option N × Bool)
  range_fix_record : List (Option N × Option N)
  range_height : Nat
  permutations : List (Cell × Cell)

/-- `Records::default()`: everything empty. -/
def Records.empty : Records N := ⟨[], [], 0, [], [], 0, []⟩

/-! ### List helpers modelling `Vec` indexing-assignment and `Vec::resize` -/

/-- In-place update of index `i` by `f`; like Rust `v[i].field = ...`
restricted to in-bounds `i` (all call sites are used in-bounds, matching
the code, which would panic otherwise). -/
def modifyAt (l : List α) (i : Nat) (f : α → α) : List α :=
  match l[i]? with
  | some a => l.set i (f a)
  | none => l

/-- `Vec::resize(n, d)`: truncate or pad with `d` to length `n`. -/
def resizeList (l : List α) (n : Nat) (d : α) : List α :=
  if n ≤ l.length then l.take n else l ++ List.replicate (n - l.length) d

/-- `(offset + E) & !(E - 1)` for a power of two `E`: the smallest multiple
of `E` that is strictly greater than `offset`, i.e. align `offset + E`
down to a multiple of `E`. -/
def alignTo (E offset : Nat) : Nat := ((offset + E) / E) * E

/-! ### Field-level setters on `Records` -/

/-- `self.base_adv_record[row][col].0 = v` (flag untouched). -/
def setBaseAdvVal (r : Records N) (row col : Nat) (v : Option N) : Records N :=
  { r with base_adv_record :=
      modifyAt r.base_adv_record row (fun l => modifyAt l col (fun e => (v, e.2))) }

/-- `self.base_adv_record[row][col].1 = true` (value untouched). -/
def setBaseAdvFlag (r : Records N) (row col : Nat) : Records N :=
  { r with base_adv_record :=
      modifyAt r.base_adv_record row (fun l => modifyAt l col (fun e => (e.1, true))) }

/-- `self.base_fix_record[row][col] = v`. -/
def setBaseFix (r : Records N) (row col : Nat) (v : Option N) : Records N :=
  { r with base_fix_record :=
      modifyAt r.base_fix_record row (fun l => l.set col v) }

/-- `self.range_adv_record[row].0 = v`. -/
def setRangeAdvVal (r : Records N) (row : Nat) (v : Option N) : Records N :=
  { r with range_adv_record := modifyAt r.range_adv_record row (fun e => (v, e.2)) }

/-- `self.range_adv_record[row].1 = true`. -/
def setRangeAdvFlag (r : Records N) (row : Nat) : Records N :=
  { r with range_adv_record := modifyAt r.range_adv_record row (fun e => (e.1, true)) }

/-- `self.range_fix_record[row][0] = v` (block-first marker). -/
def setRangeFixFirst (r : Records N) (row : Nat) (v : Option N) : Records N :=
  { r with range_fix_record := modifyAt r.range_fix_record row (fun e => (v, e.2)) }

/-- `self.range_fix_record[row][1] = v` (range-class marker). -/
def setRangeFixClass (r : Records N) (row : Nat) (v : Option N) : Records N :=
  { r with range_fix_record := modifyAt r.range_fix_record row (fun e => (e.1, v)) }

/-! ### Getters used to state properties -/

/-- The recorded advice value at a cell (the `.0` component), `none` when
out of bounds or never written. For the range unit the lane is single, so
the lookup ignores `c.col`, exactly like the code's record access. -/
def advValAt (r : Records N) (c : Cell) : Option N :=
  match c.region with
  | Chip.BaseChip =>
    match r.base_adv_record[c.row]? with
    | some rowl =>
      match rowl[c.col]? with
      | some e => e.1
      | none => none
    | none => none
  | Chip.RangeChip =>
    match r.range_adv_record[c.row]? with
    | some e => e.1
    | none => none

/-- The `needs_copy` flag at a cell, `false` when out of bounds. -/
def flagAt (r : Records N) (c : Cell) : Bool :=
  match c.region with
  | Chip.BaseChip =>
    match r.base_adv_record[c.row]? with
    | some rowl =>
      match rowl[c.col]? with
      | some e => e.2
      | none => false
    | none => false
  | Chip.RangeChip =>
    match r.range_adv_record[c.row]? with
    | some e => e.2
    | none => false

/-- The fixed-lane content `base_fix_record[row][col]`. -/
def baseFixAt (r : Records N) (row col : Nat) : Option N :=
  match r.base_fix_record[row]? with
  | some l =>
    match l[col]? with
    | some o => o
    | none => none
  | none => none

/-- `range_adv_record[row].0`. -/
def rangeAdvValAt (r : Records N) (row : Nat) : Option N :=
  match r.range_adv_record[row]? with
  | some e => e.1
  | none => none

/-- `range_fix_record[row][0]` (block-first marker). -/
def rangeFixFirstAt (r : Records N) (row : Nat) : Option N :=
  match r.range_fix_record[row]? with
  | some e => e.1
  | none => none

/-- `range_fix_record[row][1]` (range-class marker). -/
def rangeFixClassAt (r : Records N) (row : Nat) : Option N :=
  match r.range_fix_record[row]? with
  | some e => e.2
  | none => none

/-! ### `Records::enable_permute` and `Records::one_line` -/

/-- `Records::enable_permute`: set the `needs_copy` flag of the record slot
named by `cell`; `none` models the index-out-of-bounds panic. -/
def enable_permute (r : Records N) (c : Cell) : Option (Records N) :=
  match c.region with
  | Chip.BaseChip =>
    match r.base_adv_record[c.row]? with
    | some rowl =>
      if c.col < rowl.length then some (setBaseAdvFlag r c.row c.col) else none
    | none => none
  | Chip.RangeChip =>
    if c.row < r.range_adv_record.length then some (setRangeAdvFlag r c.row) else none

/-- One iteration of the `one_line` placement loop (also the tail placement
of `one_line_with_last`): register the copy constraint when the schema
references a cell, then write the coefficient and the value at lane `i`,
step `offset`. `Except.error s` models a panic (inside `enable_permute`)
leaving the ledger in state `s`. -/
def writePair (r : Records N) (offset i : Nat) (base : ValueSchema N) (coeff : N) :
    Except (Records N) (Records N) :=
  match base.cell with
  | some cell =>
    let idx : Cell := Cell.new Chip.BaseChip i offset
    let r1 := setBaseAdvFlag r offset i
    match enable_permute r1 cell with
    | none => .error r1
    | some r2 =>
      let r3 := { r2 with permutations := r2.permutations ++ [(cell, idx)] }
      let r4 := setBaseFix r3 offset i (some coeff)
      .ok (setBaseAdvVal r4 offset i (some base.value))
  | none =>
    let r4 := setBaseFix r offset i (some coeff)
    .ok (setBaseAdvVal r4 offset i (some base.value))

/-- The `for (i, (base, coeff)) in base_coeff_pairs` loop of `one_line`. -/
def one_line_pairs (r : Records N) (offset i : Nat) :
    List (ValueSchema N × N) → Except (Records N) (Records N)
  | [] => .ok r
  | (b, co) :: rest =>
    match writePair r offset i b co with
    | .error s => .error s
    | .ok r' => one_line_pairs r' offset (i + 1) rest

/-- `if offset >= self.base_height { self.base_height = offset + 1; }`. -/
def bumpBaseHeight (r : Records N) (offset : Nat) : Records N :=
  if r.base_height ≤ offset then { r with base_height := offset + 1 } else r

/-- Growth of the base ledger (`EXTEND_SIZE = 16`): executed when
`offset >= base_adv_record.len()`. -/
def extendBase (C : Consts) (r : Records N) (offset : Nat) : Records N :=
  if r.base_adv_record.length ≤ offset then
    let to_len := alignTo 16 offset
    { r with
      base_adv_record :=
        resizeList r.base_adv_record to_len (List.replicate C.VAR_COLUMNS (none, false)),
      base_fix_record :=
        resizeList r.base_fix_record to_len (List.replicate (FIXED_COLUMNS C) none) }
  else r

/-- The `for (i, mul_coeff) in mul_coeffs` loop of `one_line`. -/
def writeMuls (C : Consts) (r : Records N) (offset : Nat) :
    Nat → List N → Records N
  | _, [] => r
  | i, m :: rest => writeMuls C (setBaseFix r offset (C.VAR_COLUMNS + i) (some m)) offset (i + 1) rest

/-- `Records::one_line`. `Except.error s` models a panic (the leading
`assert!` leaves the ledger untouched; an out-of-bounds `enable_permute`
leaves it in the partially mutated state `s`). -/
def one_line (C : Consts) (r : Records N) (offset : Nat)
    (base_coeff_pairs : List (ValueSchema N × N)) (constv : Option N)
    (mul_next_coeffs : List N × Option N) : Except (Records N) (Records N) :=
  if base_coeff_pairs.length ≤ C.VAR_COLUMNS then
    let r2 := bumpBaseHeight (extendBase C r offset) offset
    match one_line_pairs r2 offset 0 base_coeff_pairs with
    | .error s => .error s
    | .ok r3 =>
      let r4 := writeMuls C r3 offset 0 mul_next_coeffs.1
      let r5 :=
        match mul_next_coeffs.2 with
        | some nx => setBaseFix r4 offset (C.VAR_COLUMNS + C.MUL_COLUMNS) (some nx)
        | none => r4
      let r6 :=
        match constv with
        | some cv => setBaseFix r5 offset (C.VAR_COLUMNS + C.MUL_COLUMNS + 1) (some cv)
        | none => r5
      .ok r6
  else .error r

/-- `Records::one_line_with_last`: head placement via `one_line`, then the
tail pair at the fixed final lane `VAR_COLUMNS - 1`. -/
def one_line_with_last (C : Consts) (r : Records N) (offset : Nat)
    (base_coeff_pairs : List (ValueSchema N × N)) (tail : ValueSchema N × N)
    (constv : Option N) (mul_next_coeffs : List N × Option N) :
    Except (Records N) (Records N) :=
  if base_coeff_pairs.length ≤ C.VAR_COLUMNS - 1 then
    match one_line C r offset base_coeff_pairs constv mul_next_coeffs with
    | .error s => .error s
    | .ok r1 => writePair r1 offset (C.VAR_COLUMNS - 1) tail.1 tail.2
  else .error r

/-! ### The range unit -/

/-- Growth of the range ledger (`EXTEND_SIZE = 1024`): executed when
`offset >= range_adv_record.len()`. -/
def growRangeStorage (r : Records N) (offset : Nat) : Records N :=
  if r.range_adv_record.length ≤ offset then
    let to_len := alignTo 1024 offset
    { r with
      range_adv_record := resizeList r.range_adv_record to_len (none, false),
      range_fix_record := resizeList r.range_fix_record to_len (none, none) }
  else r

/-- `if offset >= self.range_height { self.range_height = offset + 1; }`. -/
def bumpRangeHeight (r : Records N) (offset : Nat) : Records N :=
  if r.range_height ≤ offset then { r with range_height := offset + 1 } else r

/-- `Records::ensure_range_record_size` (`EXTEND_SIZE = 1024`): grow the
backing storage if needed, then advance the height. -/
def ensure_range_record_size (r : Records N) (offset : Nat) : Records N :=
  bumpRangeHeight (growRangeStorage r offset) offset

/-- `Records::assign_single_range_value`. -/
def assign_single_range_value [NatCast N] (r : Records N) (offset : Nat) (v : N)
    (leading_bits : Nat) : Records N × AssignedValue N :=
  let r1 := ensure_range_record_size r (offset + 1)
  let r2 := setRangeFixClass r1 offset (some (Nat.cast leading_bits))
  let r3 := setRangeAdvVal r2 offset (some v)
  (r3, AssignedValue.new Chip.RangeChip 0 offset v)

/-- The `for i in 0..chunks.len() - 1` loop of `assign_range_value`:
write `k` common-width class markers at rows `offset + 1 + i`, ... -/
def writeClassMarkers [NatCast N] (C : Consts) (r : Records N) (offset : Nat) :
    Nat → Nat → Records N
  | _, 0 => r
  | i, Nat.succ k =>
    writeClassMarkers C
      (setRangeFixClass r (offset + 1 + i) (some (Nat.cast C.COMMON_RANGE_BITS)))
      offset (i + 1) k

/-- The `for i in 0..chunks.len()` chunk-writing loop of
`assign_range_value`. -/
def writeChunks (r : Records N) (offset : Nat) : Nat → List N → Records N
  | _, [] => r
  | i, c :: rest => writeChunks (setRangeAdvVal r (offset + 1 + i) (some c)) offset (i + 1) rest

/-- `Records::assign_range_value`. `Except.error s` models a panic: the
leading `assert!` leaves the ledger untouched, and when `chunks` is empty
the expression `chunks.len() - 1` underflows `usize` (a debug-build panic;
in release builds the wrapped loop bound overruns the record vector and
panics on an out-of-bounds index), leaving the ledger in the partially
mutated state reached at that point. -/
def assign_range_value [Zero N] [One N] [NatCast N] (C : Consts) (r : Records N)
    (offset : Nat) (v : N) (chunks : List N) (leading_bits : Nat) :
    Except (Records N) (Records N × AssignedValue N) :=
  if chunks.length ≤ C.MAX_CHUNKS then
    let r1 := ensure_range_record_size r (offset + 1 + C.MAX_CHUNKS)
    let r2 := setRangeFixFirst r1 offset (some 1)
    let r3 := setRangeAdvVal r2 offset (some v)
    let r4 := setRangeFixFirst r3 (offset + C.MAX_CHUNKS) (some 0)
    match chunks.length with
    | 0 => .error r4
    | Nat.succ m =>
      let r5 := writeClassMarkers C r4 offset 0 m
      let r6 := setRangeFixClass r5 (offset + chunks.length) (some (Nat.cast leading_bits))
      let r7 := writeChunks r6 offset 0 chunks
      .ok (r7, AssignedValue.new Chip.RangeChip 0 offset v)
  else .error r

/-! ### Materialization (`assign_all`)

The external proof system is modelled by a log of region operations: the
engine only needs `assign_advice`, `assign_fixed` and `constrain_equal`
from it (spec section 6). A placed cell handle (`AssignedCell`) is the
column/row address plus the placed value. -/

/-- A placed-cell handle returned by the region. -/
structure AssignedCell (N : Type) where
  chip : Chip
  col : Nat
  row : Nat
  val : N
deriving DecidableEq

/-- The fixed column selected by `_assign_to_base_chip`'s column mapping,
or one of the two range-unit fixed columns. -/
inductive FixColId where
  | coeff : Nat → FixColId
  | mulCoeff : Nat → FixColId
  | nextCoeff
  | constantCol
  | blockFirst
  | rangeClass
deriving DecidableEq

/-- The column mapping of `_assign_to_base_chip` for fixed lane `col`. -/
def baseFixColId (C : Consts) (col : Nat) : FixColId :=
  if col < C.VAR_COLUMNS then .coeff col
  else if col - C.VAR_COLUMNS < C.MUL_COLUMNS then .mulCoeff (col - C.VAR_COLUMNS)
  else if col - C.VAR_COLUMNS - C.MUL_COLUMNS = 0 then .nextCoeff
  else .constantCol

/-- One operation issued to the proof system's region. -/
inductive RegionOp (N : Type) where
  | assignAdvice : Chip → Nat → Nat → N → RegionOp N
  | assignFixed : FixColId → Nat → N → RegionOp N
  | constrainEqual : AssignedCell N → AssignedCell N → RegionOp N
deriving DecidableEq

/-- A materialized cell table, indexed `[lane][step]`. -/
abbrev CellTable (N : Type) := List (List (Option (AssignedCell N)))

/-- `cells[col][row] = x` on a cell table. -/
def set2 (cells : CellTable N) (col row : Nat) (x : Option (AssignedCell N)) : CellTable N :=
  modifyAt cells col (fun l => l.set row x)

/-- Read `cells[col][row]` on a cell table, `none` when out of bounds. -/
def get2 (cells : CellTable N) (col row : Nat) : Option (AssignedCell N) :=
  match cells[col]? with
  | some l =>
    match l[row]? with
    | some x => x
    | none => none
  | none => none

/-- The inner `for (col, adv) in advs` loop of `_assign_to_base_chip`'s
advice pass: emit an `assign_advice` for every present value and store the
handle in the cell table when `needs_copy` is set. -/
def baseAdvRowLoop (acc : List (RegionOp N) × CellTable N) (row : Nat) :
    Nat → List (Option N × Bool) → List (RegionOp N) × CellTable N
  | _, [] => acc
  | col, adv :: rest =>
    let acc' :=
      match adv.1 with
      | some v =>
        (acc.1 ++ [RegionOp.assignAdvice Chip.BaseChip col row v],
         if adv.2 then set2 acc.2 col row (some ⟨Chip.BaseChip, col, row, v⟩) else acc.2)
      | none => acc
    baseAdvRowLoop acc' row (col + 1) rest

/-- The outer row loop of `_assign_to_base_chip`'s advice pass, with the
`if row >= self.base_height { break; }` guard. -/
def baseAdvLoop (acc : List (RegionOp N) × CellTable N) (height : Nat) :
    Nat → List (List (Option N × Bool)) → List (RegionOp N) × CellTable N
  | _, [] => acc
  | row, advs :: rest =>
    if height ≤ row then acc
    else baseAdvLoop (baseAdvRowLoop acc row 0 advs) height (row + 1) rest

/-- The inner fixed-lane loop of `_assign_to_base_chip`'s fixed pass. -/
def baseFixRowLoop (C : Consts) (ops : List (RegionOp N)) (row : Nat) :
    Nat → List (Option N) → List (RegionOp N)
  | _, [] => ops
  | col, fx :: rest =>
    let ops' :=
      match fx with
      | some v => ops ++ [RegionOp.assignFixed (baseFixColId C col) row v]
      | none => ops
    baseFixRowLoop C ops' row (col + 1) rest

/-- The outer row loop of `_assign_to_base_chip`'s fixed pass. -/
def baseFixLoop (C : Consts) (ops : List (RegionOp N)) (height : Nat) :
    Nat → List (List (Option N)) → List (RegionOp N)
  | _, [] => ops
  | row, fixes :: rest =>
    if height ≤ row then ops
    else baseFixLoop C (baseFixRowLoop C ops row 0 fixes) height (row + 1) rest

/-- `Records::_assign_to_base_chip`: the advice pass then the fixed pass;
returns the emitted region operations and the cell table
(`VAR_COLUMNS` lanes, each of length `base_height`). -/
def _assign_to_base_chip (C : Consts) (r : Records N) :
    List (RegionOp N) × CellTable N :=
  let cells0 : CellTable N :=
    List.replicate C.VAR_COLUMNS (List.replicate r.base_height none)
  let advPart := baseAdvLoop ([], cells0) r.base_height 0 r.base_adv_record
  let fixOps := baseFixLoop C advPart.1 r.base_height 0 r.base_fix_record
  (fixOps, advPart.2)

/-- The fixed-marker row loop of `_assign_to_range_chip`. -/
def rangeFixLoop (ops : List (RegionOp N)) (height : Nat) :
    Nat → List (Option N × Option N) → List (RegionOp N)
  | _, [] => ops
  | row, fx :: rest =>
    if height ≤ row then ops
    else
      let ops1 :=
        match fx.1 with
        | some v => ops ++ [RegionOp.assignFixed .blockFirst row v]
        | none => ops
      let ops2 :=
        match fx.2 with
        | some v => ops1 ++ [RegionOp.assignFixed .rangeClass row v]
        | none => ops1
      rangeFixLoop ops2 height (row + 1) rest

/-- The advice row loop of `_assign_to_range_chip`. -/
def rangeAdvLoop (acc : List (RegionOp N) × CellTable N) (height : Nat) :
    Nat → List (Option N × Bool) → List (RegionOp N) × CellTable N
  | _, [] => acc
  | row, adv :: rest =>
    if height ≤ row then acc
    else
      let acc' :=
        match adv.1 with
        | some v =>
          (acc.1 ++ [RegionOp.assignAdvice Chip.RangeChip 0 row v],
           if adv.2 then set2 acc.2 0 row (some ⟨Chip.RangeChip, 0, row, v⟩) else acc.2)
        | none => acc
      rangeAdvLoop acc' height (row + 1) rest

/-- `Records::_assign_to_range_chip`: fixed markers first, then the single
advice lane; the cell table has one lane of length `range_height`. -/
def _assign_to_range_chip (r : Records N) : List (RegionOp N) × CellTable N :=
  let cells0 : CellTable N := [List.replicate r.range_height none]
  let fixOps := rangeFixLoop [] r.range_height 0 r.range_fix_record
  rangeAdvLoop (fixOps, cells0) r.range_height 0 r.range_adv_record

/-- How materialization can fail: `panic` models the `.unwrap()` on a
missing placed-cell handle (or the out-of-bounds index reaching it) — a
non-recoverable structural fault; `regionError` models a recoverable
`Err` forwarded from the proof system's region (never produced here since
the modelled region always succeeds). -/
inductive MatErr where
  | panic
  | regionError
deriving DecidableEq

/-- Look a `Cell` up in the materialized tables,
`cells[region as usize][col][row]`. -/
def cellsLookup (cells : List (CellTable N)) (c : Cell) : Option (AssignedCell N) :=
  match cells[c.region.toIdx]? with
  | some tab => get2 tab c.col c.row
  | none => none

/-- `Records::_assign_permutation`: resolve every pending pair against the
cell tables and emit the `constrain_equal` calls; a missing handle is the
`.unwrap()` panic. -/
def _assign_permutation (cells : List (CellTable N)) :
    List (Cell × Cell) → Except MatErr (List (RegionOp N))
  | [] => .ok []
  | (l, rr) :: rest =>
    match cellsLookup cells l, cellsLookup cells rr with
    | some hl, some hr =>
      match _assign_permutation cells rest with
      | .ok ops => .ok (RegionOp.constrainEqual hl hr :: ops)
      | .error e => .error e
    | _, _ => .error MatErr.panic

/-- `Records::assign_all`: base unit, then range unit, then permutations. -/
def assign_all (C : Consts) (r : Records N) :
    Except MatErr (List (RegionOp N) × List (CellTable N)) :=
  let base := _assign_to_base_chip C r
  let range := _assign_to_range_chip r
  let cells := [base.2, range.2]
  match _assign_permutation cells r.permutations with
  | .ok permOps => .ok (base.1 ++ range.1 ++ permOps, cells)
  | .error e => .error e

/-- The materialized cell tables of a ledger (what `assign_all` computes
before the permutation pass). -/
def matCells (C : Consts) (r : Records N) : List (CellTable N) :=
  [(_assign_to_base_chip C r).2, (_assign_to_range_chip r).2]

/-- `placed(c).value`: the value carried by the materialized handle at
cell `c`, when one exists. -/
def placedVal (C : Consts) (r : Records N) (c : Cell) : Option N :=
  (cellsLookup (matCells C r) c).map AssignedCell.val

/-! ### Request sequences over one ledger -/

/-- A layout request against the shared ledger. -/
inductive Req (N : Type) where
  | line : Nat → List (ValueSchema N × N) → Option N → List N → Option N → Req N
  | lineLast : Nat → List (ValueSchema N × N) → ValueSchema N → N → Option N → List N →
      Option N → Req N
  | singleRange : Nat → N → Nat → Req N
  | rangeVal : Nat → N → List N → Nat → Req N

/-- Whether a request is one of the two gate-packing (`one_line`)
requests. -/
def isLineReq : Req N → Bool
  | .line _ _ _ _ _ => true
  | .lineLast _ _ _ _ _ _ _ => true
  | _ => false

/-- Apply one request to the ledger; the returned `AssignedValue` of the
range requests is dropped (the run tracks the ledger only). -/
def applyReq [Zero N] [One N] [NatCast N] (C : Consts) (r : Records N) :
    Req N → Except (Records N) (Records N)
  | .line offset pairs cst muls nxt => one_line C r offset pairs cst (muls, nxt)
  | .lineLast offset pairs tv tc cst muls nxt =>
    one_line_with_last C r offset pairs (tv, tc) cst (muls, nxt)
  | .singleRange offset v lb => .ok (assign_single_range_value r offset v lb).1
  | .rangeVal offset v chunks lb =>
    match assign_range_value C r offset v chunks lb with
    | .ok res => .ok res.1
    | .error s => .error s

/-- Run a list of requests left to right, stopping at the first panic. -/
def runReqs [Zero N] [One N] [NatCast N] (C : Consts) (r : Records N) :
    List (Req N) → Except (Records N) (Records N)
  | [] => .ok r
  | q :: rest =>
    match applyReq C r q with
    | .ok r' => runReqs C r' rest
    | .error s => .error s

/-! ### The context hierarchy and `Rc` ownership -/

/-- `Context<N>`: the shared ledger plus the two step cursors (the
`Arc<Mutex<..>>` wrapper is flattened away: all access is sequential,
spec section 5). -/
structure ContextModel (N : Type) where
  records : Records N
  base_offset : Nat
  range_offset : Nat

/-- Modelled from the spec (Rust `Rc` reference counting, spec section 3
"Ownership"): a reference-counted cell is its strong count together with
the held value; `Rc::try_unwrap` succeeds exactly when the count is 1,
cloning increments the count and dropping a handle decrements it. -/
structure RcCell (α : Type) where
  strong : Nat
  val : α

/-- `Rc::try_unwrap`, returning the value only for a unique owner. -/
def rcTryUnwrap (c : RcCell α) : Option α := if c.strong = 1 then some c.val else none

/-- `From<IntegerContext<W, N>> for Context<N>`:
`Rc::try_unwrap(value.ctx).unwrap().into_inner()`. The wrapper holds one
handle; `cell` is the shared cell at conversion time and `none` models
the `.unwrap()` panic. -/
def integer_context_into_context (cell : RcCell (ContextModel N)) :
    Option (ContextModel N) :=
  rcTryUnwrap cell

/-- `From<NativeScalarEccContext<C>> for Context<C::Scalar>`: delegates to
the `IntegerContext` conversion (`value.0.into()`). -/
def native_scalar_ecc_into_context (cell : RcCell (ContextModel N)) :
    Option (ContextModel N) :=
  integer_context_into_context cell

/-- `From<GeneralScalarEccContext<C, N>> for Context<N>`: drop the two
sibling `IntegerContext` handles (two of the wrapper's three handles),
then `Rc::try_unwrap(value.native_ctx).unwrap().into_inner()`. -/
def general_ecc_into_context (cell : RcCell (ContextModel N)) :
    Option (ContextModel N) :=
  rcTryUnwrap { cell with strong := cell.strong - 2 }

/-! ### Predicates used to state the claims -/

/-- The `ValueSchema` invariant of the spec: when `cell()` is present,
`value()` equals the value already recorded at that cell. -/
def schemaOkB [DecidableEq N] (r : Records N) (s : ValueSchema N) : Bool :=
  match s.cell with
  | some c => decide (advValAt r c = some s.value)
  | none => true

/-- The advice slot `(lane i, step offset)` of the base unit holds no
recorded value yet. -/
def freshB (r : Records N) (offset i : Nat) : Bool :=
  (advValAt r (Cell.new Chip.BaseChip i offset)).isNone

/-- Precondition of one head-pair list: every input satisfies the
`ValueSchema` invariant and every target slot is still unwritten. -/
def linePairsPreB [DecidableEq N] (r : Records N) (offset : Nat)
    (pairs : List (ValueSchema N × N)) : Bool :=
  pairs.all (fun p => schemaOkB r p.1) &&
  (List.range pairs.length).all (fun i => freshB r offset i)

/-- Per-request precondition for the copy-constraint soundness claim:
a gate-packing request whose schema inputs satisfy the invariant and whose
target slots are fresh (range requests excluded, as in the claim). -/
def reqPreB [DecidableEq N] (C : Consts) (r : Records N) : Req N → Bool
  | .line offset pairs _ _ _ => linePairsPreB r offset pairs
  | .lineLast offset pairs tv _ _ _ _ =>
    linePairsPreB r offset pairs && schemaOkB r tv && freshB r offset (C.VAR_COLUMNS - 1)
  | _ => false

/-- The request-sequence precondition, evaluated against the evolving
ledger. -/
def preRunB [Zero N] [One N] [NatCast N] [DecidableEq N] (C : Consts) (r : Records N) :
    List (Req N) → Bool
  | [] => true
  | q :: rest =>
    reqPreB C r q &&
      (match applyReq C r q with
       | .ok r' => preRunB C r' rest
       | .error _ => false)

/-- The claim's original precondition: only the `ValueSchema` invariant,
with no freshness requirement on the target slots. -/
def reqSchemaOnlyB [DecidableEq N] (r : Records N) : Req N → Bool
  | .line _ pairs _ _ _ => pairs.all (fun p => schemaOkB r p.1)
  | .lineLast _ pairs tv _ _ _ _ => pairs.all (fun p => schemaOkB r p.1) && schemaOkB r tv
  | _ => false

/-- `preRunB` with the claim's original (schema-only) precondition. -/
def preRunSchemaOnlyB [Zero N] [One N] [NatCast N] [DecidableEq N] (C : Consts)
    (r : Records N) : List (Req N) → Bool
  | [] => true
  | q :: rest =>
    reqSchemaOnlyB r q &&
      (match applyReq C r q with
       | .ok r' => preRunSchemaOnlyB C r' rest
       | .error _ => false)

/-- The heights reached by a request sequence: each gate-packing request
at `offset` raises the base height to `offset + 1`; each range request at
`offset` raises the range height to one past its last reserved row
(`offset + 2` for a single value, `offset + MAX_CHUNKS + 2` for a chunked
decomposition). -/
def heightsSpec (C : Consts) : List (Req N) → Nat × Nat → Nat × Nat
  | [], hs => hs
  | q :: rest, hs =>
    heightsSpec C rest
      (match q with
       | .line off _ _ _ _ => (max hs.1 (off + 1), hs.2)
       | .lineLast off _ _ _ _ _ _ => (max hs.1 (off + 1), hs.2)
       | .singleRange off _ _ => (hs.1, max hs.2 (off + 2))
       | .rangeVal off _ _ _ => (hs.1, max hs.2 (off + C.MAX_CHUNKS + 2)))

/-- Whether any content was ever recorded at range-unit step `s`
(advice value, block-first marker, or class marker). -/
def rangeWrittenB (r : Records N) (s : Nat) : Bool :=
  (rangeAdvValAt r s).isSome || (rangeFixFirstAt r s).isSome || (rangeFixClassAt r s).isSome

/-- Invariant: every pending permutation pair joins two cells holding the
same recorded advice value, with both `needs_copy` flags set. -/
def PairsInv (r : Records N) : Prop :=
  ∀ p ∈ r.permutations, ∃ v, advValAt r p.1 = some v ∧ advValAt r p.2 = some v ∧
    flagAt r p.1 = true ∧ flagAt r p.2 = true

/-- Invariant: both `needs_copy` flags of every pending pair are set. -/
def FlagPairsInv (r : Records N) : Prop :=
  ∀ p ∈ r.permutations, flagAt r p.1 = true ∧ flagAt r p.2 = true

/-- Invariant: every recorded advice value sits in the base unit below the
base height (range requests never run in the copy-soundness scenario). -/
def ValHeight (r : Records N) : Prop :=
  ∀ c v, advValAt r c = some v → c.region = Chip.BaseChip ∧ c.row < r.base_height

/-- Structural well-formedness: every base advice row has exactly
`VAR_COLUMNS` lanes (a type-level fact of the Rust fixed-size row arrays),
the height is within the backing storage, and the range unit is untouched. -/
def WFr (C : Consts) (r : Records N) : Prop :=
  (∀ l ∈ r.base_adv_record, l.length = C.VAR_COLUMNS) ∧
  r.base_height ≤ r.base_adv_record.length ∧
  r.range_adv_record = []

/-- The combined invariant for the copy-constraint soundness argument. -/
def InvC2 (C : Consts) (r : Records N) : Prop := PairsInv r ∧ ValHeight r ∧ WFr C r

/-- Rows of base advice storage all have `VAR_COLUMNS` lanes (the part of
well-formedness needed for the flag-monotonicity claim). -/
def WFrows (C : Consts) (r : Records N) : Prop :=
  ∀ l ∈ r.base_adv_record, l.length = C.VAR_COLUMNS

/-- The two heights and all backing-store lengths agree (used for steps
that mutate contents but neither grow storage nor move heights). -/
def sameShape (r r' : Records N) : Prop :=
  r'.base_height = r.base_height ∧ r'.range_height = r.range_height ∧
  r'.base_adv_record.length = r.base_adv_record.length ∧
  r'.base_fix_record.length = r.base_fix_record.length ∧
  r'.range_adv_record.length = r.range_adv_record.length ∧
  r'.range_fix_record.length = r.range_fix_record.length

/-- Old advice values survive: anything recorded in `r` is still recorded
in `r'`. -/
def preservesSome (r r' : Records N) : Prop :=
  ∀ c v, advValAt r c = some v → advValAt r' c = some v

/-- Flags are monotone from `r` to `r'`. -/
def flagMono (r r' : Records N) : Prop :=
  ∀ c, flagAt r c = true → flagAt r' c = true

/-! ### Concrete instances used by witnesses and counterexamples -/

/-- A concrete choice of the external constants (5 variable lanes, 2
product lanes, at most 3 chunks, common limb width 8). -/
def constsEx : Consts := ⟨5, 2, 3, 8⟩

/-- Counterexample trace for copy-constraint soundness: place `3`, copy it
to step 1, then overwrite step 0 with a fresh literal `4`; the schema-only
precondition holds at every call. -/
def c2CexTrace : List (Req Int) :=
  [ Req.line 0 [(ValueSchema.unassigned 3, 1)] none [] none,
    Req.line 1 [(ValueSchema.assigned (AssignedValue.new Chip.BaseChip 0 0 3), 1)] none [] none,
    Req.line 0 [(ValueSchema.unassigned 4, 1)] none [] none ]

/-- Witness trace for the amended copy-constraint soundness claim. -/
def c2WitTrace : List (Req Int) :=
  [ Req.line 0 [(ValueSchema.unassigned 3, 1)] none [] none,
    Req.line 1 [(ValueSchema.assigned (AssignedValue.new Chip.BaseChip 0 0 3), 1)] none [] none ]

/-- Witness trace for the flag-monotonicity claim. -/
def c10WitTrace : List (Req Int) :=
  [ Req.line 2 [(ValueSchema.unassigned 7, 1)] none [] none,
    Req.lineLast 3 [(ValueSchema.unassigned 8, 1)]
      (ValueSchema.assigned (AssignedValue.new Chip.BaseChip 0 2 7)) 2 (some 6) [5] (some 4) ]

/-- Witness trace for the height claim. -/
def c3WitTrace : List (Req Int) :=
  [ Req.line 0 [] none [] none,
    Req.singleRange 2 5 3,
    Req.rangeVal 6 9 [1, 2] 4 ]

/-- The ledger state refuting the original height law: a single
`assign_single_range_value` at step 0. -/
def c3CexState : Records Int := (assign_single_range_value Records.empty 0 (9 : Int) 3).1

/-- A ledger whose only permutation pair references a never-placed cell. -/
def c6Ledger : Records Int :=
  { Records.empty with permutations := [(Cell.new Chip.BaseChip 0 0, Cell.new Chip.BaseChip 0 0)] }

/-- A small ledger with backing storage longer than the heights, used to
witness that materialization ignores rows past the heights. -/
def c5Ledger : Records Int :=
  ⟨[(some 3, false) :: List.replicate 4 (none, false),
    (some 4, true) :: List.replicate 4 (none, false)],
   [some 2 :: List.replicate 8 (none : Option Int), some 6 :: List.replicate 8 none],
   1,
   [(some 5, true), (some 7, false)],
   [(some 1, some 8), (some 1, some 8)],
   1,
   []⟩

/-! ## Lemmas: list helpers -/

theorem length_modifyAt (l : List α) (i : Nat) (f : α → α) :
    (modifyAt l i f).length = l.length := by
  unfold modifyAt
  cases h : l[i]? with
  | none => rfl
  | some a => simp

theorem getElem?_modifyAt_self (l : List α) (i : Nat) (f : α → α) :
    (modifyAt l i f)[i]? = (l[i]?).map f := by
  unfold modifyAt
  cases h : l[i]? with
  | none => simpa using h
  | some a =>
    have hlen : i < l.length := by
      by_contra hc
      rw [List.getElem?_eq_none (Nat.le_of_not_lt hc)] at h
      exact Option.noConfusion h
    simp [List.getElem?_set_self hlen]

theorem getElem?_modifyAt_ne (l : List α) (f : α → α) (h : i ≠ j) :
    (modifyAt l i f)[j]? = l[j]? := by
  unfold modifyAt
  cases hx : l[i]? with
  | none => rfl
  | some a => exact List.getElem?_set_ne h

theorem mem_modifyAt (l : List α) (i : Nat) (f : α → α) (x : α)
    (hx : x ∈ modifyAt l i f) : x ∈ l ∨ ∃ a ∈ l, x = f a := by
  unfold modifyAt at hx
  cases h : l[i]? with
  | none => rw [h] at hx; exact Or.inl hx
  | some a =>
    rw [h] at hx
    rcases List.mem_or_eq_of_mem_set hx with h1 | h1
    · exact Or.inl h1
    · exact Or.inr ⟨a, List.getElem?_mem h, h1⟩

theorem length_resizeList (l : List α) (n : Nat) (d : α) :
    (resizeList l n d).length = n := by
  unfold resizeList
  split
  · simpa using by omega
  · simp only [List.length_append, List.length_replicate]
    omega

theorem getElem?_resizeList (l : List α) (n : Nat) (d : α) (i : Nat) (h : l.length ≤ n) :
    (resizeList l n d)[i]? =
      if i < l.length then l[i]? else if i < n then some d else none := by
  unfold resizeList
  by_cases hn : n ≤ l.length
  · have hEq : n = l.length := Nat.le_antisymm hn h
    subst hEq
    rw [if_pos (Nat.le_refl _), List.take_length]
    by_cases hi : i < l.length
    · rw [if_pos hi]
    · rw [if_neg hi, if_neg hi, List.getElem?_eq_none (Nat.le_of_not_lt hi)]
  · rw [if_neg hn, List.getElem?_append]
    by_cases hi : i < l.length
    · rw [if_pos hi, if_pos hi]
    · rw [if_neg hi, if_neg hi, List.getElem?_replicate]
      have hle : l.length ≤ i := Nat.le_of_not_lt hi
      by_cases hin : i < n
      · rw [if_pos (by omega), if_pos hin]
      · rw [if_neg (by omega), if_neg hin]

theorem lt_alignTo (E offset : Nat) (hE : 0 < E) : offset < alignTo E offset := by
  unfold alignTo
  have h1 := Nat.div_add_mod (offset + E) E
  have h2 := Nat.mod_lt (offset + E) hE
  rw [Nat.mul_comm]
  omega

/-! ## Lemmas: getters depend only on the relevant record fields -/

theorem advValAt_congr {r r' : Records N} (c : Cell)
    (h1 : r'.base_adv_record = r.base_adv_record)
    (h2 : r'.range_adv_record = r.range_adv_record) :
    advValAt r' c = advValAt r c := by
  unfold advValAt
  rw [h1, h2]

theorem flagAt_congr {r r' : Records N} (c : Cell)
    (h1 : r'.base_adv_record = r.base_adv_record)
    (h2 : r'.range_adv_record = r.range_adv_record) :
    flagAt r' c = flagAt r c := by
  unfold flagAt
  rw [h1, h2]

theorem rangeAdvValAt_congr {r r' : Records N} (row : Nat)
    (h : r'.range_adv_record = r.range_adv_record) :
    rangeAdvValAt r' row = rangeAdvValAt r row := by
  unfold rangeAdvValAt
  rw [h]

theorem rangeFixFirstAt_congr {r r' : Records N} (row : Nat)
    (h : r'.range_fix_record = r.range_fix_record) :
    rangeFixFirstAt r' row = rangeFixFirstAt r row := by
  unfold rangeFixFirstAt
  rw [h]

theorem rangeFixClassAt_congr {r r' : Records N} (row : Nat)
    (h : r'.range_fix_record = r.range_fix_record) :
    rangeFixClassAt r' row = rangeFixClassAt r row := by
  unfold rangeFixClassAt
  rw [h]

theorem baseFixAt_congr {r r' : Records N} (row col : Nat)
    (h : r'.base_fix_record = r.base_fix_record) :
    baseFixAt r' row col = baseFixAt r row col := by
  unfold baseFixAt
  rw [h]

/-! ## Lemmas: unfolding the getters through known lookups -/

theorem advValAt_base_none {r : Records N} {ccol crow : Nat}
    (h : r.base_adv_record[crow]? = none) :
    advValAt r (Cell.new Chip.BaseChip ccol crow) = none := by
  unfold advValAt Cell.new
  simp only [h]

theorem advValAt_base_entry {r : Records N} {ccol crow : Nat}
    {rowl : List (Option N × Bool)} {e : Option N × Bool}
    (h1 : r.base_adv_record[crow]? = some rowl) (h2 : rowl[ccol]? = some e) :
    advValAt r (Cell.new Chip.BaseChip ccol crow) = e.1 := by
  unfold advValAt Cell.new
  simp only [h1, h2]

theorem advValAt_base_entry_none {r : Records N} {ccol crow : Nat}
    {rowl : List (Option N × Bool)}
    (h1 : r.base_adv_record[crow]? = some rowl) (h2 : rowl[ccol]? = none) :
    advValAt r (Cell.new Chip.BaseChip ccol crow) = none := by
  unfold advValAt Cell.new
  simp only [h1, h2]

theorem flagAt_base_none {r : Records N} {ccol crow : Nat}
    (h : r.base_adv_record[crow]? = none) :
    flagAt r (Cell.new Chip.BaseChip ccol crow) = false := by
  unfold flagAt Cell.new
  simp only [h]

theorem flagAt_base_entry {r : Records N} {ccol crow : Nat}
    {rowl : List (Option N × Bool)} {e : Option N × Bool}
    (h1 : r.base_adv_record[crow]? = some rowl) (h2 : rowl[ccol]? = some e) :
    flagAt r (Cell.new Chip.BaseChip ccol crow) = e.2 := by
  unfold flagAt Cell.new
  simp only [h1, h2]

theorem flagAt_base_entry_none {r : Records N} {ccol crow : Nat}
    {rowl : List (Option N × Bool)}
    (h1 : r.base_adv_record[crow]? = some rowl) (h2 : rowl[ccol]? = none) :
    flagAt r (Cell.new Chip.BaseChip ccol crow) = false := by
  unfold flagAt Cell.new
  simp only [h1, h2]

theorem baseFixAt_some {r : Records N} {row col : Nat} {l : List (Option N)}
    {o : Option N} (h1 : r.base_fix_record[row]? = some l) (h2 : l[col]? = some o) :
    baseFixAt r row col = o := by
  unfold baseFixAt
  simp only [h1, h2]

/-! ## Lemmas: setters vs getters -/

theorem advValAt_setBaseFix (r : Records N) (row col : Nat) (v : Option N) (c : Cell) :
    advValAt (setBaseFix r row col v) c = advValAt r c := rfl

theorem flagAt_setBaseFix (r : Records N) (row col : Nat) (v : Option N) (c : Cell) :
    flagAt (setBaseFix r row col v) c = flagAt r c := rfl

theorem advValAt_range_cell (r : Records N) (col row : Nat) :
    advValAt r (Cell.new Chip.RangeChip col row) = rangeAdvValAt r row := rfl

theorem advValAt_setBaseAdvVal_self (r : Records N) {row col : Nat} (v : Option N)
    {rowl : List (Option N × Bool)} (hrow : r.base_adv_record[row]? = some rowl)
    (hcol : col < rowl.length) :
    advValAt (setBaseAdvVal r row col v) (Cell.new Chip.BaseChip col row) = v := by
  unfold advValAt setBaseAdvVal Cell.new
  simp only [getElem?_modifyAt_self, hrow, Option.map_some']
  rcases List.getElem?_eq_getElem hcol with he
  simp [getElem?_modifyAt_self, he]

theorem advValAt_setBaseAdvVal_ne (r : Records N) (row col : Nat) (v : Option N) (c : Cell)
    (h : c ≠ Cell.new Chip.BaseChip col row) :
    advValAt (setBaseAdvVal r row col v) c = advValAt r c := by
  obtain ⟨reg, ccol, crow⟩ := c
  cases reg with
  | RangeChip => rfl
  | BaseChip =>
    unfold advValAt setBaseAdvVal
    by_cases hrow : crow = row
    · subst hrow
      have hcol : ccol ≠ col := by
        intro hc
        exact h (by simp [Cell.new, hc])
      simp only [getElem?_modifyAt_self]
      cases hx : r.base_adv_record[crow]? with
      | none => rfl
      | some rowl => simp [getElem?_modifyAt_ne _ _ (fun he => hcol he.symm)]
    · simp only
      rw [getElem?_modifyAt_ne _ _ (fun he => hrow he.symm)]

theorem flagAt_setBaseAdvVal (r : Records N) (row col : Nat) (v : Option N) (c : Cell) :
    flagAt (setBaseAdvVal r row col v) c = flagAt r c := by
  obtain ⟨reg, ccol, crow⟩ := c
  cases reg with
  | RangeChip => rfl
  | BaseChip =>
    unfold flagAt setBaseAdvVal
    by_cases hrow : crow = row
    · subst hrow
      simp only [getElem?_modifyAt_self]
      cases hx : r.base_adv_record[crow]? with
      | none => rfl
      | some rowl =>
        simp only [Option.map_some']
        by_cases hcol : ccol = col
        · subst hcol
          simp only [getElem?_modifyAt_self]
          cases rowl[ccol]? <;> rfl
        · rw [getElem?_modifyAt_ne _ _ (fun he => hcol he.symm)]
    · rw [getElem?_modifyAt_ne _ _ (fun he => hrow he.symm)]

theorem advValAt_setBaseAdvFlag (r : Records N) (row col : Nat) (c : Cell) :
    advValAt (setBaseAdvFlag r row col) c = advValAt r c := by
  obtain ⟨reg, ccol, crow⟩ := c
  cases reg with
  | RangeChip => rfl
  | BaseChip =>
    unfold advValAt setBaseAdvFlag
    by_cases hrow : crow = row
    · subst hrow
      simp only [getElem?_modifyAt_self]
      cases hx : r.base_adv_record[crow]? with
      | none => rfl
      | some rowl =>
        simp only [Option.map_some']
        by_cases hcol : ccol = col
        · subst hcol
          simp only [getElem?_modifyAt_self]
          cases rowl[ccol]? <;> rfl
        · rw [getElem?_modifyAt_ne _ _ (fun he => hcol he.symm)]
    · rw [getElem?_modifyAt_ne _ _ (fun he => hrow he.symm)]

theorem flagAt_setBaseAdvFlag_self (r : Records N) {row col : Nat}
    {rowl : List (Option N × Bool)} (hrow : r.base_adv_record[row]? = some rowl)
    (hcol : col < rowl.length) :
    flagAt (setBaseAdvFlag r row col) (Cell.new Chip.BaseChip col row) = true := by
  unfold flagAt setBaseAdvFlag Cell.new
  simp only [getElem?_modifyAt_self, hrow, Option.map_some']
  rcases List.getElem?_eq_getElem hcol with he
  simp [getElem?_modifyAt_self, he]

theorem flagAt_setBaseAdvFlag_ne (r : Records N) (row col : Nat) (c : Cell)
    (h : c ≠ Cell.new Chip.BaseChip col row) :
    flagAt (setBaseAdvFlag r row col) c = flagAt r c := by
  obtain ⟨reg, ccol, crow⟩ := c
  cases reg with
  | RangeChip => rfl
  | BaseChip =>
    unfold flagAt setBaseAdvFlag
    by_cases hrow : crow = row
    · subst hrow
      have hcol : ccol ≠ col := by
        intro hc
        exact h (by simp [Cell.new, hc])
      simp only [getElem?_modifyAt_self]
      cases hx : r.base_adv_record[crow]? with
      | none => rfl
      | some rowl => simp [getElem?_modifyAt_ne _ _ (fun he => hcol he.symm)]
    · rw [getElem?_modifyAt_ne _ _ (fun he => hrow he.symm)]

theorem flagAt_setBaseAdvFlag_mono (r : Records N) (row col : Nat) (c : Cell)
    (h : flagAt r c = true) :
    flagAt (setBaseAdvFlag r row col) c = true := by
  by_cases hc : c = Cell.new Chip.BaseChip col row
  · subst hc
    simp only [flagAt, Cell.new] at h
    cases hx : r.base_adv_record[row]? with
    | none => simp [hx] at h
    | some rowl =>
      simp only [hx] at h
      cases hy : rowl[col]? with
      | none => simp [hy] at h
      | some e =>
        have hcol : col < rowl.length := by
          by_contra hcon
          rw [List.getElem?_eq_none (Nat.le_of_not_lt hcon)] at hy
          exact Option.noConfusion hy
        exact flagAt_setBaseAdvFlag_self r hx hcol
  · rw [flagAt_setBaseAdvFlag_ne r row col c hc]
    exact h

/-! Range-unit setters. -/

theorem rangeAdvValAt_setRangeAdvVal_self (r : Records N) {row : Nat} (v : Option N)
    (h : row < r.range_adv_record.length) :
    rangeAdvValAt (setRangeAdvVal r row v) row = v := by
  unfold rangeAdvValAt setRangeAdvVal
  simp only [getElem?_modifyAt_self]
  rcases List.getElem?_eq_getElem h with he
  simp [he]

theorem rangeAdvValAt_setRangeAdvVal_ne (r : Records N) (row : Nat) (v : Option N)
    {row' : Nat} (h : row ≠ row') :
    rangeAdvValAt (setRangeAdvVal r row v) row' = rangeAdvValAt r row' := by
  unfold rangeAdvValAt setRangeAdvVal
  rw [getElem?_modifyAt_ne _ _ h]

theorem flagAt_setRangeAdvVal (r : Records N) (row : Nat) (v : Option N) (c : Cell) :
    flagAt (setRangeAdvVal r row v) c = flagAt r c := by
  obtain ⟨reg, ccol, crow⟩ := c
  cases reg with
  | BaseChip => rfl
  | RangeChip =>
    unfold flagAt setRangeAdvVal
    by_cases hrow : crow = row
    · subst hrow
      simp only [getElem?_modifyAt_self]
      cases r.range_adv_record[crow]? <;> rfl
    · rw [getElem?_modifyAt_ne _ _ (fun he => hrow he.symm)]

theorem advValAt_setRangeAdvFlag (r : Records N) (row : Nat) (c : Cell) :
    advValAt (setRangeAdvFlag r row) c = advValAt r c := by
  obtain ⟨reg, ccol, crow⟩ := c
  cases reg with
  | BaseChip => rfl
  | RangeChip =>
    unfold advValAt setRangeAdvFlag
    by_cases hrow : crow = row
    · subst hrow
      simp only [getElem?_modifyAt_self]
      cases r.range_adv_record[crow]? <;> rfl
    · rw [getElem?_modifyAt_ne _ _ (fun he => hrow he.symm)]

theorem flagAt_setRangeAdvFlag_self (r : Records N) {row : Nat}
    (h : row < r.range_adv_record.length) :
    flagAt (setRangeAdvFlag r row) (Cell.new Chip.RangeChip 0 row) = true := by
  unfold flagAt setRangeAdvFlag Cell.new
  simp only [getElem?_modifyAt_self]
  rcases List.getElem?_eq_getElem h with he
  simp [he]

theorem flagAt_setRangeAdvFlag_mono (r : Records N) (row : Nat) (c : Cell)
    (h : flagAt r c = true) :
    flagAt (setRangeAdvFlag r row) c = true := by
  obtain ⟨reg, ccol, crow⟩ := c
  cases reg with
  | BaseChip => exact h
  | RangeChip =>
    simp only [flagAt, setRangeAdvFlag] at h ⊢
    by_cases hrow : crow = row
    · subst hrow
      rw [getElem?_modifyAt_self]
      cases hx : r.range_adv_record[crow]? with
      | none => rw [hx] at h; exact absurd h (by simp)
      | some e => simp
    · rw [getElem?_modifyAt_ne _ _ (fun he => hrow he.symm)]
      exact h

theorem flagAt_setRangeAdvFlag_base (r : Records N) (row : Nat) (c : Cell)
    (h : c.region = Chip.BaseChip) :
    flagAt (setRangeAdvFlag r row) c = flagAt r c := by
  obtain ⟨reg, ccol, crow⟩ := c
  cases reg with
  | BaseChip => rfl
  | RangeChip => exact absurd h (by simp)

theorem rangeFixFirstAt_setRangeFixFirst_self (r : Records N) {row : Nat} (v : Option N)
    (h : row < r.range_fix_record.length) :
    rangeFixFirstAt (setRangeFixFirst r row v) row = v := by
  unfold rangeFixFirstAt setRangeFixFirst
  simp only [getElem?_modifyAt_self]
  rcases List.getElem?_eq_getElem h with he
  simp [he]

theorem rangeFixFirstAt_setRangeFixFirst_ne (r : Records N) (row : Nat) (v : Option N)
    {row' : Nat} (h : row ≠ row') :
    rangeFixFirstAt (setRangeFixFirst r row v) row' = rangeFixFirstAt r row' := by
  unfold rangeFixFirstAt setRangeFixFirst
  rw [getElem?_modifyAt_ne _ _ h]

theorem rangeFixFirstAt_setRangeFixClass (r : Records N) (row : Nat) (v : Option N)
    (row' : Nat) :
    rangeFixFirstAt (setRangeFixClass r row v) row' = rangeFixFirstAt r row' := by
  unfold rangeFixFirstAt setRangeFixClass
  by_cases hrow : row = row'
  · subst hrow
    simp only [getElem?_modifyAt_self]
    cases r.range_fix_record[row]? <;> rfl
  · rw [getElem?_modifyAt_ne _ _ hrow]

theorem rangeFixClassAt_setRangeFixClass_self (r : Records N) {row : Nat} (v : Option N)
    (h : row < r.range_fix_record.length) :
    rangeFixClassAt (setRangeFixClass r row v) row = v := by
  unfold rangeFixClassAt setRangeFixClass
  simp only [getElem?_modifyAt_self]
  rcases List.getElem?_eq_getElem h with he
  simp [he]

theorem rangeFixClassAt_setRangeFixClass_ne (r : Records N) (row : Nat) (v : Option N)
    {row' : Nat} (h : row ≠ row') :
    rangeFixClassAt (setRangeFixClass r row v) row' = rangeFixClassAt r row' := by
  unfold rangeFixClassAt setRangeFixClass
  rw [getElem?_modifyAt_ne _ _ h]

theorem rangeFixClassAt_setRangeFixFirst (r : Records N) (row : Nat) (v : Option N)
    (row' : Nat) :
    rangeFixClassAt (setRangeFixFirst r row v) row' = rangeFixClassAt r row' := by
  unfold rangeFixClassAt setRangeFixFirst
  by_cases hrow : row = row'
  · subst hrow
    simp only [getElem?_modifyAt_self]
    cases r.range_fix_record[row]? <;> rfl
  · rw [getElem?_modifyAt_ne _ _ hrow]

/-! ## Lemmas: shapes of the primitive mutations -/

theorem sameShape_refl (r : Records N) : sameShape r r :=
  ⟨rfl, rfl, rfl, rfl, rfl, rfl⟩

theorem sameShape_trans {r1 r2 r3 : Records N}
    (h1 : sameShape r1 r2) (h2 : sameShape r2 r3) : sameShape r1 r3 := by
  obtain ⟨a1, b1, c1, d1, e1, f1⟩ := h1
  obtain ⟨a2, b2, c2, d2, e2, f2⟩ := h2
  exact ⟨a2.trans a1, b2.trans b1, c2.trans c1, d2.trans d1, e2.trans e1, f2.trans f1⟩

theorem sameShape_setBaseAdvVal (r : Records N) (row col : Nat) (v : Option N) :
    sameShape r (setBaseAdvVal r row col v) :=
  ⟨rfl, rfl, length_modifyAt _ _ _, rfl, rfl, rfl⟩

theorem sameShape_setBaseAdvFlag (r : Records N) (row col : Nat) :
    sameShape r (setBaseAdvFlag r row col) :=
  ⟨rfl, rfl, length_modifyAt _ _ _, rfl, rfl, rfl⟩

theorem sameShape_setBaseFix (r : Records N) (row col : Nat) (v : Option N) :
    sameShape r (setBaseFix r row col v) :=
  ⟨rfl, rfl, rfl, length_modifyAt _ _ _, rfl, rfl⟩

theorem sameShape_setRangeAdvVal (r : Records N) (row : Nat) (v : Option N) :
    sameShape r (setRangeAdvVal r row v) :=
  ⟨rfl, rfl, rfl, rfl, length_modifyAt _ _ _, rfl⟩

theorem sameShape_setRangeAdvFlag (r : Records N) (row : Nat) :
    sameShape r (setRangeAdvFlag r row) :=
  ⟨rfl, rfl, rfl, rfl, length_modifyAt _ _ _, rfl⟩

theorem sameShape_setRangeFixFirst (r : Records N) (row : Nat) (v : Option N) :
    sameShape r (setRangeFixFirst r row v) :=
  ⟨rfl, rfl, rfl, rfl, rfl, length_modifyAt _ _ _⟩

theorem sameShape_setRangeFixClass (r : Records N) (row : Nat) (v : Option N) :
    sameShape r (setRangeFixClass r row v) :=
  ⟨rfl, rfl, rfl, rfl, rfl, length_modifyAt _ _ _⟩

theorem sameShape_permutations_append (r : Records N) (p : Cell × Cell) :
    sameShape r { r with permutations := r.permutations ++ [p] } :=
  ⟨rfl, rfl, rfl, rfl, rfl, rfl⟩

theorem enable_permute_shape {r r2 : Records N} {c : Cell}
    (h : enable_permute r c = some r2) : sameShape r r2 := by
  unfold enable_permute at h
  cases hreg : c.region with
  | BaseChip =>
    simp only [hreg] at h
    cases hx : r.base_adv_record[c.row]? with
    | none => simp only [hx] at h; exact Option.noConfusion h
    | some rowl =>
      simp only [hx] at h
      by_cases hcol : c.col < rowl.length
      · rw [if_pos hcol] at h
        cases h
        exact sameShape_setBaseAdvFlag r c.row c.col
      · rw [if_neg hcol] at h
        exact Option.noConfusion h
  | RangeChip =>
    simp only [hreg] at h
    by_cases hrow : c.row < r.range_adv_record.length
    · rw [if_pos hrow] at h
      cases h
      exact sameShape_setRangeAdvFlag r c.row
    · rw [if_neg hrow] at h
      exact Option.noConfusion h

theorem writePair_shape {r r' : Records N} {offset i : Nat} {b : ValueSchema N} {co : N}
    (h : writePair r offset i b co = .ok r') : sameShape r r' := by
  unfold writePair at h
  cases hc : b.cell with
  | none =>
    simp only [hc] at h
    cases h
    exact sameShape_trans (sameShape_setBaseFix _ _ _ _) (sameShape_setBaseAdvVal _ _ _ _)
  | some cell =>
    simp only [hc] at h
    cases he : enable_permute (setBaseAdvFlag r offset i) cell with
    | none => simp only [he] at h; exact Except.noConfusion h
    | some r2 =>
      simp only [he, Except.ok.injEq] at h
      subst h
      exact sameShape_trans (sameShape_setBaseAdvFlag r offset i)
        (sameShape_trans (enable_permute_shape he)
          (sameShape_trans (sameShape_permutations_append _ _)
            (sameShape_trans (sameShape_setBaseFix _ _ _ _)
              (sameShape_setBaseAdvVal _ _ _ _))))

theorem one_line_pairs_shape {offset : Nat} :
    ∀ (pairs : List (ValueSchema N × N)) (r r' : Records N) (i : Nat),
      one_line_pairs r offset i pairs = .ok r' → sameShape r r'
  | [], r, r', i, h => by
    unfold one_line_pairs at h
    cases h
    exact sameShape_refl r
  | (b, co) :: rest, r, r', i, h => by
    unfold one_line_pairs at h
    cases hw : writePair r offset i b co with
    | error s => rw [hw] at h; exact Except.noConfusion h
    | ok r1 =>
      rw [hw] at h
      exact sameShape_trans (writePair_shape hw) (one_line_pairs_shape rest r1 r' (i + 1) h)

theorem writeMuls_shape (C : Consts) {offset : Nat} :
    ∀ (ms : List N) (r : Records N) (i : Nat), sameShape r (writeMuls C r offset i ms)
  | [], r, i => sameShape_refl r
  | m :: rest, r, i =>
    sameShape_trans (sameShape_setBaseFix _ _ _ _)
      (writeMuls_shape C rest (setBaseFix r offset (C.VAR_COLUMNS + i) (some m)) (i + 1))

theorem writeClassMarkers_shape [NatCast N] (C : Consts) {offset : Nat} :
    ∀ (k : Nat) (r : Records N) (i : Nat), sameShape r (writeClassMarkers C r offset i k)
  | 0, r, i => sameShape_refl r
  | Nat.succ k, r, i =>
    sameShape_trans (sameShape_setRangeFixClass _ _ _)
      (writeClassMarkers_shape C k _ (i + 1))

theorem writeChunks_shape {offset : Nat} :
    ∀ (cs : List N) (r : Records N) (i : Nat), sameShape r (writeChunks r offset i cs)
  | [], r, i => sameShape_refl r
  | c :: rest, r, i =>
    sameShape_trans (sameShape_setRangeAdvVal _ _ _) (writeChunks_shape rest _ (i + 1))

/-! ## Lemmas: growth and height bumps -/

theorem bumpBaseHeight_base_height (r : Records N) (offset : Nat) :
    (bumpBaseHeight r offset).base_height = max r.base_height (offset + 1) := by
  unfold bumpBaseHeight
  split
  · next h =>
    show offset + 1 = max r.base_height (offset + 1)
    exact (Nat.max_eq_right (by omega)).symm
  · next h =>
    show r.base_height = max r.base_height (offset + 1)
    exact (Nat.max_eq_left (by omega)).symm

theorem bumpBaseHeight_rest (r : Records N) (offset : Nat) :
    (bumpBaseHeight r offset).base_adv_record = r.base_adv_record ∧
    (bumpBaseHeight r offset).base_fix_record = r.base_fix_record ∧
    (bumpBaseHeight r offset).range_adv_record = r.range_adv_record ∧
    (bumpBaseHeight r offset).range_fix_record = r.range_fix_record ∧
    (bumpBaseHeight r offset).range_height = r.range_height ∧
    (bumpBaseHeight r offset).permutations = r.permutations := by
  unfold bumpBaseHeight
  split <;> exact ⟨rfl, rfl, rfl, rfl, rfl, rfl⟩

theorem bumpRangeHeight_range_height (r : Records N) (offset : Nat) :
    (bumpRangeHeight r offset).range_height = max r.range_height (offset + 1) := by
  unfold bumpRangeHeight
  split
  · next h =>
    show offset + 1 = max r.range_height (offset + 1)
    exact (Nat.max_eq_right (by omega)).symm
  · next h =>
    show r.range_height = max r.range_height (offset + 1)
    exact (Nat.max_eq_left (by omega)).symm

theorem bumpRangeHeight_rest (r : Records N) (offset : Nat) :
    (bumpRangeHeight r offset).base_adv_record = r.base_adv_record ∧
    (bumpRangeHeight r offset).base_fix_record = r.base_fix_record ∧
    (bumpRangeHeight r offset).base_height = r.base_height ∧
    (bumpRangeHeight r offset).range_adv_record = r.range_adv_record ∧
    (bumpRangeHeight r offset).range_fix_record = r.range_fix_record ∧
    (bumpRangeHeight r offset).permutations = r.permutations := by
  unfold bumpRangeHeight
  split <;> exact ⟨rfl, rfl, rfl, rfl, rfl, rfl⟩

theorem extendBase_rest (C : Consts) (r : Records N) (offset : Nat) :
    (extendBase C r offset).base_height = r.base_height ∧
    (extendBase C r offset).range_adv_record = r.range_adv_record ∧
    (extendBase C r offset).range_fix_record = r.range_fix_record ∧
    (extendBase C r offset).range_height = r.range_height ∧
    (extendBase C r offset).permutations = r.permutations := by
  unfold extendBase
  split <;> exact ⟨rfl, rfl, rfl, rfl, rfl⟩

theorem extendBase_adv_length (C : Consts) (r : Records N) (offset : Nat) :
    offset < (extendBase C r offset).base_adv_record.length := by
  unfold extendBase
  split
  · rw [length_resizeList]
    exact lt_alignTo 16 offset (by omega)
  · omega

theorem extendBase_adv_le (C : Consts) (r : Records N) (offset : Nat) :
    r.base_adv_record.length ≤ (extendBase C r offset).base_adv_record.length := by
  unfold extendBase
  split
  · rw [length_resizeList]
    have := lt_alignTo 16 offset (by omega)
    omega
  · exact Nat.le_refl _

theorem extendBase_getBaseAdv (C : Consts) (r : Records N) (offset : Nat) (crow : Nat) :
    (extendBase C r offset).base_adv_record[crow]? =
      if crow < r.base_adv_record.length then r.base_adv_record[crow]?
      else if r.base_adv_record.length ≤ offset ∧ crow < alignTo 16 offset then
        some (List.replicate C.VAR_COLUMNS (none, false))
      else none := by
  unfold extendBase
  split
  · next hgrow =>
    have hle : r.base_adv_record.length ≤ alignTo 16 offset := by
      have := lt_alignTo 16 offset (by omega)
      omega
    show (resizeList r.base_adv_record (alignTo 16 offset)
        (List.replicate C.VAR_COLUMNS (none, false)))[crow]? = _
    rw [getElem?_resizeList _ _ _ _ hle]
    by_cases hlt : crow < r.base_adv_record.length
    · rw [if_pos hlt, if_pos hlt]
    · rw [if_neg hlt]
      by_cases hlt2 : crow < alignTo 16 offset
      · rw [if_pos hlt2, if_neg hlt, if_pos ⟨hgrow, hlt2⟩]
      · rw [if_neg hlt2, if_neg hlt, if_neg (fun hx => hlt2 hx.2)]
  · next hgrow =>
    by_cases hlt : crow < r.base_adv_record.length
    · rw [if_pos hlt]
    · rw [if_neg hlt, if_neg (fun hx => hgrow hx.1),
        List.getElem?_eq_none (Nat.le_of_not_lt hlt)]

theorem extendBase_advValAt (C : Consts) (r : Records N) (offset : Nat) (c : Cell) :
    advValAt (extendBase C r offset) c = advValAt r c := by
  obtain ⟨reg, ccol, crow⟩ := c
  cases reg with
  | RangeChip =>
    show rangeAdvValAt _ crow = rangeAdvValAt _ crow
    exact rangeAdvValAt_congr crow ((extendBase_rest C r offset).2.1)
  | BaseChip =>
    have hget := extendBase_getBaseAdv C r offset crow
    by_cases hlt : crow < r.base_adv_record.length
    · rw [if_pos hlt] at hget
      show advValAt _ (Cell.new Chip.BaseChip ccol crow) = advValAt _ (Cell.new Chip.BaseChip ccol crow)
      cases hx : r.base_adv_record[crow]? with
      | none => rw [advValAt_base_none (hget.trans hx), advValAt_base_none hx]
      | some rowl =>
        cases hy : rowl[ccol]? with
        | none => rw [advValAt_base_entry_none (hget.trans hx) hy, advValAt_base_entry_none hx hy]
        | some e => rw [advValAt_base_entry (hget.trans hx) hy, advValAt_base_entry hx hy]
    · rw [if_neg hlt] at hget
      show advValAt _ (Cell.new Chip.BaseChip ccol crow) = advValAt _ (Cell.new Chip.BaseChip ccol crow)
      have hnone : r.base_adv_record[crow]? = none :=
        List.getElem?_eq_none (Nat.le_of_not_lt hlt)
      rw [advValAt_base_none hnone]
      split at hget
      · by_cases hc : ccol < C.VAR_COLUMNS
        · rw [advValAt_base_entry hget (by rw [List.getElem?_replicate, if_pos hc])]
        · rw [advValAt_base_entry_none hget (by rw [List.getElem?_replicate, if_neg hc])]
      · rw [advValAt_base_none hget]

theorem extendBase_flagAt (C : Consts) (r : Records N) (offset : Nat) (c : Cell) :
    flagAt (extendBase C r offset) c = flagAt r c := by
  obtain ⟨reg, ccol, crow⟩ := c
  cases reg with
  | RangeChip =>
    show flagAt _ _ = flagAt _ _
    unfold flagAt
    rw [(extendBase_rest C r offset).2.1]
  | BaseChip =>
    have hget := extendBase_getBaseAdv C r offset crow
    by_cases hlt : crow < r.base_adv_record.length
    · rw [if_pos hlt] at hget
      show flagAt _ (Cell.new Chip.BaseChip ccol crow) = flagAt _ (Cell.new Chip.BaseChip ccol crow)
      cases hx : r.base_adv_record[crow]? with
      | none => rw [flagAt_base_none (hget.trans hx), flagAt_base_none hx]
      | some rowl =>
        cases hy : rowl[ccol]? with
        | none => rw [flagAt_base_entry_none (hget.trans hx) hy, flagAt_base_entry_none hx hy]
        | some e => rw [flagAt_base_entry (hget.trans hx) hy, flagAt_base_entry hx hy]
    · rw [if_neg hlt] at hget
      show flagAt _ (Cell.new Chip.BaseChip ccol crow) = flagAt _ (Cell.new Chip.BaseChip ccol crow)
      have hnone : r.base_adv_record[crow]? = none :=
        List.getElem?_eq_none (Nat.le_of_not_lt hlt)
      rw [flagAt_base_none hnone]
      split at hget
      · by_cases hc : ccol < C.VAR_COLUMNS
        · rw [flagAt_base_entry hget (by rw [List.getElem?_replicate, if_pos hc])]
        · rw [flagAt_base_entry_none hget (by rw [List.getElem?_replicate, if_neg hc])]
      · rw [flagAt_base_none hget]

theorem extendBase_rows (C : Consts) (r : Records N) (offset : Nat)
    (h : ∀ l ∈ r.base_adv_record, l.length = C.VAR_COLUMNS) :
    ∀ l ∈ (extendBase C r offset).base_adv_record, l.length = C.VAR_COLUMNS := by
  unfold extendBase
  split
  · intro l hl
    simp only [resizeList] at hl
    split at hl
    · exact h l (List.mem_of_mem_take hl)
    · rcases List.mem_append.mp hl with h1 | h1
      · exact h l h1
      · rw [List.eq_of_mem_replicate h1]
        exact List.length_replicate _ _
  · exact h

theorem growRangeStorage_rest (r : Records N) (offset : Nat) :
    (growRangeStorage r offset).base_adv_record = r.base_adv_record ∧
    (growRangeStorage r offset).base_fix_record = r.base_fix_record ∧
    (growRangeStorage r offset).base_height = r.base_height ∧
    (growRangeStorage r offset).range_height = r.range_height ∧
    (growRangeStorage r offset).permutations = r.permutations := by
  unfold growRangeStorage
  split <;> exact ⟨rfl, rfl, rfl, rfl, rfl⟩

theorem growRangeStorage_adv_length (r : Records N) (offset : Nat) :
    offset < (growRangeStorage r offset).range_adv_record.length := by
  unfold growRangeStorage
  split
  · rw [length_resizeList]
    exact lt_alignTo 1024 offset (by omega)
  · omega

theorem growRangeStorage_fix_length (r : Records N) (offset : Nat)
    (h : r.range_fix_record.length = r.range_adv_record.length) :
    (growRangeStorage r offset).range_fix_record.length =
      (growRangeStorage r offset).range_adv_record.length := by
  unfold growRangeStorage
  split
  · rw [length_resizeList, length_resizeList]
  · exact h

theorem ensure_range_record_size_range_height (r : Records N) (offset : Nat) :
    (ensure_range_record_size r offset).range_height = max r.range_height (offset + 1) := by
  unfold ensure_range_record_size
  rw [bumpRangeHeight_range_height, (growRangeStorage_rest r offset).2.2.2.1]

theorem ensure_range_record_size_base (r : Records N) (offset : Nat) :
    (ensure_range_record_size r offset).base_adv_record = r.base_adv_record ∧
    (ensure_range_record_size r offset).base_fix_record = r.base_fix_record ∧
    (ensure_range_record_size r offset).base_height = r.base_height ∧
    (ensure_range_record_size r offset).permutations = r.permutations := by
  unfold ensure_range_record_size
  obtain ⟨b1, b2, b3, _, b5⟩ := growRangeStorage_rest r offset
  obtain ⟨c1, c2, c3, _, _, c6⟩ := bumpRangeHeight_rest (growRangeStorage r offset) offset
  exact ⟨c1.trans b1, c2.trans b2, c3.trans b3, c6.trans b5⟩

theorem ensure_range_record_size_adv_length (r : Records N) (offset : Nat) :
    offset < (ensure_range_record_size r offset).range_adv_record.length := by
  unfold ensure_range_record_size
  rw [(bumpRangeHeight_rest _ _).2.2.2.1]
  exact growRangeStorage_adv_length r offset

theorem ensure_range_record_size_fix_length (r : Records N) (offset : Nat)
    (h : r.range_fix_record.length = r.range_adv_record.length) :
    (ensure_range_record_size r offset).range_fix_record.length =
      (ensure_range_record_size r offset).range_adv_record.length := by
  unfold ensure_range_record_size
  rw [(bumpRangeHeight_rest _ _).2.2.2.1, (bumpRangeHeight_rest _ _).2.2.2.2.1]
  exact growRangeStorage_fix_length r offset h

/-! ## Lemmas: heights after each request -/

theorem one_line_ok_heights {C : Consts} {r r' : Records N} {off : Nat}
    {pairs : List (ValueSchema N × N)} {cst : Option N} {mn : List N × Option N}
    (h : one_line C r off pairs cst mn = .ok r') :
    r'.base_height = max r.base_height (off + 1) ∧ r'.range_height = r.range_height := by
  unfold one_line at h
  split at h
  · next hlen =>
    cases hlp : one_line_pairs (bumpBaseHeight (extendBase C r off) off) off 0 pairs with
    | error s => simp only [hlp] at h; exact Except.noConfusion h
    | ok r3 =>
      simp only [hlp] at h
      obtain ⟨ms, nx⟩ := mn
      have hs1 : sameShape (bumpBaseHeight (extendBase C r off) off) r3 :=
        one_line_pairs_shape pairs _ r3 0 hlp
      have hbase2 : (bumpBaseHeight (extendBase C r off) off).base_height =
          max r.base_height (off + 1) := by
        rw [bumpBaseHeight_base_height, (extendBase_rest C r off).1]
      have hrange2 : (bumpBaseHeight (extendBase C r off) off).range_height =
          r.range_height := by
        rw [(bumpBaseHeight_rest _ _).2.2.2.2.1, (extendBase_rest C r off).2.2.2.1]
      have hs2 : sameShape r3 r' := by
        cases nx with
        | none =>
          cases cst with
          | none =>
            simp only [Except.ok.injEq] at h
            subst h
            exact writeMuls_shape C ms r3 0
          | some cv =>
            simp only [Except.ok.injEq] at h
            subst h
            exact sameShape_trans (writeMuls_shape C ms r3 0) (sameShape_setBaseFix _ _ _ _)
        | some nxv =>
          cases cst with
          | none =>
            simp only [Except.ok.injEq] at h
            subst h
            exact sameShape_trans (writeMuls_shape C ms r3 0) (sameShape_setBaseFix _ _ _ _)
          | some cv =>
            simp only [Except.ok.injEq] at h
            subst h
            exact sameShape_trans (writeMuls_shape C ms r3 0)
              (sameShape_trans (sameShape_setBaseFix _ _ _ _) (sameShape_setBaseFix _ _ _ _))
      exact ⟨hs2.1.trans (hs1.1.trans hbase2), hs2.2.1.trans (hs1.2.1.trans hrange2)⟩
  · exact Except.noConfusion h

theorem one_line_with_last_ok_heights {C : Consts} {r r' : Records N} {off : Nat}
    {pairs : List (ValueSchema N × N)} {tl : ValueSchema N × N} {cst : Option N}
    {mn : List N × Option N}
    (h : one_line_with_last C r off pairs tl cst mn = .ok r') :
    r'.base_height = max r.base_height (off + 1) ∧ r'.range_height = r.range_height := by
  unfold one_line_with_last at h
  split at h
  · cases hol : one_line C r off pairs cst mn with
    | error s => simp only [hol] at h; exact Except.noConfusion h
    | ok r1 =>
      simp only [hol] at h
      have h1 := one_line_ok_heights hol
      have h2 := writePair_shape h
      exact ⟨h2.1.trans h1.1, h2.2.1.trans h1.2⟩
  · exact Except.noConfusion h

theorem assign_single_range_value_heights [NatCast N] (r : Records N) (off : Nat)
    (v : N) (lb : Nat) :
    (assign_single_range_value r off v lb).1.base_height = r.base_height ∧
    (assign_single_range_value r off v lb).1.range_height = max r.range_height (off + 2) := by
  unfold assign_single_range_value
  have hens := ensure_range_record_size_range_height r (off + 1)
  have hensb := (ensure_range_record_size_base r (off + 1)).2.2.1
  have hs : sameShape (ensure_range_record_size r (off + 1))
      (setRangeAdvVal (setRangeFixClass (ensure_range_record_size r (off + 1)) off
        (some (Nat.cast lb))) off (some v)) :=
    sameShape_trans (sameShape_setRangeFixClass _ _ _) (sameShape_setRangeAdvVal _ _ _)
  exact ⟨hs.1.trans hensb, hs.2.1.trans hens⟩

theorem base_height_setRangeFixFirst (r : Records N) (row : Nat) (v : Option N) :
    (setRangeFixFirst r row v).base_height = r.base_height := rfl

theorem range_height_setRangeFixFirst (r : Records N) (row : Nat) (v : Option N) :
    (setRangeFixFirst r row v).range_height = r.range_height := rfl

theorem base_height_setRangeFixClass (r : Records N) (row : Nat) (v : Option N) :
    (setRangeFixClass r row v).base_height = r.base_height := rfl

theorem range_height_setRangeFixClass (r : Records N) (row : Nat) (v : Option N) :
    (setRangeFixClass r row v).range_height = r.range_height := rfl

theorem base_height_setRangeAdvVal (r : Records N) (row : Nat) (v : Option N) :
    (setRangeAdvVal r row v).base_height = r.base_height := rfl

theorem range_height_setRangeAdvVal (r : Records N) (row : Nat) (v : Option N) :
    (setRangeAdvVal r row v).range_height = r.range_height := rfl

theorem base_height_writeChunks (r : Records N) (off i : Nat) (cs : List N) :
    (writeChunks r off i cs).base_height = r.base_height :=
  (writeChunks_shape cs r i).1

theorem range_height_writeChunks (r : Records N) (off i : Nat) (cs : List N) :
    (writeChunks r off i cs).range_height = r.range_height :=
  (writeChunks_shape cs r i).2.1

theorem base_height_writeClassMarkers [NatCast N] (C : Consts) (r : Records N)
    (off i k : Nat) :
    (writeClassMarkers C r off i k).base_height = r.base_height :=
  (writeClassMarkers_shape C k r i).1

theorem range_height_writeClassMarkers [NatCast N] (C : Consts) (r : Records N)
    (off i k : Nat) :
    (writeClassMarkers C r off i k).range_height = r.range_height :=
  (writeClassMarkers_shape C k r i).2.1

theorem assign_range_value_ok_heights [Zero N] [One N] [NatCast N] {C : Consts}
    {r : Records N} {off : Nat} {v : N} {chunks : List N} {lb : Nat}
    {res : Records N × AssignedValue N}
    (h : assign_range_value C r off v chunks lb = .ok res) :
    res.1.base_height = r.base_height ∧
    res.1.range_height = max r.range_height (off + C.MAX_CHUNKS + 2) := by
  unfold assign_range_value at h
  split at h
  · cases hlen : chunks.length with
    | zero => simp only [hlen] at h; exact Except.noConfusion h
    | succ m =>
      simp only [hlen, Except.ok.injEq] at h
      subst h
      have hbase := (ensure_range_record_size_base r (off + 1 + C.MAX_CHUNKS)).2.2.1
      have hrange := ensure_range_record_size_range_height r (off + 1 + C.MAX_CHUNKS)
      have harith : off + 1 + C.MAX_CHUNKS + 1 = off + C.MAX_CHUNKS + 2 := by omega
      constructor
      · simp only [base_height_writeChunks, base_height_setRangeFixClass,
          base_height_writeClassMarkers, base_height_setRangeFixFirst,
          base_height_setRangeAdvVal]
        exact hbase
      · simp only [range_height_writeChunks, range_height_setRangeFixClass,
          range_height_writeClassMarkers, range_height_setRangeFixFirst,
          range_height_setRangeAdvVal]
        rw [hrange, harith]
  · exact Except.noConfusion h

theorem runReqs_ok_heights [Zero N] [One N] [NatCast N] {C : Consts} :
    ∀ (reqs : List (Req N)) (r r' : Records N), runReqs C r reqs = .ok r' →
      r'.base_height = (heightsSpec C reqs (r.base_height, r.range_height)).1 ∧
      r'.range_height = (heightsSpec C reqs (r.base_height, r.range_height)).2
  | [], r, r', h => by
    unfold runReqs at h
    cases h
    exact ⟨rfl, rfl⟩
  | q :: rest, r, r', h => by
    unfold runReqs at h
    cases ha : applyReq C r q with
    | error s => rw [ha] at h; exact Except.noConfusion h
    | ok r1 =>
      rw [ha] at h
      have hrec := runReqs_ok_heights rest r1 r' h
      cases q with
      | line off pairs cst muls nxt =>
        have hh := one_line_ok_heights (C := C) (show one_line C r off pairs cst (muls, nxt) = .ok r1 from ha)
        unfold heightsSpec
        rw [hrec.1, hrec.2, hh.1, hh.2]
        exact ⟨rfl, rfl⟩
      | lineLast off pairs tv tc cst muls nxt =>
        have hh := one_line_with_last_ok_heights (C := C)
          (show one_line_with_last C r off pairs (tv, tc) cst (muls, nxt) = .ok r1 from ha)
        unfold heightsSpec
        rw [hrec.1, hrec.2, hh.1, hh.2]
        exact ⟨rfl, rfl⟩
      | singleRange off v lb =>
        have ha' : r1 = (assign_single_range_value r off v lb).1 := by
          unfold applyReq at ha
          simp only [Except.ok.injEq] at ha
          exact ha.symm
        have hh := assign_single_range_value_heights r off v lb
        unfold heightsSpec
        rw [hrec.1, hrec.2, ha', hh.1, hh.2]
        exact ⟨rfl, rfl⟩
      | rangeVal off v chunks lb =>
        have hh : r1.base_height = r.base_height ∧
            r1.range_height = max r.range_height (off + C.MAX_CHUNKS + 2) := by
          have ha2 : (match assign_range_value C r off v chunks lb with
              | Except.ok res => Except.ok res.1
              | Except.error s => Except.error s) = Except.ok r1 := ha
          cases hr : assign_range_value C r off v chunks lb with
          | error s => rw [hr] at ha2; exact Except.noConfusion ha2
          | ok res =>
            rw [hr] at ha2
            simp only [Except.ok.injEq] at ha2
            subst ha2
            exact assign_range_value_ok_heights hr
        unfold heightsSpec
        rw [hrec.1, hrec.2, hh.1, hh.2]
        exact ⟨rfl, rfl⟩

theorem heightsSpec_mono {C : Consts} :
    ∀ (reqs : List (Req N)) (hs : Nat × Nat),
      hs.1 ≤ (heightsSpec C reqs hs).1 ∧ hs.2 ≤ (heightsSpec C reqs hs).2
  | [], hs => ⟨Nat.le_refl _, Nat.le_refl _⟩
  | q :: rest, hs => by
    unfold heightsSpec
    cases q with
    | line off pairs cst muls nxt =>
      have h := heightsSpec_mono (C := C) rest (max hs.1 (off + 1), hs.2)
      exact ⟨Nat.le_trans (Nat.le_max_left _ _) h.1, h.2⟩
    | lineLast off pairs tv tc cst muls nxt =>
      have h := heightsSpec_mono (C := C) rest (max hs.1 (off + 1), hs.2)
      exact ⟨Nat.le_trans (Nat.le_max_left _ _) h.1, h.2⟩
    | singleRange off v lb =>
      have h := heightsSpec_mono (C := C) rest (hs.1, max hs.2 (off + 2))
      exact ⟨h.1, Nat.le_trans (Nat.le_max_left _ _) h.2⟩
    | rangeVal off v chunks lb =>
      have h := heightsSpec_mono (C := C) rest (hs.1, max hs.2 (off + C.MAX_CHUNKS + 2))
      exact ⟨h.1, Nat.le_trans (Nat.le_max_left _ _) h.2⟩

/-- Claim C3 (corrected): after any panic-free sequence of layout
requests, `base_height` is the running maximum of `offset + 1` over the
gate-packing requests, and `range_height` is the running maximum of one
past the last *reserved* range row — `offset + 2` for
`assign_single_range_value` and `offset + MAX_CHUNKS + 2` for
`assign_range_value` — which exceeds `1 + max written step` by one for the
range unit; and neither height ever decreases. -/
theorem claim_C3 [Zero N] [One N] [NatCast N] (C : Consts) (reqs : List (Req N))
    (r r' : Records N) (h : runReqs C r reqs = .ok r') :
    r'.base_height = (heightsSpec C reqs (r.base_height, r.range_height)).1 ∧
    r'.range_height = (heightsSpec C reqs (r.base_height, r.range_height)).2 ∧
    r.base_height ≤ r'.base_height ∧ r.range_height ≤ r'.range_height := by
  have hH := runReqs_ok_heights reqs r r' h
  have hM := heightsSpec_mono (C := C) reqs (r.base_height, r.range_height)
  exact ⟨hH.1, hH.2, hH.1 ▸ hM.1, hH.2 ▸ hM.2⟩

set_option maxRecDepth 100000 in
/-- Witness for the (corrected) claim C3 at a concrete trace. -/
theorem claim_C3_witness :
    ∃ r', runReqs constsEx Records.empty c3WitTrace = .ok r' ∧
      r'.base_height = 1 ∧ r'.range_height = 11 := by
  obtain ⟨r', hr⟩ : ∃ r', runReqs constsEx Records.empty c3WitTrace = .ok r' := ⟨_, rfl⟩
  have h := claim_C3 constsEx c3WitTrace Records.empty r' hr
  exact ⟨r', hr, h.1.trans rfl, h.2.1.trans rfl⟩

set_option maxRecDepth 100000 in
/-- Counterexample to claim C3 as stated: a single
`assign_single_range_value` at step 0 writes content only at step 0, yet
leaves `range_height = 2`, not `1 + 0`. -/
theorem claim_C3_counterexample :
    rangeWrittenB c3CexState 0 = true ∧
    (∀ s, 1 ≤ s → rangeWrittenB c3CexState s = false) ∧
    c3CexState.range_height = 2 ∧ c3CexState.range_height ≠ 0 + 1 := by
  have hadv : c3CexState.range_adv_record =
      (some 9, false) :: List.replicate 1023 ((none : Option Int), false) := by rfl
  have hfix : c3CexState.range_fix_record =
      (none, some 3) :: List.replicate 1023 ((none : Option Int), (none : Option Int)) := by rfl
  refine ⟨by decide, ?_, by rfl, by decide⟩
  intro s hs
  obtain ⟨s', rfl⟩ : ∃ s', s = s' + 1 := ⟨s - 1, by omega⟩
  unfold rangeWrittenB rangeAdvValAt rangeFixFirstAt rangeFixClassAt
  rw [hadv, hfix]
  rw [List.getElem?_cons_succ, List.getElem?_cons_succ, List.getElem?_replicate,
    List.getElem?_replicate]
  by_cases hlt : s' < 1023 <;> simp [hlt]

/-- Claim C4: `one_line` with more than `VAR_COLUMNS` pairs, and
`one_line_with_last` with more than `VAR_COLUMNS - 1` head pairs, fail
eagerly at the leading assertion with the ledger completely unchanged. -/
theorem claim_C4 (C : Consts) :
    (∀ (r : Records N) (off : Nat) (pairs : List (ValueSchema N × N)) (cst : Option N)
       (mn : List N × Option N), C.VAR_COLUMNS < pairs.length →
         one_line C r off pairs cst mn = .error r) ∧
    (∀ (r : Records N) (off : Nat) (pairs : List (ValueSchema N × N))
       (tl : ValueSchema N × N) (cst : Option N) (mn : List N × Option N),
       C.VAR_COLUMNS - 1 < pairs.length →
         one_line_with_last C r off pairs tl cst mn = .error r) := by
  constructor
  · intro r off pairs cst mn hlen
    unfold one_line
    rw [if_neg (Nat.not_le.mpr hlen)]
  · intro r off pairs tl cst mn hlen
    unfold one_line_with_last
    rw [if_neg (Nat.not_le.mpr hlen)]

/-- Witness for claim C4: six pairs overflow the five lanes, five head
pairs overflow the four head lanes. -/
theorem claim_C4_witness :
    (constsEx.VAR_COLUMNS < 6 ∧
      one_line constsEx Records.empty 0
        (List.replicate 6 (ValueSchema.unassigned (0 : Int), (0 : Int))) none ([], none) =
        .error Records.empty) ∧
    (constsEx.VAR_COLUMNS - 1 < 5 ∧
      one_line_with_last constsEx Records.empty 0
        (List.replicate 5 (ValueSchema.unassigned (0 : Int), (0 : Int)))
        (ValueSchema.unassigned 1, 1) none ([], none) = .error Records.empty) := by
  refine ⟨⟨by decide, ?_⟩, ⟨by decide, ?_⟩⟩
  · exact (claim_C4 constsEx).1 Records.empty 0 _ none ([], none) (by decide)
  · exact (claim_C4 constsEx).2 Records.empty 0 _ (ValueSchema.unassigned 1, 1) none
      ([], none) (by decide)

/-- Claim C9: `assign_range_value` panics on an empty chunk vector (the
`chunks.len() - 1` underflow), even though the explicit precondition only
bounds the length from above; with at least one chunk (and at most
`MAX_CHUNKS`) the call completes. -/
theorem claim_C9 [Zero N] [One N] [NatCast N] (C : Consts) (r : Records N) (off : Nat)
    (v : N) (lb : Nat) :
    (∃ s, assign_range_value C r off v [] lb = .error s) ∧
    (∀ chunks : List N, 1 ≤ chunks.length → chunks.length ≤ C.MAX_CHUNKS →
      ∃ res, assign_range_value C r off v chunks lb = .ok res) := by
  constructor
  · unfold assign_range_value
    rw [if_pos (by simp)]
    exact ⟨_, rfl⟩
  · intro chunks h1 h2
    cases chunks with
    | nil => simp at h1
    | cons c cs =>
      unfold assign_range_value
      rw [if_pos h2]
      exact ⟨_, rfl⟩

/-- Witness for claim C9 at concrete inputs. -/
theorem claim_C9_witness :
    (∃ s, assign_range_value constsEx Records.empty 0 (7 : Int) [] 4 = .error s) ∧
    ((1 : Nat) ≤ 1 ∧ 1 ≤ constsEx.MAX_CHUNKS ∧
      ∃ res, assign_range_value constsEx Records.empty 0 (7 : Int) [2] 4 = .ok res) := by
  refine ⟨(claim_C9 constsEx Records.empty 0 7 4).1, by decide, by decide, ?_⟩
  exact (claim_C9 constsEx Records.empty 0 7 4).2 [2] (by decide) (by decide)

/-- Claim C8: converting a `GeneralScalarEccContext` (or
`NativeScalarEccContext`) back to a plain `Context` succeeds exactly when,
once the wrapper's own handles are released, no other reference to the
shared context remains; otherwise the `Rc::try_unwrap(..).unwrap()` fails
deterministically instead of returning a context. `others` counts the
live references outside the wrapper (the general wrapper itself holds
three handles, the native-scalar wrapper one). -/
theorem claim_C8 (others : Nat) (ctx : ContextModel N) :
    (general_ecc_into_context ⟨others + 3, ctx⟩ =
      (if others = 0 then some ctx else none)) ∧
    (general_ecc_into_context ⟨others + 3, ctx⟩ = some ctx ↔ others = 0) ∧
    (native_scalar_ecc_into_context ⟨others + 1, ctx⟩ =
      (if others = 0 then some ctx else none)) ∧
    (native_scalar_ecc_into_context ⟨others + 1, ctx⟩ = some ctx ↔ others = 0) := by
  unfold general_ecc_into_context native_scalar_ecc_into_context
    integer_context_into_context rcTryUnwrap
  simp only
  have h3 : others + 3 - 2 = others + 1 := by omega
  rw [h3]
  by_cases h0 : others = 0
  · subst h0
    simp
  · have hne : ¬ others + 1 = 1 := by omega
    rw [if_neg hne, if_neg h0]
    exact ⟨rfl, ⟨fun hx => Option.noConfusion hx, fun hx => absurd hx h0⟩, rfl,
      fun hx => Option.noConfusion hx, fun hx => absurd hx h0⟩

/-! ## Lemmas: the chunk and marker loops of `assign_range_value` -/

theorem range_fix_writeChunks {off : Nat} :
    ∀ (cs : List N) (r : Records N) (i : Nat),
      (writeChunks r off i cs).range_fix_record = r.range_fix_record
  | [], _, _ => rfl
  | _ :: rest, r, i => range_fix_writeChunks rest _ (i + 1)

theorem range_adv_writeClassMarkers [NatCast N] {C : Consts} {off : Nat} :
    ∀ (k : Nat) (r : Records N) (i : Nat),
      (writeClassMarkers C r off i k).range_adv_record = r.range_adv_record
  | 0, _, _ => rfl
  | Nat.succ k, r, i => range_adv_writeClassMarkers k _ (i + 1)

theorem rangeAdvValAt_writeChunks_lt {off : Nat} :
    ∀ (cs : List N) (r : Records N) (i row : Nat), row < off + 1 + i →
      rangeAdvValAt (writeChunks r off i cs) row = rangeAdvValAt r row
  | [], _, _, _, _ => rfl
  | c :: rest, r, i, row, hrow => by
    unfold writeChunks
    rw [rangeAdvValAt_writeChunks_lt rest _ (i + 1) row (by omega)]
    exact rangeAdvValAt_setRangeAdvVal_ne r (off + 1 + i) (some c) (by omega)

theorem rangeAdvValAt_writeChunks_at {off : Nat} :
    ∀ (cs : List N) (r : Records N) (i k : Nat), k < cs.length →
      off + 1 + i + cs.length ≤ r.range_adv_record.length →
      rangeAdvValAt (writeChunks r off i cs) (off + 1 + (i + k)) = cs[k]?
  | [], _, _, k, hk, _ => absurd hk (by simp)
  | c :: rest, r, i, 0, hk, hlen => by
    unfold writeChunks
    rw [rangeAdvValAt_writeChunks_lt rest _ (i + 1) _ (by omega)]
    have hlt : off + 1 + i < r.range_adv_record.length := by
      simp only [List.length_cons] at hlen
      omega
    have := @rangeAdvValAt_setRangeAdvVal_self N r (off + 1 + i) (some c) hlt
    simpa using this
  | c :: rest, r, i, Nat.succ k, hk, hlen => by
    unfold writeChunks
    have hlen' : off + 1 + (i + 1) + rest.length ≤
        (setRangeAdvVal r (off + 1 + i) (some c)).range_adv_record.length := by
      rw [(sameShape_setRangeAdvVal r (off + 1 + i) (some c)).2.2.2.2.1]
      simp only [List.length_cons] at hlen
      omega
    have hrec := rangeAdvValAt_writeChunks_at rest _ (i + 1) k
      (by simpa using Nat.lt_of_succ_lt_succ (by simpa using hk)) hlen'
    have hidx : off + 1 + (i + Nat.succ k) = off + 1 + ((i + 1) + k) := by omega
    rw [hidx, hrec]
    exact (List.getElem?_cons_succ).symm

theorem rangeFixFirstAt_writeClassMarkers [NatCast N] {C : Consts} {off : Nat} :
    ∀ (k : Nat) (r : Records N) (i row : Nat),
      rangeFixFirstAt (writeClassMarkers C r off i k) row = rangeFixFirstAt r row
  | 0, _, _, _ => rfl
  | Nat.succ k, r, i, row => by
    unfold writeClassMarkers
    rw [rangeFixFirstAt_writeClassMarkers k _ (i + 1) row]
    exact rangeFixFirstAt_setRangeFixClass r (off + 1 + i) _ row

theorem rangeFixClassAt_writeClassMarkers_out [NatCast N] {C : Consts} {off : Nat} :
    ∀ (k : Nat) (r : Records N) (i row : Nat),
      (row < off + 1 + i ∨ off + 1 + i + k ≤ row) →
      rangeFixClassAt (writeClassMarkers C r off i k) row = rangeFixClassAt r row
  | 0, _, _, _, _ => rfl
  | Nat.succ k, r, i, row, hout => by
    unfold writeClassMarkers
    rw [rangeFixClassAt_writeClassMarkers_out k _ (i + 1) row (by omega)]
    exact rangeFixClassAt_setRangeFixClass_ne r (off + 1 + i) _ (by omega)

theorem rangeFixClassAt_writeClassMarkers_at [NatCast N] {C : Consts} {off : Nat} :
    ∀ (k : Nat) (r : Records N) (i j : Nat), j < k →
      off + 1 + i + k ≤ r.range_fix_record.length →
      rangeFixClassAt (writeClassMarkers C r off i k) (off + 1 + (i + j)) =
        some (Nat.cast C.COMMON_RANGE_BITS)
  | 0, _, _, j, hj, _ => absurd hj (by omega)
  | Nat.succ k, r, i, 0, hj, hlen => by
    unfold writeClassMarkers
    rw [rangeFixClassAt_writeClassMarkers_out k _ (i + 1) _ (Or.inl (by omega))]
    have hlt : off + 1 + i < r.range_fix_record.length := by omega
    have := @rangeFixClassAt_setRangeFixClass_self N r (off + 1 + i)
      (some (Nat.cast C.COMMON_RANGE_BITS)) hlt
    simpa using this
  | Nat.succ k, r, i, Nat.succ j, hj, hlen => by
    unfold writeClassMarkers
    have hlen' : off + 1 + (i + 1) + k ≤
        (setRangeFixClass r (off + 1 + i) (some (Nat.cast C.COMMON_RANGE_BITS))).range_fix_record.length := by
      rw [(sameShape_setRangeFixClass r (off + 1 + i) _).2.2.2.2.2]
      omega
    have hrec := rangeFixClassAt_writeClassMarkers_at (C := C) k _ (i + 1) j (by omega) hlen'
    have hidx : off + 1 + (i + Nat.succ j) = off + 1 + ((i + 1) + j) := by omega
    rw [hidx, hrec]

theorem rangeAdvValAt_setRangeFixFirst (r : Records N) (row' : Nat) (v : Option N)
    (row : Nat) :
    rangeAdvValAt (setRangeFixFirst r row' v) row = rangeAdvValAt r row := rfl

theorem rangeAdvValAt_setRangeFixClass (r : Records N) (row' : Nat) (v : Option N)
    (row : Nat) :
    rangeAdvValAt (setRangeFixClass r row' v) row = rangeAdvValAt r row := rfl

theorem rangeFixFirstAt_setRangeAdvVal (r : Records N) (row' : Nat) (v : Option N)
    (row : Nat) :
    rangeFixFirstAt (setRangeAdvVal r row' v) row = rangeFixFirstAt r row := rfl

theorem rangeFixClassAt_setRangeAdvVal (r : Records N) (row' : Nat) (v : Option N)
    (row : Nat) :
    rangeFixClassAt (setRangeAdvVal r row' v) row = rangeFixClassAt r row := rfl

theorem rangeAdvValAt_writeClassMarkers [NatCast N] (C : Consts) (r : Records N)
    (off i k row : Nat) :
    rangeAdvValAt (writeClassMarkers C r off i k) row = rangeAdvValAt r row := by
  unfold rangeAdvValAt
  rw [range_adv_writeClassMarkers]

theorem rangeFixFirstAt_writeChunks (r : Records N) (off i : Nat) (cs : List N)
    (row : Nat) :
    rangeFixFirstAt (writeChunks r off i cs) row = rangeFixFirstAt r row := by
  unfold rangeFixFirstAt
  rw [range_fix_writeChunks]

theorem rangeFixClassAt_writeChunks (r : Records N) (off i : Nat) (cs : List N)
    (row : Nat) :
    rangeFixClassAt (writeChunks r off i cs) row = rangeFixClassAt r row := by
  unfold rangeFixClassAt
  rw [range_fix_writeChunks]

/-- Claim C1: for a nonempty chunk vector of length at most `MAX_CHUNKS`
(and a ledger whose two range stores have equal length, as every reachable
ledger does), `assign_range_value` places the composite value at `offset`
under a block-start marker `1`, each chunk `i` at `offset + 1 + i`, the
common limb width as class marker of every non-final limb row, the
`leading_bits` class marker at `offset + len`, the block-end placeholder
`0` at `offset + MAX_CHUNKS` regardless of the chunk count, and returns an
`AssignedValue` for the range unit, lane 0, step `offset`, carrying the
composite value. -/
theorem claim_C1 [Zero N] [One N] [NatCast N] (C : Consts) (r : Records N) (off : Nat)
    (v : N) (chunks : List N) (lb : Nat)
    (hwf : r.range_fix_record.length = r.range_adv_record.length)
    (h1 : 1 ≤ chunks.length) (h2 : chunks.length ≤ C.MAX_CHUNKS) :
    ∃ r', assign_range_value C r off v chunks lb =
        .ok (r', AssignedValue.new Chip.RangeChip 0 off v) ∧
      rangeFixFirstAt r' off = some 1 ∧
      rangeAdvValAt r' off = some v ∧
      (∀ k, k < chunks.length → rangeAdvValAt r' (off + 1 + k) = chunks[k]?) ∧
      (∀ j, j + 1 < chunks.length →
        rangeFixClassAt r' (off + 1 + j) = some (Nat.cast C.COMMON_RANGE_BITS)) ∧
      rangeFixClassAt r' (off + chunks.length) = some (Nat.cast lb) ∧
      rangeFixFirstAt r' (off + C.MAX_CHUNKS) = some 0 := by
  cases chunks with
  | nil => simp at h1
  | cons c cs =>
    have hMAX : 1 ≤ C.MAX_CHUNKS := Nat.le_trans h1 h2
    have hlen2 : cs.length + 1 ≤ C.MAX_CHUNKS := by simpa using h2
    have hlenadv : off + 1 + C.MAX_CHUNKS <
        (ensure_range_record_size r (off + 1 + C.MAX_CHUNKS)).range_adv_record.length :=
      ensure_range_record_size_adv_length r (off + 1 + C.MAX_CHUNKS)
    have hlenfix : (ensure_range_record_size r (off + 1 + C.MAX_CHUNKS)).range_fix_record.length =
        (ensure_range_record_size r (off + 1 + C.MAX_CHUNKS)).range_adv_record.length :=
      ensure_range_record_size_fix_length r (off + 1 + C.MAX_CHUNKS) hwf
    unfold assign_range_value
    rw [if_pos h2]
    simp only [List.length_cons]
    set r1 := ensure_range_record_size r (off + 1 + C.MAX_CHUNKS) with hr1
    set r2 := setRangeFixFirst r1 off (some 1) with hr2
    set r3 := setRangeAdvVal r2 off (some v) with hr3
    set r4 := setRangeFixFirst r3 (off + C.MAX_CHUNKS) (some 0) with hr4
    set r5 := writeClassMarkers C r4 off 0 cs.length with hr5
    set r6 := setRangeFixClass r5 (off + (cs.length + 1)) (some (Nat.cast lb)) with hr6
    have e2a : r2.range_adv_record.length = r1.range_adv_record.length := by
      rw [hr2]
      exact (sameShape_setRangeFixFirst r1 off (some 1)).2.2.2.2.1
    have e2f : r2.range_fix_record.length = r1.range_fix_record.length := by
      rw [hr2]
      exact (sameShape_setRangeFixFirst r1 off (some 1)).2.2.2.2.2
    have e3a : r3.range_adv_record.length = r2.range_adv_record.length := by
      rw [hr3]
      exact (sameShape_setRangeAdvVal r2 off (some v)).2.2.2.2.1
    have e3f : r3.range_fix_record.length = r2.range_fix_record.length := by
      rw [hr3]
      exact (sameShape_setRangeAdvVal r2 off (some v)).2.2.2.2.2
    have e4a : r4.range_adv_record.length = r3.range_adv_record.length := by
      rw [hr4]
      exact (sameShape_setRangeFixFirst r3 _ (some 0)).2.2.2.2.1
    have e4f : r4.range_fix_record.length = r3.range_fix_record.length := by
      rw [hr4]
      exact (sameShape_setRangeFixFirst r3 _ (some 0)).2.2.2.2.2
    have e5a : r5.range_adv_record.length = r4.range_adv_record.length := by
      rw [hr5]
      exact (writeClassMarkers_shape C cs.length r4 0).2.2.2.2.1
    have e5f : r5.range_fix_record.length = r4.range_fix_record.length := by
      rw [hr5]
      exact (writeClassMarkers_shape C cs.length r4 0).2.2.2.2.2
    have e6a : r6.range_adv_record.length = r5.range_adv_record.length := by
      rw [hr6]
      exact (sameShape_setRangeFixClass r5 _ _).2.2.2.2.1
    have e6f : r6.range_fix_record.length = r5.range_fix_record.length := by
      rw [hr6]
      exact (sameShape_setRangeFixClass r5 _ _).2.2.2.2.2
    refine ⟨_, rfl, ?_, ?_, ?_, ?_, ?_, ?_⟩
    · rw [rangeFixFirstAt_writeChunks, hr6, rangeFixFirstAt_setRangeFixClass, hr5,
        rangeFixFirstAt_writeClassMarkers, hr4,
        rangeFixFirstAt_setRangeFixFirst_ne _ _ _ (by omega), hr3,
        rangeFixFirstAt_setRangeAdvVal, hr2]
      exact rangeFixFirstAt_setRangeFixFirst_self r1 (some 1) (by omega)
    · rw [rangeAdvValAt_writeChunks_lt (c :: cs) r6 0 off (by omega), hr6,
        rangeAdvValAt_setRangeFixClass, hr5, rangeAdvValAt_writeClassMarkers, hr4,
        rangeAdvValAt_setRangeFixFirst, hr3]
      exact rangeAdvValAt_setRangeAdvVal_self r2 (some v) (by omega)
    · intro k hk
      have hb : off + 1 + 0 + (c :: cs).length ≤ r6.range_adv_record.length := by
        rw [e6a, e5a, e4a, e3a, e2a]
        simp only [List.length_cons]
        omega
      have hres := rangeAdvValAt_writeChunks_at (c :: cs) r6 0 k (by simpa using hk) hb
      simpa using hres
    · intro j hj
      rw [rangeFixClassAt_writeChunks, hr6,
        rangeFixClassAt_setRangeFixClass_ne _ _ _ (by omega), hr5]
      have hb : off + 1 + 0 + cs.length ≤ r4.range_fix_record.length := by
        rw [e4f, e3f, e2f, hlenfix]
        omega
      have hres := rangeFixClassAt_writeClassMarkers_at (C := C) cs.length r4 0 j (by omega) hb
      simpa using hres
    · rw [rangeFixClassAt_writeChunks, hr6]
      exact rangeFixClassAt_setRangeFixClass_self r5 (some (Nat.cast lb))
        (by rw [e5f, e4f, e3f, e2f, hlenfix]; omega)
    · rw [rangeFixFirstAt_writeChunks, hr6, rangeFixFirstAt_setRangeFixClass, hr5,
        rangeFixFirstAt_writeClassMarkers, hr4]
      exact rangeFixFirstAt_setRangeFixFirst_self r3 (some 0)
        (by rw [e3f, e2f, hlenfix]; omega)

/-- Witness for claim C1: the spec's scenario
`assign_range_value(0, (v, [c0, c1]), leading_bits = 4)` with common
width 8. -/
theorem claim_C1_witness :
    ((0 : Nat) = 0 ∧ 1 ≤ 2 ∧ 2 ≤ constsEx.MAX_CHUNKS) ∧
    ∃ r', assign_range_value constsEx Records.empty 0 (7 : Int) [2, 5] 4 =
        .ok (r', AssignedValue.new Chip.RangeChip 0 0 7) ∧
      rangeFixFirstAt r' 0 = some 1 ∧
      rangeAdvValAt r' 0 = some 7 ∧
      (∀ k, k < ([2, 5] : List Int).length → rangeAdvValAt r' (0 + 1 + k) = ([2, 5] : List Int)[k]?) ∧
      (∀ j, j + 1 < ([2, 5] : List Int).length →
        rangeFixClassAt r' (0 + 1 + j) = some (Nat.cast constsEx.COMMON_RANGE_BITS)) ∧
      rangeFixClassAt r' (0 + ([2, 5] : List Int).length) = some (Nat.cast 4) ∧
      rangeFixFirstAt r' (0 + constsEx.MAX_CHUNKS) = some 0 := by
  constructor
  · exact ⟨rfl, by decide, by decide⟩
  · exact claim_C1 constsEx Records.empty 0 7 [2, 5] 4 rfl (by decide) (by decide)

/-! ## Lemmas: structural well-formedness of the base rows -/

theorem WFrows_setBaseAdvVal {C : Consts} {r : Records N} (hWF : WFrows C r)
    (row col : Nat) (v : Option N) : WFrows C (setBaseAdvVal r row col v) := by
  intro l hl
  rcases mem_modifyAt _ _ _ _ hl with h | ⟨a, ha, rfl⟩
  · exact hWF l h
  · rw [length_modifyAt]
    exact hWF a ha

theorem WFrows_setBaseAdvFlag {C : Consts} {r : Records N} (hWF : WFrows C r)
    (row col : Nat) : WFrows C (setBaseAdvFlag r row col) := by
  intro l hl
  rcases mem_modifyAt _ _ _ _ hl with h | ⟨a, ha, rfl⟩
  · exact hWF l h
  · rw [length_modifyAt]
    exact hWF a ha

theorem WFrows_setBaseFix {C : Consts} {r : Records N} (hWF : WFrows C r)
    (row col : Nat) (v : Option N) : WFrows C (setBaseFix r row col v) := hWF

theorem WFrows_extendBase {C : Consts} {r : Records N} (hWF : WFrows C r)
    (offset : Nat) : WFrows C (extendBase C r offset) :=
  extendBase_rows C r offset hWF

theorem WFrows_bumpBaseHeight {C : Consts} {r : Records N} (hWF : WFrows C r)
    (offset : Nat) : WFrows C (bumpBaseHeight r offset) := by
  unfold bumpBaseHeight
  split <;> exact hWF

theorem WFrows_lookup {C : Consts} {r : Records N} (hWF : WFrows C r) {row : Nat}
    (h : row < r.base_adv_record.length) :
    ∃ rowl, r.base_adv_record[row]? = some rowl ∧ rowl.length = C.VAR_COLUMNS := by
  rcases List.getElem?_eq_getElem h with he
  exact ⟨_, he, hWF _ (List.getElem?_mem he)⟩

theorem advValAt_setBaseAdvVal_self_of_WF {C : Consts} {r : Records N} (hWF : WFrows C r)
    {row col : Nat} (v : Option N) (hrow : row < r.base_adv_record.length)
    (hcol : col < C.VAR_COLUMNS) :
    advValAt (setBaseAdvVal r row col v) (Cell.new Chip.BaseChip col row) = v := by
  obtain ⟨rowl, he, hlen⟩ := WFrows_lookup hWF hrow
  exact advValAt_setBaseAdvVal_self r v he (hlen ▸ hcol)

/-! ## Claim C7 -/

/-- Claim C7: `one_line` at step 0 with pairs `(a,k1), (b,k2), (c,k3)`,
constant `k5`, and no product/next coefficients puts the three linear
coefficients in fixed lanes 0..2, the constant in the final fixed lane
`VAR_COLUMNS + MUL_COLUMNS + 1`, leaves every other fixed lane of row 0
empty, and puts the three values in advice lanes 0..2 of row 0 with every
further advice lane empty. -/
theorem claim_C7 [Zero N] [One N] [NatCast N] (C : Consts) (h3 : 3 ≤ C.VAR_COLUMNS)
    (a b c k1 k2 k3 k5 : N) :
    ∃ r', one_line C Records.empty 0
        [(ValueSchema.unassigned a, k1), (ValueSchema.unassigned b, k2),
         (ValueSchema.unassigned c, k3)] (some k5) ([], none) = .ok r' ∧
      baseFixAt r' 0 0 = some k1 ∧ baseFixAt r' 0 1 = some k2 ∧
      baseFixAt r' 0 2 = some k3 ∧
      baseFixAt r' 0 (C.VAR_COLUMNS + C.MUL_COLUMNS + 1) = some k5 ∧
      (∀ j, j < FIXED_COLUMNS C → j ≠ 0 → j ≠ 1 → j ≠ 2 →
        j ≠ C.VAR_COLUMNS + C.MUL_COLUMNS + 1 → baseFixAt r' 0 j = none) ∧
      advValAt r' (Cell.new Chip.BaseChip 0 0) = some a ∧
      advValAt r' (Cell.new Chip.BaseChip 1 0) = some b ∧
      advValAt r' (Cell.new Chip.BaseChip 2 0) = some c ∧
      (∀ i, 3 ≤ i → advValAt r' (Cell.new Chip.BaseChip i 0) = none) := by
  have hc3 : ([(ValueSchema.unassigned a, k1), (ValueSchema.unassigned b, k2),
      (ValueSchema.unassigned c, k3)] : List (ValueSchema N × N)).length ≤ C.VAR_COLUMNS := by
    simpa using Nat.le_trans (by omega) h3
  have hFIX : 5 ≤ FIXED_COLUMNS C := by
    unfold FIXED_COLUMNS
    omega
  have hadv0 : (bumpBaseHeight (extendBase C Records.empty 0) 0).base_adv_record[0]? =
      some (List.replicate C.VAR_COLUMNS ((none : Option N), false)) := rfl
  have hfix0 : (bumpBaseHeight (extendBase C Records.empty 0) 0).base_fix_record[0]? =
      some (List.replicate (FIXED_COLUMNS C) (none : Option N)) := rfl
  have hadvlen : (0 : Nat) <
      (bumpBaseHeight (extendBase C (Records.empty : Records N) 0) 0).base_adv_record.length := by
    rw [(bumpBaseHeight_rest _ _).1]
    exact Nat.lt_of_le_of_lt (Nat.zero_le 0) (extendBase_adv_length C Records.empty 0)
  have hWF0 : WFrows C (bumpBaseHeight (extendBase C (Records.empty : Records N) 0) 0) := by
    apply WFrows_bumpBaseHeight
    apply WFrows_extendBase
    intro l hl
    simp [Records.empty] at hl
  set r2 := bumpBaseHeight (extendBase C (Records.empty : Records N) 0) 0 with hr2
  set s1 := setBaseFix r2 0 0 (some k1) with hs1
  set s2 := setBaseAdvVal s1 0 0 (some a) with hs2
  set s3 := setBaseFix s2 0 1 (some k2) with hs3
  set s4 := setBaseAdvVal s3 0 1 (some b) with hs4
  set s5 := setBaseFix s4 0 2 (some k3) with hs5
  set s6 := setBaseAdvVal s5 0 2 (some c) with hs6
  set s7 := setBaseFix s6 0 (C.VAR_COLUMNS + C.MUL_COLUMNS + 1) (some k5) with hs7
  have hW1 : WFrows C s1 := hWF0
  have hW2 : WFrows C s2 := WFrows_setBaseAdvVal hW1 0 0 (some a)
  have hW3 : WFrows C s3 := hW2
  have hW4 : WFrows C s4 := WFrows_setBaseAdvVal hW3 0 1 (some b)
  have hW5 : WFrows C s5 := hW4
  have hl1 : (0 : Nat) < s1.base_adv_record.length := hadvlen
  have hl3 : (0 : Nat) < s3.base_adv_record.length := by
    rw [hs3]
    show (0 : Nat) < s2.base_adv_record.length
    rw [hs2, (sameShape_setBaseAdvVal s1 0 0 (some a)).2.2.1]
    exact hl1
  have hl5 : (0 : Nat) < s5.base_adv_record.length := by
    rw [hs5]
    show (0 : Nat) < s4.base_adv_record.length
    rw [hs4, (sameShape_setBaseAdvVal s3 0 1 (some b)).2.2.1]
    exact hl3
  have hfixL : s7.base_fix_record[0]? =
      some (((((List.replicate (FIXED_COLUMNS C) (none : Option N)).set 0
        (some k1)).set 1 (some k2)).set 2 (some k3)).set
          (C.VAR_COLUMNS + C.MUL_COLUMNS + 1) (some k5)) := by
    have e7 : s7.base_fix_record =
        modifyAt s6.base_fix_record 0
          (fun l => l.set (C.VAR_COLUMNS + C.MUL_COLUMNS + 1) (some k5)) := rfl
    have e6 : s6.base_fix_record = s5.base_fix_record := rfl
    have e5 : s5.base_fix_record = modifyAt s4.base_fix_record 0
        (fun l => l.set 2 (some k3)) := rfl
    have e4 : s4.base_fix_record = s3.base_fix_record := rfl
    have e3 : s3.base_fix_record = modifyAt s2.base_fix_record 0
        (fun l => l.set 1 (some k2)) := rfl
    have e2 : s2.base_fix_record = s1.base_fix_record := rfl
    have e1 : s1.base_fix_record = modifyAt r2.base_fix_record 0
        (fun l => l.set 0 (some k1)) := rfl
    rw [e7, getElem?_modifyAt_self, e6, e5, getElem?_modifyAt_self, e4, e3,
      getElem?_modifyAt_self, e2, e1, getElem?_modifyAt_self, hfix0]
    rfl
  refine ⟨s7, by unfold one_line; rw [if_pos hc3]; rfl, ?_, ?_, ?_, ?_, ?_, ?_, ?_, ?_, ?_⟩
  · refine baseFixAt_some hfixL ?_
    rw [List.getElem?_set_ne (by omega), List.getElem?_set_ne (by omega),
      List.getElem?_set_ne (by omega), List.getElem?_set_self (by simp; omega)]
  · refine baseFixAt_some hfixL ?_
    rw [List.getElem?_set_ne (by omega), List.getElem?_set_ne (by omega),
      List.getElem?_set_self (by simp; omega)]
  · refine baseFixAt_some hfixL ?_
    rw [List.getElem?_set_ne (by omega),
      List.getElem?_set_self (by simp; omega)]
  · refine baseFixAt_some hfixL ?_
    rw [List.getElem?_set_self
      (by simp only [List.length_set, List.length_replicate, FIXED_COLUMNS]; omega)]
  · intro j hj hj0 hj1 hj2 hjc
    refine baseFixAt_some hfixL ?_
    rw [List.getElem?_set_ne (fun he => hjc he.symm),
      List.getElem?_set_ne (fun he => hj2 he.symm),
      List.getElem?_set_ne (fun he => hj1 he.symm),
      List.getElem?_set_ne (fun he => hj0 he.symm),
      List.getElem?_replicate_of_lt hj]
  · rw [hs7, advValAt_setBaseFix, hs6,
      advValAt_setBaseAdvVal_ne _ _ _ _ _ (by decide), hs5, advValAt_setBaseFix, hs4,
      advValAt_setBaseAdvVal_ne _ _ _ _ _ (by decide), hs3, advValAt_setBaseFix, hs2]
    exact advValAt_setBaseAdvVal_self_of_WF hW1 (some a) hl1 (by omega)
  · rw [hs7, advValAt_setBaseFix, hs6,
      advValAt_setBaseAdvVal_ne _ _ _ _ _ (by decide), hs5, advValAt_setBaseFix, hs4]
    exact advValAt_setBaseAdvVal_self_of_WF hW3 (some b) hl3 (by omega)
  · rw [hs7, advValAt_setBaseFix, hs6]
    exact advValAt_setBaseAdvVal_self_of_WF hW5 (some c) hl5 (by omega)
  · intro i hi
    rw [hs7, advValAt_setBaseFix, hs6,
      advValAt_setBaseAdvVal_ne _ _ _ _ _ (by simp [Cell.new]; omega), hs5,
      advValAt_setBaseFix, hs4,
      advValAt_setBaseAdvVal_ne _ _ _ _ _ (by simp [Cell.new]; omega), hs3,
      advValAt_setBaseFix, hs2,
      advValAt_setBaseAdvVal_ne _ _ _ _ _ (by simp [Cell.new]; omega), hs1,
      advValAt_setBaseFix]
    by_cases hiV : i < C.VAR_COLUMNS
    · rw [advValAt_base_entry hadv0 (by rw [List.getElem?_replicate, if_pos hiV])]
    · rw [advValAt_base_entry_none hadv0 (by rw [List.getElem?_replicate, if_neg hiV])]

/-- Witness for claim C7: the spec's scenario with values 10, 11, 12,
coefficients 1, 2, 3 and constant 5 under the concrete five-lane layout. -/
theorem claim_C7_witness :
    3 ≤ constsEx.VAR_COLUMNS ∧
    ∃ r', one_line constsEx Records.empty 0
        [(ValueSchema.unassigned (10 : Int), 1), (ValueSchema.unassigned 11, 2),
         (ValueSchema.unassigned 12, 3)] (some 5) ([], none) = .ok r' ∧
      baseFixAt r' 0 0 = some 1 ∧ baseFixAt r' 0 1 = some 2 ∧
      baseFixAt r' 0 2 = some 3 ∧
      baseFixAt r' 0 (constsEx.VAR_COLUMNS + constsEx.MUL_COLUMNS + 1) = some 5 ∧
      (∀ j, j < FIXED_COLUMNS constsEx → j ≠ 0 → j ≠ 1 → j ≠ 2 →
        j ≠ constsEx.VAR_COLUMNS + constsEx.MUL_COLUMNS + 1 → baseFixAt r' 0 j = none) ∧
      advValAt r' (Cell.new Chip.BaseChip 0 0) = some 10 ∧
      advValAt r' (Cell.new Chip.BaseChip 1 0) = some 11 ∧
      advValAt r' (Cell.new Chip.BaseChip 2 0) = some 12 ∧
      (∀ i, 3 ≤ i → advValAt r' (Cell.new Chip.BaseChip i 0) = none) :=
  ⟨by decide, claim_C7 constsEx (by decide) 10 11 12 1 2 3 5⟩

/-! ## Lemmas: materialization emits rows only below the heights -/

theorem baseAdvRowLoop_ops_sub :
    ∀ (advs : List (Option N × Bool)) (acc : List (RegionOp N) × CellTable N)
      (row col : Nat) (op : RegionOp N), op ∈ (baseAdvRowLoop acc row col advs).1 →
      op ∈ acc.1 ∨ ∃ cl v, op = RegionOp.assignAdvice Chip.BaseChip cl row v
  | [], acc, row, col, op, h => Or.inl h
  | adv :: rest, acc, row, col, op, h => by
    unfold baseAdvRowLoop at h
    rcases baseAdvRowLoop_ops_sub rest _ row (col + 1) op h with h1 | h1
    · cases hv : adv.1 with
      | none => rw [hv] at h1; exact Or.inl h1
      | some v =>
        rw [hv] at h1
        rcases List.mem_append.mp h1 with h2 | h2
        · exact Or.inl h2
        · rcases List.mem_singleton.mp h2 with rfl
          exact Or.inr ⟨col, v, rfl⟩
    · exact Or.inr h1

theorem baseAdvLoop_ops_sub :
    ∀ (rows : List (List (Option N × Bool))) (acc : List (RegionOp N) × CellTable N)
      (height row : Nat) (op : RegionOp N), op ∈ (baseAdvLoop acc height row rows).1 →
      op ∈ acc.1 ∨ ∃ cl r' v, op = RegionOp.assignAdvice Chip.BaseChip cl r' v ∧ r' < height
  | [], acc, height, row, op, h => Or.inl h
  | advs :: rest, acc, height, row, op, h => by
    unfold baseAdvLoop at h
    split at h
    · exact Or.inl h
    · next hlt =>
      rcases baseAdvLoop_ops_sub rest _ height (row + 1) op h with h1 | h1
      · rcases baseAdvRowLoop_ops_sub advs acc row 0 op h1 with h2 | ⟨cl, v, rfl⟩
        · exact Or.inl h2
        · exact Or.inr ⟨cl, row, v, rfl, by omega⟩
      · exact Or.inr h1

theorem baseFixRowLoop_ops_sub (C : Consts) :
    ∀ (fixes : List (Option N)) (ops : List (RegionOp N)) (row col : Nat)
      (op : RegionOp N), op ∈ baseFixRowLoop C ops row col fixes →
      op ∈ ops ∨ ∃ fc v, op = RegionOp.assignFixed fc row v
  | [], ops, row, col, op, h => Or.inl h
  | fx :: rest, ops, row, col, op, h => by
    unfold baseFixRowLoop at h
    rcases baseFixRowLoop_ops_sub C rest _ row (col + 1) op h with h1 | h1
    · cases hv : fx with
      | none => rw [hv] at h1; exact Or.inl h1
      | some v =>
        rw [hv] at h1
        rcases List.mem_append.mp h1 with h2 | h2
        · exact Or.inl h2
        · rcases List.mem_singleton.mp h2 with rfl
          exact Or.inr ⟨baseFixColId C col, v, rfl⟩
    · exact Or.inr h1

theorem baseFixLoop_ops_sub (C : Consts) :
    ∀ (rows : List (List (Option N))) (ops : List (RegionOp N)) (height row : Nat)
      (op : RegionOp N), op ∈ baseFixLoop C ops height row rows →
      op ∈ ops ∨ ∃ fc r' v, op = RegionOp.assignFixed fc r' v ∧ r' < height
  | [], ops, height, row, op, h => Or.inl h
  | fixes :: rest, ops, height, row, op, h => by
    unfold baseFixLoop at h
    split at h
    · exact Or.inl h
    · next hlt =>
      rcases baseFixLoop_ops_sub C rest _ height (row + 1) op h with h1 | h1
      · rcases baseFixRowLoop_ops_sub C fixes ops row 0 op h1 with h2 | ⟨fc, v, rfl⟩
        · exact Or.inl h2
        · exact Or.inr ⟨fc, row, v, rfl, by omega⟩
      · exact Or.inr h1

theorem rangeFixLoop_ops_sub :
    ∀ (rows : List (Option N × Option N)) (ops : List (RegionOp N)) (height row : Nat)
      (op : RegionOp N), op ∈ rangeFixLoop ops height row rows →
      op ∈ ops ∨ ∃ fc r' v, op = RegionOp.assignFixed fc r' v ∧ r' < height
  | [], ops, height, row, op, h => Or.inl h
  | fx :: rest, ops, height, row, op, h => by
    unfold rangeFixLoop at h
    split at h
    · exact Or.inl h
    · next hlt =>
      rcases rangeFixLoop_ops_sub rest _ height (row + 1) op h with h1 | h1
      · have hsub : ∀ q : RegionOp N,
            q ∈ (match fx.1 with
                 | some v => ops ++ [RegionOp.assignFixed .blockFirst row v]
                 | none => ops) →
            q ∈ ops ∨ ∃ fc v, q = RegionOp.assignFixed fc row v := by
          intro q hq
          cases hv : fx.1 with
          | none => rw [hv] at hq; exact Or.inl hq
          | some v =>
            rw [hv] at hq
            rcases List.mem_append.mp hq with h2 | h2
            · exact Or.inl h2
            · rcases List.mem_singleton.mp h2 with rfl
              exact Or.inr ⟨_, v, rfl⟩
        cases hv2 : fx.2 with
        | none =>
          rw [hv2] at h1
          rcases hsub op h1 with h2 | ⟨fc, v, rfl⟩
          · exact Or.inl h2
          · exact Or.inr ⟨fc, row, v, rfl, by omega⟩
        | some v2 =>
          rw [hv2] at h1
          rcases List.mem_append.mp h1 with h2 | h2
          · rcases hsub op h2 with h3 | ⟨fc, v, rfl⟩
            · exact Or.inl h3
            · exact Or.inr ⟨fc, row, v, rfl, by omega⟩
          · rcases List.mem_singleton.mp h2 with rfl
            exact Or.inr ⟨_, row, v2, rfl, by omega⟩
      · exact Or.inr h1

theorem rangeAdvLoop_ops_sub :
    ∀ (rows : List (Option N × Bool)) (acc : List (RegionOp N) × CellTable N)
      (height row : Nat) (op : RegionOp N), op ∈ (rangeAdvLoop acc height row rows).1 →
      op ∈ acc.1 ∨ ∃ r' v, op = RegionOp.assignAdvice Chip.RangeChip 0 r' v ∧ r' < height
  | [], acc, height, row, op, h => Or.inl h
  | adv :: rest, acc, height, row, op, h => by
    unfold rangeAdvLoop at h
    split at h
    · exact Or.inl h
    · next hlt =>
      rcases rangeAdvLoop_ops_sub rest _ height (row + 1) op h with h1 | h1
      · cases hv : adv.1 with
        | none => rw [hv] at h1; exact Or.inl h1
        | some v =>
          rw [hv] at h1
          rcases List.mem_append.mp h1 with h2 | h2
          · exact Or.inl h2
          · rcases List.mem_singleton.mp h2 with rfl
            exact Or.inr ⟨row, v, rfl, by omega⟩
      · exact Or.inr h1

/-- Claim C5: materialization never places an advice or fixed value at a
row at or above the unit's height — every `assign_advice`/`assign_fixed`
operation emitted by `_assign_to_base_chip` has its row below
`base_height`, and every one emitted by `_assign_to_range_chip` has its
row below `range_height`, even when the backing vectors extend past the
heights. -/
theorem claim_C5 (C : Consts) (r : Records N) :
    (∀ ch cl row v, RegionOp.assignAdvice ch cl row v ∈ (_assign_to_base_chip C r).1 →
      row < r.base_height) ∧
    (∀ fc row v, RegionOp.assignFixed fc row v ∈ (_assign_to_base_chip C r).1 →
      row < r.base_height) ∧
    (∀ ch cl row v, RegionOp.assignAdvice ch cl row v ∈ (_assign_to_range_chip r).1 →
      row < r.range_height) ∧
    (∀ fc row v, RegionOp.assignFixed fc row v ∈ (_assign_to_range_chip r).1 →
      row < r.range_height) := by
  have hbase : ∀ op : RegionOp N, op ∈ (_assign_to_base_chip C r).1 →
      (∃ cl r' v, op = RegionOp.assignAdvice Chip.BaseChip cl r' v ∧ r' < r.base_height) ∨
      (∃ fc r' v, op = RegionOp.assignFixed fc r' v ∧ r' < r.base_height) := by
    intro op h
    unfold _assign_to_base_chip at h
    rcases baseFixLoop_ops_sub C _ _ _ _ op h with h1 | h1
    · rcases baseAdvLoop_ops_sub _ _ _ _ op h1 with h2 | h2
      · exact absurd h2 (List.not_mem_nil op)
      · exact Or.inl h2
    · exact Or.inr h1
  have hrange : ∀ op : RegionOp N, op ∈ (_assign_to_range_chip r).1 →
      (∃ r' v, op = RegionOp.assignAdvice Chip.RangeChip 0 r' v ∧ r' < r.range_height) ∨
      (∃ fc r' v, op = RegionOp.assignFixed fc r' v ∧ r' < r.range_height) := by
    intro op h
    unfold _assign_to_range_chip at h
    rcases rangeAdvLoop_ops_sub _ _ _ _ op h with h1 | h1
    · rcases rangeFixLoop_ops_sub _ _ _ _ op h1 with h2 | h2
      · exact absurd h2 (List.not_mem_nil op)
      · exact Or.inr h2
    · exact Or.inl h1
  refine ⟨?_, ?_, ?_, ?_⟩
  · intro ch cl row v h
    rcases hbase _ h with ⟨cl', r', v', heq, hlt⟩ | ⟨fc, r', v', heq, hlt⟩
    · cases heq
      exact hlt
    · exact RegionOp.noConfusion heq
  · intro fc row v h
    rcases hbase _ h with ⟨cl', r', v', heq, hlt⟩ | ⟨fc', r', v', heq, hlt⟩
    · exact RegionOp.noConfusion heq
    · cases heq
      exact hlt
  · intro ch cl row v h
    rcases hrange _ h with ⟨r', v', heq, hlt⟩ | ⟨fc, r', v', heq, hlt⟩
    · cases heq
      exact hlt
    · exact RegionOp.noConfusion heq
  · intro fc row v h
    rcases hrange _ h with ⟨r', v', heq, hlt⟩ | ⟨fc', r', v', heq, hlt⟩
    · exact RegionOp.noConfusion heq
    · cases heq
      exact hlt

/-- Witness for claim C5 on a concrete ledger whose storage has more rows
than the heights. -/
theorem claim_C5_witness :
    (RegionOp.assignAdvice Chip.BaseChip 0 0 (3 : Int) ∈ (_assign_to_base_chip constsEx c5Ledger).1 ∧
      (0 : Nat) < c5Ledger.base_height) ∧
    (RegionOp.assignFixed (FixColId.coeff 0) 0 (2 : Int) ∈ (_assign_to_base_chip constsEx c5Ledger).1 ∧
      (0 : Nat) < c5Ledger.base_height) ∧
    (RegionOp.assignAdvice Chip.RangeChip 0 0 (5 : Int) ∈ (_assign_to_range_chip c5Ledger).1 ∧
      (0 : Nat) < c5Ledger.range_height) ∧
    (RegionOp.assignFixed FixColId.blockFirst 0 (1 : Int) ∈ (_assign_to_range_chip c5Ledger).1 ∧
      (0 : Nat) < c5Ledger.range_height) := by
  have hmem1 : RegionOp.assignAdvice Chip.BaseChip 0 0 (3 : Int) ∈
      (_assign_to_base_chip constsEx c5Ledger).1 := by decide
  have hmem2 : RegionOp.assignFixed (FixColId.coeff 0) 0 (2 : Int) ∈
      (_assign_to_base_chip constsEx c5Ledger).1 := by decide
  have hmem3 : RegionOp.assignAdvice Chip.RangeChip 0 0 (5 : Int) ∈
      (_assign_to_range_chip c5Ledger).1 := by decide
  have hmem4 : RegionOp.assignFixed FixColId.blockFirst 0 (1 : Int) ∈
      (_assign_to_range_chip c5Ledger).1 := by decide
  exact ⟨⟨hmem1, (claim_C5 constsEx c5Ledger).1 _ _ _ _ hmem1⟩,
    ⟨hmem2, (claim_C5 constsEx c5Ledger).2.1 _ _ _ hmem2⟩,
    ⟨hmem3, (claim_C5 constsEx c5Ledger).2.2.1 _ _ _ _ hmem3⟩,
    ⟨hmem4, (claim_C5 constsEx c5Ledger).2.2.2 _ _ _ hmem4⟩⟩

/-! ## Claim C6 -/

theorem _assign_permutation_panic {cells : List (CellTable N)} :
    ∀ (perms : List (Cell × Cell)),
      (∃ p ∈ perms, cellsLookup cells p.1 = none ∨ cellsLookup cells p.2 = none) →
      _assign_permutation cells perms = .error MatErr.panic
  | [], h => absurd h (by simp)
  | (l, rr) :: rest, h => by
    unfold _assign_permutation
    cases hl : cellsLookup cells l with
    | none => rfl
    | some hdl =>
      cases hr : cellsLookup cells rr with
      | none => rfl
      | some hdr =>
        rcases h with ⟨p, hp, hnone⟩
        rcases List.mem_cons.mp hp with rfl | hp'
        · rcases hnone with hx | hx
          · rw [hl] at hx
            exact Option.noConfusion hx
          · rw [hr] at hx
            exact Option.noConfusion hx
        · rw [_assign_permutation_panic rest ⟨p, hp', hnone⟩]

/-- Claim C6: if any permutation pair references a cell with no placed
handle in the materialized tables, `assign_all` fails with the fatal
structural panic (`.unwrap()` on `None`), not by skipping the constraint
and not with a recoverable region error. -/
theorem claim_C6 (C : Consts) (r : Records N)
    (h : ∃ p ∈ r.permutations,
      cellsLookup (matCells C r) p.1 = none ∨ cellsLookup (matCells C r) p.2 = none) :
    assign_all C r = .error MatErr.panic := by
  unfold assign_all
  dsimp only
  rw [show ([(_assign_to_base_chip C r).2, (_assign_to_range_chip r).2] : List (CellTable N)) =
    matCells C r from rfl]
  rw [_assign_permutation_panic r.permutations h]

/-- Witness for claim C6: a ledger whose single pair references the
never-placed cell `(BaseChip, 0, 0)`. -/
theorem claim_C6_witness :
    (∃ p ∈ c6Ledger.permutations,
      cellsLookup (matCells constsEx c6Ledger) p.1 = none ∨
      cellsLookup (matCells constsEx c6Ledger) p.2 = none) ∧
    assign_all constsEx c6Ledger = .error MatErr.panic := by
  have h : ∃ p ∈ c6Ledger.permutations,
      cellsLookup (matCells constsEx c6Ledger) p.1 = none ∨
      cellsLookup (matCells constsEx c6Ledger) p.2 = none := by
    refine ⟨(Cell.new Chip.BaseChip 0 0, Cell.new Chip.BaseChip 0 0), by decide, ?_⟩
    left
    decide
  exact ⟨h, claim_C6 constsEx c6Ledger h⟩

/-! ## Lemmas: flags through every primitive step -/

theorem flagAt_setRangeAdvFlag_self' (r : Records N) {row : Nat} (col : Nat)
    (h : row < r.range_adv_record.length) :
    flagAt (setRangeAdvFlag r row) (Cell.mk Chip.RangeChip col row) = true := by
  unfold flagAt setRangeAdvFlag
  simp only [getElem?_modifyAt_self]
  rcases List.getElem?_eq_getElem h with he
  simp [he]

theorem flagAt_bumpBaseHeight (r : Records N) (offset : Nat) (c : Cell) :
    flagAt (bumpBaseHeight r offset) c = flagAt r c := by
  unfold flagAt
  rw [(bumpBaseHeight_rest r offset).1, (bumpBaseHeight_rest r offset).2.2.1]

theorem flagAt_growRangeStorage (r : Records N) (offset : Nat) (c : Cell) :
    flagAt (growRangeStorage r offset) c = flagAt r c := by
  unfold growRangeStorage
  split
  · next hgrow =>
    obtain ⟨reg, ccol, crow⟩ := c
    cases reg with
    | BaseChip => rfl
    | RangeChip =>
      have hle : r.range_adv_record.length ≤ alignTo 1024 offset := by
        have := lt_alignTo 1024 offset (by omega)
        omega
      unfold flagAt
      simp only
      rw [getElem?_resizeList _ _ _ _ hle]
      by_cases hlt : crow < r.range_adv_record.length
      · rw [if_pos hlt]
      · rw [if_neg hlt, List.getElem?_eq_none (Nat.le_of_not_lt hlt)]
        by_cases hlt2 : crow < alignTo 1024 offset
        · rw [if_pos hlt2]
        · rw [if_neg hlt2]
  · rfl

theorem flagAt_bumpRangeHeight (r : Records N) (offset : Nat) (c : Cell) :
    flagAt (bumpRangeHeight r offset) c = flagAt r c := by
  unfold flagAt
  rw [(bumpRangeHeight_rest r offset).1, (bumpRangeHeight_rest r offset).2.2.2.1]

theorem flagAt_writeMuls (C : Consts) {offset : Nat} :
    ∀ (ms : List N) (r : Records N) (i : Nat) (c : Cell),
      flagAt (writeMuls C r offset i ms) c = flagAt r c
  | [], _, _, _ => rfl
  | m :: rest, r, i, c => by
    unfold writeMuls
    rw [flagAt_writeMuls C rest _ (i + 1) c, flagAt_setBaseFix]

theorem permutations_writeMuls (C : Consts) {offset : Nat} :
    ∀ (ms : List N) (r : Records N) (i : Nat),
      (writeMuls C r offset i ms).permutations = r.permutations
  | [], _, _ => rfl
  | m :: rest, r, i => permutations_writeMuls C rest _ (i + 1)

theorem WFrows_of_rest {C : Consts} {r r' : Records N}
    (h : r'.base_adv_record = r.base_adv_record) (hWF : WFrows C r) : WFrows C r' := by
  intro l hl
  rw [h] at hl
  exact hWF l hl

theorem FlagPairsInv_of_eq {r r' : Records N}
    (hperm : r'.permutations = r.permutations)
    (hflag : ∀ c, flagAt r' c = flagAt r c) (h : FlagPairsInv r) : FlagPairsInv r' := by
  intro p hp
  rw [hperm] at hp
  rw [hflag p.1, hflag p.2]
  exact h p hp

theorem enable_permute_flags {r r2 : Records N} {c : Cell}
    (h : enable_permute r c = some r2) :
    flagAt r2 c = true ∧ (∀ d, flagAt r d = true → flagAt r2 d = true) ∧
    r2.permutations = r.permutations ∧ r2.base_adv_record.length = r.base_adv_record.length ∧
    (∀ l ∈ r2.base_adv_record, ∃ l' ∈ r.base_adv_record, l.length = l'.length) ∧
    (∀ d, advValAt r2 d = advValAt r d) := by
  unfold enable_permute at h
  obtain ⟨reg, ccol, crow⟩ := c
  cases reg with
  | BaseChip =>
    simp only at h
    cases hx : r.base_adv_record[crow]? with
    | none => rw [hx] at h; exact Option.noConfusion h
    | some rowl =>
      simp only [hx] at h
      by_cases hcol : ccol < rowl.length
      · rw [if_pos hcol] at h
        cases h
        refine ⟨flagAt_setBaseAdvFlag_self r hx hcol, ?_, rfl, length_modifyAt _ _ _, ?_, ?_⟩
        · intro d hd
          exact flagAt_setBaseAdvFlag_mono r crow ccol d hd
        · intro l hl
          rcases mem_modifyAt _ _ _ _ hl with h1 | ⟨a, ha, rfl⟩
          · exact ⟨l, h1, rfl⟩
          · exact ⟨a, ha, length_modifyAt _ _ _⟩
        · intro d
          exact advValAt_setBaseAdvFlag r crow ccol d
      · rw [if_neg hcol] at h
        exact Option.noConfusion h
  | RangeChip =>
    simp only at h
    by_cases hrow : crow < r.range_adv_record.length
    · rw [if_pos hrow] at h
      cases h
      refine ⟨flagAt_setRangeAdvFlag_self' r ccol hrow, ?_, rfl, rfl, ?_, ?_⟩
      · intro d hd
        exact flagAt_setRangeAdvFlag_mono r crow d hd
      · intro l hl
        exact ⟨l, hl, rfl⟩
      · intro d
        exact advValAt_setRangeAdvFlag r crow d
    · rw [if_neg hrow] at h
      exact Option.noConfusion h

theorem writePair_flags {C : Consts} {r r' : Records N} {offset i : Nat}
    {b : ValueSchema N} {co : N} (hWF : WFrows C r)
    (hrow : offset < r.base_adv_record.length) (hiV : i < C.VAR_COLUMNS)
    (h : writePair r offset i b co = .ok r') :
    (∀ c, flagAt r c = true → flagAt r' c = true) ∧ WFrows C r' ∧
    (r'.permutations = r.permutations ∨
      ∃ c₀, b.cell = some c₀ ∧
        r'.permutations = r.permutations ++ [(c₀, Cell.new Chip.BaseChip i offset)] ∧
        flagAt r' c₀ = true ∧ flagAt r' (Cell.new Chip.BaseChip i offset) = true) := by
  unfold writePair at h
  cases hc : b.cell with
  | none =>
    simp only [hc] at h
    cases h
    refine ⟨?_, ?_, Or.inl rfl⟩
    · intro c hcf
      rw [flagAt_setBaseAdvVal, flagAt_setBaseFix]
      exact hcf
    · exact WFrows_setBaseAdvVal (WFrows_setBaseFix hWF _ _ _) _ _ _
  | some c₀ =>
    simp only [hc] at h
    cases he : enable_permute (setBaseAdvFlag r offset i) c₀ with
    | none => simp only [he] at h; exact Except.noConfusion h
    | some r2 =>
      simp only [he, Except.ok.injEq] at h
      subst h
      obtain ⟨hflag₀, hmono₂, hperm₂, hlen₂, hrows₂, hval₂⟩ := enable_permute_flags he
      obtain ⟨rowl, hrl, hrlen⟩ := WFrows_lookup hWF hrow
      have hidx1 : flagAt (setBaseAdvFlag r offset i) (Cell.new Chip.BaseChip i offset) = true :=
        flagAt_setBaseAdvFlag_self r hrl (hrlen ▸ hiV)
      have hWF1 : WFrows C (setBaseAdvFlag r offset i) := WFrows_setBaseAdvFlag hWF offset i
      have hWF2 : WFrows C r2 := by
        intro l hl
        rcases hrows₂ l hl with ⟨l', hl', hlen⟩
        rw [hlen]
        exact hWF1 l' hl'
      refine ⟨?_, ?_, Or.inr ⟨c₀, rfl, ?_, ?_, ?_⟩⟩
      · intro c hcf
        rw [flagAt_setBaseAdvVal, flagAt_setBaseFix]
        show flagAt { r2 with permutations := _ } c = true
        have : flagAt { r2 with permutations := r2.permutations ++
            [(c₀, Cell.new Chip.BaseChip i offset)] } c = flagAt r2 c := rfl
        rw [this]
        exact hmono₂ c (flagAt_setBaseAdvFlag_mono r offset i c hcf)
      · refine WFrows_setBaseAdvVal (C := C) ?_ _ _ _
        intro l hl
        exact hWF2 l hl
      · show r2.permutations ++ [(c₀, Cell.new Chip.BaseChip i offset)] =
          r.permutations ++ [(c₀, Cell.new Chip.BaseChip i offset)]
        rw [hperm₂]
        rfl
      · rw [flagAt_setBaseAdvVal, flagAt_setBaseFix]
        exact hflag₀
      · rw [flagAt_setBaseAdvVal, flagAt_setBaseFix]
        show flagAt { r2 with permutations := _ } (Cell.new Chip.BaseChip i offset) = true
        have : flagAt { r2 with permutations := r2.permutations ++
            [(c₀, Cell.new Chip.BaseChip i offset)] } (Cell.new Chip.BaseChip i offset) =
            flagAt r2 (Cell.new Chip.BaseChip i offset) := rfl
        rw [this]
        exact hmono₂ _ hidx1

theorem base_adv_writeMuls (C : Consts) {offset : Nat} :
    ∀ (ms : List N) (r : Records N) (i : Nat),
      (writeMuls C r offset i ms).base_adv_record = r.base_adv_record
  | [], _, _ => rfl
  | m :: rest, r, i => base_adv_writeMuls C rest _ (i + 1)

theorem FlagPairsInv_writePair {C : Consts} {r r' : Records N} {offset i : Nat}
    {b : ValueSchema N} {co : N} (hWF : WFrows C r)
    (hrow : offset < r.base_adv_record.length) (hiV : i < C.VAR_COLUMNS)
    (hFPI : FlagPairsInv r) (h : writePair r offset i b co = .ok r') :
    FlagPairsInv r' := by
  obtain ⟨hmono, _, hperm⟩ := writePair_flags hWF hrow hiV h
  intro p hp
  rcases hperm with heq | ⟨c₀, hc₀, heq, hf1, hf2⟩
  · rw [heq] at hp
    obtain ⟨h1, h2⟩ := hFPI p hp
    exact ⟨hmono _ h1, hmono _ h2⟩
  · rw [heq] at hp
    rcases List.mem_append.mp hp with hp' | hp'
    · obtain ⟨h1, h2⟩ := hFPI p hp'
      exact ⟨hmono _ h1, hmono _ h2⟩
    · rcases List.mem_singleton.mp hp' with rfl
      exact ⟨hf1, hf2⟩

theorem one_line_pairs_flags {C : Consts} {offset : Nat} :
    ∀ (pairs : List (ValueSchema N × N)) (r r' : Records N) (i : Nat),
      WFrows C r → offset < r.base_adv_record.length →
      i + pairs.length ≤ C.VAR_COLUMNS → FlagPairsInv r →
      one_line_pairs r offset i pairs = .ok r' →
      FlagPairsInv r' ∧ flagMono r r' ∧ WFrows C r' ∧
      r'.base_adv_record.length = r.base_adv_record.length
  | [], r, r', i, hWF, hrow, hle, hFPI, h => by
    unfold one_line_pairs at h
    cases h
    exact ⟨hFPI, fun c hc => hc, hWF, rfl⟩
  | (b, co) :: rest, r, r', i, hWF, hrow, hle, hFPI, h => by
    unfold one_line_pairs at h
    cases hw : writePair r offset i b co with
    | error s => rw [hw] at h; exact Except.noConfusion h
    | ok r1 =>
      rw [hw] at h
      have hiV : i < C.VAR_COLUMNS := by
        simp only [List.length_cons] at hle
        omega
      obtain ⟨hmono1, hWF1, _⟩ := writePair_flags hWF hrow hiV hw
      have hFPI1 : FlagPairsInv r1 := FlagPairsInv_writePair hWF hrow hiV hFPI hw
      have hlen1 : r1.base_adv_record.length = r.base_adv_record.length :=
        (writePair_shape hw).2.2.1
      have hrow1 : offset < r1.base_adv_record.length := by
        rw [hlen1]
        exact hrow
      have hle1 : (i + 1) + rest.length ≤ C.VAR_COLUMNS := by
        simp only [List.length_cons] at hle
        omega
      obtain ⟨hFPI', hmono', hWF', hlen'⟩ :=
        one_line_pairs_flags rest r1 r' (i + 1) hWF1 hrow1 hle1 hFPI1 h
      exact ⟨hFPI', fun c hc => hmono' c (hmono1 c hc), hWF', hlen'.trans hlen1⟩

theorem one_line_ok_flags {C : Consts} {r r' : Records N} {off : Nat}
    {pairs : List (ValueSchema N × N)} {cst : Option N} {mn : List N × Option N}
    (hWF : WFrows C r) (hFPI : FlagPairsInv r)
    (h : one_line C r off pairs cst mn = .ok r') :
    FlagPairsInv r' ∧ flagMono r r' ∧ WFrows C r' ∧
    off < r'.base_adv_record.length := by
  unfold one_line at h
  split at h
  · next hlen =>
    set r2 := bumpBaseHeight (extendBase C r off) off with hr2
    have hWF2 : WFrows C r2 := WFrows_bumpBaseHeight (WFrows_extendBase hWF off) off
    have hflag2 : ∀ c, flagAt r2 c = flagAt r c := by
      intro c
      rw [hr2, flagAt_bumpBaseHeight, extendBase_flagAt]
    have hperm2 : r2.permutations = r.permutations := by
      rw [hr2, (bumpBaseHeight_rest _ _).2.2.2.2.2, (extendBase_rest C r off).2.2.2.2]
    have hFPI2 : FlagPairsInv r2 := FlagPairsInv_of_eq hperm2 hflag2 hFPI
    have hrow2 : off < r2.base_adv_record.length := by
      rw [hr2, (bumpBaseHeight_rest _ _).1]
      exact extendBase_adv_length C r off
    cases hlp : one_line_pairs r2 off 0 pairs with
    | error s => simp only [hlp] at h; exact Except.noConfusion h
    | ok r3 =>
      simp only [hlp] at h
      obtain ⟨hFPI3, hmono3, hWF3, hlen3⟩ :=
        one_line_pairs_flags pairs r2 r3 0 hWF2 hrow2 (by omega) hFPI2 hlp
      obtain ⟨ms, nx⟩ := mn
      have hfin : ∀ r'' : Records N,
          (∀ c, flagAt r'' c = flagAt (writeMuls C r3 off 0 ms) c) →
          r''.permutations = (writeMuls C r3 off 0 ms).permutations →
          r''.base_adv_record = (writeMuls C r3 off 0 ms).base_adv_record →
          FlagPairsInv r'' ∧ flagMono r r'' ∧ WFrows C r'' ∧
          off < r''.base_adv_record.length := by
        intro r'' hfl hpm hba
        refine ⟨?_, ?_, ?_, ?_⟩
        · refine FlagPairsInv_of_eq (hpm.trans (permutations_writeMuls C ms r3 0))
            (fun c => (hfl c).trans (flagAt_writeMuls C ms r3 0 c)) hFPI3
        · intro c hc
          rw [hfl c, flagAt_writeMuls]
          exact hmono3 c (by rw [hflag2]; exact hc)
        · exact WFrows_of_rest (hba.trans (base_adv_writeMuls C ms r3 0)) hWF3
        · rw [hba, base_adv_writeMuls, hlen3]
          exact hrow2
      cases nx with
      | none =>
        cases cst with
        | none =>
          simp only [Except.ok.injEq] at h
          subst h
          exact hfin _ (fun c => rfl) rfl rfl
        | some cv =>
          simp only [Except.ok.injEq] at h
          subst h
          exact hfin _ (fun c => rfl) rfl rfl
      | some nxv =>
        cases cst with
        | none =>
          simp only [Except.ok.injEq] at h
          subst h
          exact hfin _ (fun c => rfl) rfl rfl
        | some cv =>
          simp only [Except.ok.injEq] at h
          subst h
          exact hfin _ (fun c => rfl) rfl rfl
  · exact Except.noConfusion h

theorem one_line_with_last_ok_flags {C : Consts} {r r' : Records N} {off : Nat}
    {pairs : List (ValueSchema N × N)} {tl : ValueSchema N × N} {cst : Option N}
    {mn : List N × Option N} (hV : 1 ≤ C.VAR_COLUMNS)
    (hWF : WFrows C r) (hFPI : FlagPairsInv r)
    (h : one_line_with_last C r off pairs tl cst mn = .ok r') :
    FlagPairsInv r' ∧ flagMono r r' ∧ WFrows C r' ∧
    off < r'.base_adv_record.length := by
  unfold one_line_with_last at h
  split at h
  · cases hol : one_line C r off pairs cst mn with
    | error s => simp only [hol] at h; exact Except.noConfusion h
    | ok r1 =>
      simp only [hol] at h
      obtain ⟨hFPI1, hmono1, hWF1, hrow1⟩ := one_line_ok_flags hWF hFPI hol
      have hiV : C.VAR_COLUMNS - 1 < C.VAR_COLUMNS := by omega
      obtain ⟨hmono2, hWF2, _⟩ := writePair_flags hWF1 hrow1 hiV h
      refine ⟨FlagPairsInv_writePair hWF1 hrow1 hiV hFPI1 h, ?_, hWF2, ?_⟩
      · intro c hc
        exact hmono2 c (hmono1 c hc)
      · rw [(writePair_shape h).2.2.1]
        exact hrow1
  · exact Except.noConfusion h

theorem runReqs_flags [Zero N] [One N] [NatCast N] {C : Consts} (hV : 1 ≤ C.VAR_COLUMNS) :
    ∀ (reqs : List (Req N)) (r r' : Records N), reqs.all isLineReq = true →
      WFrows C r → FlagPairsInv r → runReqs C r reqs = .ok r' →
      FlagPairsInv r' ∧ flagMono r r' ∧ WFrows C r'
  | [], r, r', _, hWF, hFPI, h => by
    unfold runReqs at h
    cases h
    exact ⟨hFPI, fun c hc => hc, hWF⟩
  | q :: rest, r, r', hall, hWF, hFPI, h => by
    unfold runReqs at h
    rw [List.all_cons, Bool.and_eq_true] at hall
    cases ha : applyReq C r q with
    | error s => rw [ha] at h; exact Except.noConfusion h
    | ok r1 =>
      rw [ha] at h
      have hstep : FlagPairsInv r1 ∧ flagMono r r1 ∧ WFrows C r1 := by
        cases q with
        | line off pairs cst muls nxt =>
          have hol : one_line C r off pairs cst (muls, nxt) = .ok r1 := ha
          obtain ⟨a, b, c, _⟩ := one_line_ok_flags hWF hFPI hol
          exact ⟨a, b, c⟩
        | lineLast off pairs tv tc cst muls nxt =>
          have hol : one_line_with_last C r off pairs (tv, tc) cst (muls, nxt) = .ok r1 := ha
          obtain ⟨a, b, c, _⟩ := one_line_with_last_ok_flags hV hWF hFPI hol
          exact ⟨a, b, c⟩
        | singleRange off v lb => exact absurd hall.1 (by simp [isLineReq])
        | rangeVal off v chunks lb => exact absurd hall.1 (by simp [isLineReq])
      obtain ⟨hFPI1, hmono1, hWF1⟩ := hstep
      obtain ⟨hFPI', hmono', hWF'⟩ := runReqs_flags hV rest r1 r' hall.2 hWF1 hFPI1 h
      exact ⟨hFPI', fun c hc => hmono' c (hmono1 c hc), hWF'⟩

/-! ## Lemmas: the materialized base cell table retains every flagged value -/

theorem get2_set2_self {cells : CellTable N} {col row : Nat}
    {l : List (Option (AssignedCell N))} (x : Option (AssignedCell N))
    (h1 : cells[col]? = some l) (h2 : row < l.length) :
    get2 (set2 cells col row x) col row = x := by
  unfold get2 set2
  simp only [getElem?_modifyAt_self, h1, Option.map_some']
  rw [List.getElem?_set_self h2]

theorem get2_set2_ne {cells : CellTable N} {col row col' row' : Nat}
    (x : Option (AssignedCell N)) (h : col ≠ col' ∨ row ≠ row') :
    get2 (set2 cells col row x) col' row' = get2 cells col' row' := by
  unfold get2 set2
  rcases h with h | h
  · rw [getElem?_modifyAt_ne _ _ h]
  · by_cases hcol : col = col'
    · subst hcol
      simp only [getElem?_modifyAt_self]
      cases hx : cells[col]? with
      | none => rfl
      | some l => simp [List.getElem?_set_ne h]
    · rw [getElem?_modifyAt_ne _ _ hcol]

theorem set2_colLengths {cells : CellTable N} {col row : Nat}
    (x : Option (AssignedCell N)) (col' : Nat) :
    (set2 cells col row x).length = cells.length ∧
    (∀ l', (set2 cells col row x)[col']? = some l' →
      ∃ l, cells[col']? = some l ∧ l'.length = l.length) := by
  constructor
  · exact length_modifyAt _ _ _
  · intro l' hl'
    unfold set2 at hl'
    by_cases hcol : col = col'
    · subst hcol
      rw [getElem?_modifyAt_self] at hl'
      cases hx : cells[col]? with
      | none => rw [hx] at hl'; exact Option.noConfusion hl'
      | some l =>
        rw [hx] at hl'
        simp only [Option.map_some', Option.some.injEq] at hl'
        exact ⟨l, rfl, hl' ▸ List.length_set _ _ _⟩
    · rw [getElem?_modifyAt_ne _ _ hcol] at hl'
      exact ⟨l', hl', rfl⟩

theorem baseAdvRowLoop_colLengths :
    ∀ (advs : List (Option N × Bool)) (acc : List (RegionOp N) × CellTable N)
      (row cs col' : Nat) (l' : List (Option (AssignedCell N))),
      (baseAdvRowLoop acc row cs advs).2[col']? = some l' →
      ∃ l, acc.2[col']? = some l ∧ l'.length = l.length
  | [], acc, row, cs, col', l', h => ⟨l', h, rfl⟩
  | adv :: rest, acc, row, cs, col', l', h => by
    unfold baseAdvRowLoop at h
    obtain ⟨l1, hl1, hlen1⟩ := baseAdvRowLoop_colLengths rest _ row (cs + 1) col' l' h
    cases hv : adv.1 with
    | none =>
      simp only [hv] at hl1
      exact ⟨l1, hl1, hlen1⟩
    | some v =>
      simp only [hv] at hl1
      by_cases hfl : adv.2
      · rw [if_pos hfl] at hl1
        obtain ⟨l0, hl0, hlen0⟩ := (set2_colLengths _ col').2 l1 hl1
        exact ⟨l0, hl0, hlen1.trans hlen0⟩
      · rw [if_neg hfl] at hl1
        exact ⟨l1, hl1, hlen1⟩

theorem baseAdvRowLoop_get2_row_ne :
    ∀ (advs : List (Option N × Bool)) (acc : List (RegionOp N) × CellTable N)
      (row cs col' row' : Nat), row' ≠ row →
      get2 (baseAdvRowLoop acc row cs advs).2 col' row' = get2 acc.2 col' row'
  | [], acc, row, cs, col', row', _ => rfl
  | adv :: rest, acc, row, cs, col', row', hne => by
    unfold baseAdvRowLoop
    rw [baseAdvRowLoop_get2_row_ne rest _ row (cs + 1) col' row' hne]
    cases hv : adv.1 with
    | none => rfl
    | some v =>
      dsimp only
      by_cases hfl : adv.2
      · rw [if_pos hfl]
        exact get2_set2_ne _ (Or.inr fun he => hne he.symm)
      · rw [if_neg hfl]

theorem baseAdvRowLoop_get2_lo :
    ∀ (advs : List (Option N × Bool)) (acc : List (RegionOp N) × CellTable N)
      (row cs col' row' : Nat), col' < cs →
      get2 (baseAdvRowLoop acc row cs advs).2 col' row' = get2 acc.2 col' row'
  | [], acc, row, cs, col', row', _ => rfl
  | adv :: rest, acc, row, cs, col', row', hlt => by
    unfold baseAdvRowLoop
    rw [baseAdvRowLoop_get2_lo rest _ row (cs + 1) col' row' (by omega)]
    cases hv : adv.1 with
    | none => rfl
    | some v =>
      dsimp only
      by_cases hfl : adv.2
      · rw [if_pos hfl]
        exact get2_set2_ne _ (Or.inl (by omega))
      · rw [if_neg hfl]

theorem baseAdvRowLoop_get2_at :
    ∀ (advs : List (Option N × Bool)) (acc : List (RegionOp N) × CellTable N)
      (row cs col : Nat) (v : N), cs ≤ col →
      advs[col - cs]? = some (some v, true) →
      (∃ l, acc.2[col]? = some l ∧ row < l.length) →
      get2 (baseAdvRowLoop acc row cs advs).2 col row =
        some ⟨Chip.BaseChip, col, row, v⟩
  | [], acc, row, cs, col, v, hcs, hadv, hbound => by
    simp at hadv
  | adv :: rest, acc, row, cs, col, v, hcs, hadv, hbound => by
    unfold baseAdvRowLoop
    by_cases heq : col = cs
    · subst heq
      rw [Nat.sub_self] at hadv
      simp only [List.getElem?_cons_zero, Option.some.injEq] at hadv
      subst hadv
      obtain ⟨l, hl, hrow⟩ := hbound
      rw [baseAdvRowLoop_get2_lo rest _ row (col + 1) col row (by omega)]
      simp only [if_pos rfl]
      exact get2_set2_self _ hl hrow
    · have hlt : cs < col := by omega
      have hadv' : rest[col - (cs + 1)]? = some (some v, true) := by
        have hidx : col - cs = (col - (cs + 1)) + 1 := by omega
        rw [hidx] at hadv
        simpa using hadv
      refine baseAdvRowLoop_get2_at rest _ row (cs + 1) col v (by omega) hadv' ?_
      obtain ⟨l, hl, hrow⟩ := hbound
      cases hv : adv.1 with
      | none => exact ⟨l, hl, hrow⟩
      | some v0 =>
        dsimp only
        by_cases hfl : adv.2
        · rw [if_pos hfl]
          refine ⟨l, ?_, hrow⟩
          unfold set2
          rw [getElem?_modifyAt_ne _ _ (show cs ≠ col by omega)]
          exact hl
        · rw [if_neg hfl]
          exact ⟨l, hl, hrow⟩

theorem baseAdvRowLoop_length :
    ∀ (advs : List (Option N × Bool)) (acc : List (RegionOp N) × CellTable N)
      (row cs : Nat), (baseAdvRowLoop acc row cs advs).2.length = acc.2.length
  | [], acc, row, cs => rfl
  | adv :: rest, acc, row, cs => by
    unfold baseAdvRowLoop
    rw [baseAdvRowLoop_length rest _ row (cs + 1)]
    cases hv : adv.1 with
    | none => rfl
    | some v =>
      dsimp only
      by_cases hfl : adv.2
      · rw [if_pos hfl]
        exact length_modifyAt _ _ _
      · rw [if_neg hfl]

theorem baseAdvLoop_get2_hi :
    ∀ (rows : List (List (Option N × Bool))) (acc : List (RegionOp N) × CellTable N)
      (height row0 col rowT : Nat), rowT < row0 →
      get2 (baseAdvLoop acc height row0 rows).2 col rowT = get2 acc.2 col rowT
  | [], acc, height, row0, col, rowT, _ => rfl
  | advs :: rest, acc, height, row0, col, rowT, hlt => by
    unfold baseAdvLoop
    split
    · rfl
    · rw [baseAdvLoop_get2_hi rest _ height (row0 + 1) col rowT (by omega)]
      exact baseAdvRowLoop_get2_row_ne advs acc row0 0 col rowT (by omega)

theorem baseAdvLoop_get2_at :
    ∀ (rows : List (List (Option N × Bool))) (acc : List (RegionOp N) × CellTable N)
      (height row0 col rowT : Nat) (advs : List (Option N × Bool)) (v : N),
      row0 ≤ rowT → rowT < height →
      rows[rowT - row0]? = some advs →
      advs[col]? = some (some v, true) →
      (∃ l, acc.2[col]? = some l ∧ rowT < l.length) →
      get2 (baseAdvLoop acc height row0 rows).2 col rowT =
        some ⟨Chip.BaseChip, col, rowT, v⟩
  | [], acc, height, row0, col, rowT, advs, v, hle, hlt, hrow, hadv, hbound => by
    simp at hrow
  | advs0 :: rest, acc, height, row0, col, rowT, advs, v, hle, hlt, hrow, hadv, hbound => by
    unfold baseAdvLoop
    split
    · next hguard => omega
    · next hguard =>
      by_cases heq : rowT = row0
      · subst heq
        rw [Nat.sub_self] at hrow
        simp only [List.getElem?_cons_zero, Option.some.injEq] at hrow
        subst hrow
        rw [baseAdvLoop_get2_hi rest _ height (rowT + 1) col rowT (by omega)]
        obtain ⟨l, hl, hrowlt⟩ := hbound
        exact baseAdvRowLoop_get2_at advs0 acc rowT 0 col v (Nat.zero_le col)
          (by simpa using hadv) ⟨l, hl, hrowlt⟩
      · have hlt0 : row0 < rowT := by omega
        have hrow' : rest[rowT - (row0 + 1)]? = some advs := by
          have hidx : rowT - row0 = (rowT - (row0 + 1)) + 1 := by omega
          rw [hidx] at hrow
          simpa using hrow
        refine baseAdvLoop_get2_at rest _ height (row0 + 1) col rowT advs v
          (by omega) hlt hrow' hadv ?_
        obtain ⟨l, hl, hrowlt⟩ := hbound
        have hcol : col < acc.2.length := by
          by_contra hc
          rw [List.getElem?_eq_none (Nat.le_of_not_lt hc)] at hl
          exact Option.noConfusion hl
        have hcol' : col < (baseAdvRowLoop acc row0 0 advs0).2.length := by
          rw [baseAdvRowLoop_length advs0 acc row0 0]
          exact hcol
        rcases List.getElem?_eq_getElem hcol' with hl''
        obtain ⟨l0, hl0, hlen0⟩ := baseAdvRowLoop_colLengths advs0 acc row0 0 col _ hl''
        have hl0l : l0 = l := Option.some_inj.mp (hl0.symm.trans hl)
        exact ⟨_, hl'', by rw [hlen0, hl0l]; exact hrowlt⟩

/-! ## Lemmas: copy-constraint soundness (the `InvC2` invariant) -/

theorem WFr_of_shape {C : Consts} {r r' : Records N} (hWF : WFr C r)
    (hrows : WFrows C r') (hs : sameShape r r') : WFr C r' := by
  refine ⟨hrows, ?_, ?_⟩
  · rw [hs.1, hs.2.2.1]
    exact hWF.2.1
  · have h0 : r'.range_adv_record.length = 0 := by
      rw [hs.2.2.2.2.1, hWF.2.2]
      rfl
    exact List.length_eq_zero.mp h0

theorem writeMuls_rest (C : Consts) {off : Nat} :
    ∀ (ms : List N) (r : Records N) (i : Nat),
      (writeMuls C r off i ms).base_adv_record = r.base_adv_record ∧
      (writeMuls C r off i ms).range_adv_record = r.range_adv_record ∧
      (writeMuls C r off i ms).base_height = r.base_height ∧
      (writeMuls C r off i ms).permutations = r.permutations
  | [], _, _ => ⟨rfl, rfl, rfl, rfl⟩
  | m :: rest, r, i => writeMuls_rest C rest _ (i + 1)

theorem writePair_advVals {C : Consts} {r r' : Records N} {off i : Nat}
    {b : ValueSchema N} {co : N} (hWF : WFrows C r)
    (hrow : off < r.base_adv_record.length) (hiV : i < C.VAR_COLUMNS)
    (h : writePair r off i b co = .ok r') :
    advValAt r' (Cell.new Chip.BaseChip i off) = some b.value ∧
    (∀ c, c ≠ Cell.new Chip.BaseChip i off → advValAt r' c = advValAt r c) := by
  unfold writePair at h
  cases hc : b.cell with
  | none =>
    simp only [hc] at h
    cases h
    constructor
    · exact advValAt_setBaseAdvVal_self_of_WF (C := C)
        (WFrows_setBaseFix hWF off i (some co)) (some b.value) hrow hiV
    · intro c hcne
      rw [advValAt_setBaseAdvVal_ne _ off i _ c hcne, advValAt_setBaseFix]
  | some c₀ =>
    simp only [hc] at h
    cases he : enable_permute (setBaseAdvFlag r off i) c₀ with
    | none => simp only [he] at h; exact Except.noConfusion h
    | some r2 =>
      simp only [he, Except.ok.injEq] at h
      subst h
      obtain ⟨_, _, _, hlen₂, hrows₂, hval₂⟩ := enable_permute_flags he
      have hWF1 : WFrows C (setBaseAdvFlag r off i) := WFrows_setBaseAdvFlag hWF off i
      have hWF2 : WFrows C r2 := by
        intro l hl
        rcases hrows₂ l hl with ⟨l', hl', hll⟩
        rw [hll]
        exact hWF1 l' hl'
      have hlen2 : r2.base_adv_record.length = r.base_adv_record.length := by
        rw [hlen₂]
        exact length_modifyAt _ _ _
      have hrow2 : off < r2.base_adv_record.length := by
        rw [hlen2]
        exact hrow
      constructor
      · exact advValAt_setBaseAdvVal_self_of_WF (C := C)
          (WFrows_setBaseFix (C := C) (fun l hl => hWF2 l hl) off i (some co))
          (some b.value) hrow2 hiV
      · intro c hcne
        rw [advValAt_setBaseAdvVal_ne _ off i _ c hcne, advValAt_setBaseFix]
        have e1 : advValAt ({ r2 with permutations :=
            r2.permutations ++ [(c₀, Cell.new Chip.BaseChip i off)] } : Records N) c =
            advValAt r2 c := advValAt_congr c rfl rfl
        exact e1.trans ((hval₂ c).trans (advValAt_setBaseAdvFlag r off i c))

theorem writePair_C2 {C : Consts} {r r' : Records N} {off i : Nat}
    {b : ValueSchema N} {co : N}
    (hWF : WFr C r) (hPI : PairsInv r) (hVH : ValHeight r)
    (hrow : off < r.base_height) (hiV : i < C.VAR_COLUMNS)
    (hschema : ∀ c0, b.cell = some c0 → advValAt r c0 = some b.value)
    (hfresh : advValAt r (Cell.new Chip.BaseChip i off) = none)
    (h : writePair r off i b co = .ok r') :
    WFr C r' ∧ PairsInv r' ∧ ValHeight r' ∧
    advValAt r' (Cell.new Chip.BaseChip i off) = some b.value ∧
    (∀ c, c ≠ Cell.new Chip.BaseChip i off → advValAt r' c = advValAt r c) ∧
    r'.base_height = r.base_height := by
  have hrowlen : off < r.base_adv_record.length := lt_of_lt_of_le hrow hWF.2.1
  obtain ⟨hmono, hWFrows', hpermd⟩ := writePair_flags hWF.1 hrowlen hiV h
  have hshape := writePair_shape h
  obtain ⟨hself, hne⟩ := writePair_advVals hWF.1 hrowlen hiV h
  have hWF' : WFr C r' := WFr_of_shape hWF hWFrows' hshape
  have hnet : ∀ d w, advValAt r d = some w → d ≠ Cell.new Chip.BaseChip i off := by
    intro d w hd heq
    rw [heq, hfresh] at hd
    exact Option.noConfusion hd
  refine ⟨hWF', ?_, ?_, hself, hne, hshape.1⟩
  · intro p hp
    rcases hpermd with heq | ⟨c₀, hc₀, heqp, hf1, hf2⟩
    · rw [heq] at hp
      obtain ⟨v, h1, h2, hg1, hg2⟩ := hPI p hp
      exact ⟨v, (hne p.1 (hnet p.1 v h1)).trans h1, (hne p.2 (hnet p.2 v h2)).trans h2,
        hmono p.1 hg1, hmono p.2 hg2⟩
    · rw [heqp] at hp
      rcases List.mem_append.mp hp with hp' | hp'
      · obtain ⟨v, h1, h2, hg1, hg2⟩ := hPI p hp'
        exact ⟨v, (hne p.1 (hnet p.1 v h1)).trans h1, (hne p.2 (hnet p.2 v h2)).trans h2,
          hmono p.1 hg1, hmono p.2 hg2⟩
      · rcases List.mem_singleton.mp hp' with rfl
        have hvc : advValAt r c₀ = some b.value := hschema c₀ hc₀
        exact ⟨b.value, (hne c₀ (hnet c₀ _ hvc)).trans hvc, hself, hf1, hf2⟩
  · intro c v hc
    by_cases hctgt : c = Cell.new Chip.BaseChip i off
    · subst hctgt
      refine ⟨rfl, ?_⟩
      rw [hshape.1]
      exact hrow
    · rw [hne c hctgt] at hc
      obtain ⟨ha, hb⟩ := hVH c v hc
      refine ⟨ha, ?_⟩
      rw [hshape.1]
      exact hb

theorem one_line_pairs_C2 {C : Consts} {off : Nat} :
    ∀ (pairs : List (ValueSchema N × N)) (r r' : Records N) (i : Nat),
      WFr C r → PairsInv r → ValHeight r →
      off < r.base_height → i + pairs.length ≤ C.VAR_COLUMNS →
      (∀ p ∈ pairs, ∀ c0, (p.1 : ValueSchema N).cell = some c0 →
        advValAt r c0 = some p.1.value) →
      (∀ j, i ≤ j → j < i + pairs.length →
        advValAt r (Cell.new Chip.BaseChip j off) = none) →
      one_line_pairs r off i pairs = .ok r' →
      WFr C r' ∧ PairsInv r' ∧ ValHeight r' ∧ r'.base_height = r.base_height ∧
      (∀ c, (∀ j, i ≤ j → j < i + pairs.length → c ≠ Cell.new Chip.BaseChip j off) →
        advValAt r' c = advValAt r c)
  | [], r, r', i, hWF, hPI, hVH, hrow, hle, hsch, hfr, h => by
    unfold one_line_pairs at h
    cases h
    exact ⟨hWF, hPI, hVH, rfl, fun c _ => rfl⟩
  | (b, co) :: rest, r, r', i, hWF, hPI, hVH, hrow, hle, hsch, hfr, h => by
    unfold one_line_pairs at h
    cases hw : writePair r off i b co with
    | error s => rw [hw] at h; exact Except.noConfusion h
    | ok r1 =>
      rw [hw] at h
      have hiV : i < C.VAR_COLUMNS := by
        simp only [List.length_cons] at hle
        omega
      have hschb : ∀ c0, b.cell = some c0 → advValAt r c0 = some b.value := by
        intro c0 hc0
        exact hsch (b, co) (List.mem_cons_self _ _) c0 hc0
      have hfri : advValAt r (Cell.new Chip.BaseChip i off) = none :=
        hfr i (Nat.le_refl i) (by simp only [List.length_cons]; omega)
      obtain ⟨hWF1, hPI1, hVH1, hself1, hne1, hbh1⟩ :=
        writePair_C2 hWF hPI hVH hrow hiV hschb hfri hw
      have hnet : ∀ d w, advValAt r d = some w → d ≠ Cell.new Chip.BaseChip i off := by
        intro d w hd heq
        rw [heq, hfri] at hd
        exact Option.noConfusion hd
      have hrow1 : off < r1.base_height := by
        rw [hbh1]
        exact hrow
      have hle1 : (i + 1) + rest.length ≤ C.VAR_COLUMNS := by
        simp only [List.length_cons] at hle
        omega
      have hsch1 : ∀ p ∈ rest, ∀ c0, (p.1 : ValueSchema N).cell = some c0 →
          advValAt r1 c0 = some p.1.value := by
        intro p hp c0 hc0
        have hv := hsch p (List.mem_cons_of_mem _ hp) c0 hc0
        rw [hne1 c0 (hnet c0 _ hv)]
        exact hv
      have hfr1 : ∀ j, i + 1 ≤ j → j < (i + 1) + rest.length →
          advValAt r1 (Cell.new Chip.BaseChip j off) = none := by
        intro j hj1 hj2
        have hcne : Cell.new Chip.BaseChip j off ≠ Cell.new Chip.BaseChip i off := by
          intro heq
          have hji : j = i := congrArg Cell.col heq
          omega
        rw [hne1 _ hcne]
        exact hfr j (by omega) (by simp only [List.length_cons]; omega)
      obtain ⟨hWF', hPI', hVH', hbh', hne'⟩ :=
        one_line_pairs_C2 rest r1 r' (i + 1) hWF1 hPI1 hVH1 hrow1 hle1 hsch1 hfr1 h
      refine ⟨hWF', hPI', hVH', hbh'.trans hbh1, ?_⟩
      intro c hcj
      have hc1 : advValAt r' c = advValAt r1 c := by
        refine hne' c ?_
        intro j hj1 hj2
        exact hcj j (by omega) (by simp only [List.length_cons]; omega)
      have hc2 : advValAt r1 c = advValAt r c :=
        hne1 c (hcj i (Nat.le_refl i) (by simp only [List.length_cons]; omega))
      exact hc1.trans hc2

theorem InvC2_of_eq {C : Consts} {r r' : Records N}
    (h1 : r'.base_adv_record = r.base_adv_record)
    (h2 : r'.range_adv_record = r.range_adv_record)
    (h3 : r'.base_height = r.base_height)
    (h4 : r'.permutations = r.permutations)
    (hInv : InvC2 C r) : InvC2 C r' := by
  obtain ⟨hPI, hVH, hWFrows, hle, hrange⟩ := hInv
  refine ⟨?_, ?_, ?_, ?_, ?_⟩
  · intro p hp
    rw [h4] at hp
    obtain ⟨v, ha, hb, hf1, hf2⟩ := hPI p hp
    exact ⟨v, (advValAt_congr p.1 h1 h2).trans ha, (advValAt_congr p.2 h1 h2).trans hb,
      (flagAt_congr p.1 h1 h2).trans hf1, (flagAt_congr p.2 h1 h2).trans hf2⟩
  · intro c v hc
    rw [advValAt_congr c h1 h2] at hc
    obtain ⟨ha, hb⟩ := hVH c v hc
    refine ⟨ha, ?_⟩
    rw [h3]
    exact hb
  · intro l hl
    rw [h1] at hl
    exact hWFrows l hl
  · rw [h3, h1]
    exact hle
  · rw [h2]
    exact hrange

theorem one_line_C2 {C : Consts} {r r' : Records N} {off : Nat}
    {pairs : List (ValueSchema N × N)} {cst : Option N} {mn : List N × Option N}
    [DecidableEq N]
    (hInv : InvC2 C r) (hpre : linePairsPreB r off pairs = true)
    (h : one_line C r off pairs cst mn = .ok r') :
    InvC2 C r' ∧ off < r'.base_height ∧
    (∀ c, (∀ j, j < pairs.length → c ≠ Cell.new Chip.BaseChip j off) →
      advValAt r' c = advValAt r c) := by
  obtain ⟨hPI, hVH, hWFrows, hhle, hrange⟩ := hInv
  unfold linePairsPreB at hpre
  rw [Bool.and_eq_true] at hpre
  obtain ⟨hpre1, hpre2⟩ := hpre
  have hsch : ∀ p ∈ pairs, ∀ c0, (p.1 : ValueSchema N).cell = some c0 →
      advValAt r c0 = some p.1.value := by
    intro p hp c0 hc0
    have hok := List.all_eq_true.mp hpre1 p hp
    simp only [schemaOkB, hc0] at hok
    exact of_decide_eq_true hok
  have hfr : ∀ j, j < pairs.length → advValAt r (Cell.new Chip.BaseChip j off) = none := by
    intro j hj
    have hok := List.all_eq_true.mp hpre2 j (List.mem_range.mpr hj)
    simp only [freshB] at hok
    exact Option.isNone_iff_eq_none.mp hok
  unfold one_line at h
  split at h
  · next hlen =>
    set r2 := bumpBaseHeight (extendBase C r off) off with hr2
    have hadv2 : ∀ c, advValAt r2 c = advValAt r c := by
      intro c
      rw [hr2]
      rw [advValAt_congr c (bumpBaseHeight_rest _ _).1 (bumpBaseHeight_rest _ _).2.2.1]
      exact extendBase_advValAt C r off c
    have hflag2 : ∀ c, flagAt r2 c = flagAt r c := by
      intro c
      rw [hr2, flagAt_bumpBaseHeight, extendBase_flagAt]
    have hperm2 : r2.permutations = r.permutations := by
      rw [hr2, (bumpBaseHeight_rest _ _).2.2.2.2.2, (extendBase_rest C r off).2.2.2.2]
    have hbh2 : r2.base_height = max r.base_height (off + 1) := by
      rw [hr2, bumpBaseHeight_base_height, (extendBase_rest C r off).1]
    have hlen2 : r2.base_adv_record.length = (extendBase C r off).base_adv_record.length := by
      rw [hr2, (bumpBaseHeight_rest _ _).1]
    have hWF2 : WFr C r2 := by
      refine ⟨WFrows_bumpBaseHeight (WFrows_extendBase hWFrows off) off, ?_, ?_⟩
      · rw [hbh2, hlen2]
        have ha := extendBase_adv_le C r off
        have hb := extendBase_adv_length C r off
        omega
      · rw [hr2, (bumpBaseHeight_rest _ _).2.2.1, (extendBase_rest C r off).2.1]
        exact hrange
    have hPI2 : PairsInv r2 := by
      intro p hp
      rw [hperm2] at hp
      obtain ⟨v, ha, hb, hf1, hf2⟩ := hPI p hp
      exact ⟨v, (hadv2 p.1).trans ha, (hadv2 p.2).trans hb,
        (hflag2 p.1).trans hf1, (hflag2 p.2).trans hf2⟩
    have hVH2 : ValHeight r2 := by
      intro c v hc
      rw [hadv2 c] at hc
      obtain ⟨ha, hb⟩ := hVH c v hc
      refine ⟨ha, ?_⟩
      rw [hbh2]
      omega
    have hrow2 : off < r2.base_height := by
      rw [hbh2]
      omega
    cases hlp : one_line_pairs r2 off 0 pairs with
    | error s => simp only [hlp] at h; exact Except.noConfusion h
    | ok r3 =>
      simp only [hlp] at h
      have hsch2 : ∀ p ∈ pairs, ∀ c0, (p.1 : ValueSchema N).cell = some c0 →
          advValAt r2 c0 = some p.1.value := by
        intro p hp c0 hc0
        rw [hadv2 c0]
        exact hsch p hp c0 hc0
      have hfr2 : ∀ j, 0 ≤ j → j < 0 + pairs.length →
          advValAt r2 (Cell.new Chip.BaseChip j off) = none := by
        intro j _ hj
        rw [hadv2]
        exact hfr j (by omega)
      obtain ⟨hWF3, hPI3, hVH3, hbh3, hne3⟩ :=
        one_line_pairs_C2 pairs r2 r3 0 hWF2 hPI2 hVH2 hrow2 (by omega) hsch2 hfr2 hlp
      obtain ⟨ms, nx⟩ := mn
      have hrest := @writeMuls_rest N C off ms r3 0
      have hfin : ∀ r'' : Records N,
          r''.base_adv_record = (writeMuls C r3 off 0 ms).base_adv_record →
          r''.range_adv_record = (writeMuls C r3 off 0 ms).range_adv_record →
          r''.base_height = (writeMuls C r3 off 0 ms).base_height →
          r''.permutations = (writeMuls C r3 off 0 ms).permutations →
          InvC2 C r'' ∧ off < r''.base_height ∧
          (∀ c, (∀ j, j < pairs.length → c ≠ Cell.new Chip.BaseChip j off) →
            advValAt r'' c = advValAt r c) := by
        intro r'' hba hra hbh hpm
        have e1 : r''.base_adv_record = r3.base_adv_record := hba.trans hrest.1
        have e2 : r''.range_adv_record = r3.range_adv_record := hra.trans hrest.2.1
        have e3 : r''.base_height = r3.base_height := hbh.trans hrest.2.2.1
        have e4 : r''.permutations = r3.permutations := hpm.trans hrest.2.2.2
        refine ⟨InvC2_of_eq e1 e2 e3 e4 ⟨hPI3, hVH3, hWF3⟩, ?_, ?_⟩
        · rw [e3, hbh3, hbh2]
          omega
        · intro c hcj
          have hc3 := hne3 c (fun j _ hj2 => hcj j (by omega))
          rw [advValAt_congr c e1 e2, hc3, hadv2 c]
      cases nx with
      | none =>
        cases cst with
        | none =>
          simp only [Except.ok.injEq] at h
          subst h
          exact hfin _ rfl rfl rfl rfl
        | some cv =>
          simp only [Except.ok.injEq] at h
          subst h
          exact hfin _ rfl rfl rfl rfl
      | some nxv =>
        cases cst with
        | none =>
          simp only [Except.ok.injEq] at h
          subst h
          exact hfin _ rfl rfl rfl rfl
        | some cv =>
          simp only [Except.ok.injEq] at h
          subst h
          exact hfin _ rfl rfl rfl rfl
  · exact Except.noConfusion h

theorem one_line_with_last_C2 {C : Consts} {r r' : Records N} {off : Nat}
    {pairs : List (ValueSchema N × N)} {tl : ValueSchema N × N} {cst : Option N}
    {mn : List N × Option N} [DecidableEq N] (hV : 1 ≤ C.VAR_COLUMNS)
    (hInv : InvC2 C r)
    (hpre1 : linePairsPreB r off pairs = true)
    (hpre2 : schemaOkB r tl.1 = true)
    (hpre3 : freshB r off (C.VAR_COLUMNS - 1) = true)
    (h : one_line_with_last C r off pairs tl cst mn = .ok r') :
    InvC2 C r' := by
  unfold one_line_with_last at h
  split at h
  · next hlen =>
    cases hol : one_line C r off pairs cst mn with
    | error s => simp only [hol] at h; exact Except.noConfusion h
    | ok r1 =>
      simp only [hol] at h
      obtain ⟨hInv1, hrow1, hne1⟩ := one_line_C2 hInv hpre1 hol
      obtain ⟨hPI1, hVH1, hWF1⟩ := hInv1
      have hfr : ∀ j, j < pairs.length →
          advValAt r (Cell.new Chip.BaseChip j off) = none := by
        unfold linePairsPreB at hpre1
        rw [Bool.and_eq_true] at hpre1
        intro j hj
        have hok := List.all_eq_true.mp hpre1.2 j (List.mem_range.mpr hj)
        simp only [freshB] at hok
        exact Option.isNone_iff_eq_none.mp hok
      have hschtl : ∀ c0, tl.1.cell = some c0 → advValAt r1 c0 = some tl.1.value := by
        intro c0 hc0
        have hv : advValAt r c0 = some tl.1.value := by
          simp only [schemaOkB, hc0] at hpre2
          exact of_decide_eq_true hpre2
        have hne0 : ∀ j, j < pairs.length → c0 ≠ Cell.new Chip.BaseChip j off := by
          intro j hj heq
          rw [heq, hfr j hj] at hv
          exact Option.noConfusion hv
        rw [hne1 c0 hne0]
        exact hv
      have hfreshtl : advValAt r1 (Cell.new Chip.BaseChip (C.VAR_COLUMNS - 1) off) = none := by
        have hfr0 : advValAt r (Cell.new Chip.BaseChip (C.VAR_COLUMNS - 1) off) = none := by
          simp only [freshB] at hpre3
          exact Option.isNone_iff_eq_none.mp hpre3
        have hne0 : ∀ j, j < pairs.length → Cell.new Chip.BaseChip (C.VAR_COLUMNS - 1) off ≠
            Cell.new Chip.BaseChip j off := by
          intro j hj heq
          have hj' : C.VAR_COLUMNS - 1 = j := congrArg Cell.col heq
          omega
        rw [hne1 _ hne0]
        exact hfr0
      obtain ⟨hWF', hPI', hVH', _, _, _⟩ :=
        writePair_C2 hWF1 hPI1 hVH1 hrow1 (by omega) hschtl hfreshtl h
      exact ⟨hPI', hVH', hWF'⟩
  · exact Except.noConfusion h

theorem runReqs_C2 [Zero N] [One N] [NatCast N] [DecidableEq N] {C : Consts}
    (hV : 1 ≤ C.VAR_COLUMNS) :
    ∀ (reqs : List (Req N)) (r r' : Records N),
      InvC2 C r → preRunB C r reqs = true → runReqs C r reqs = .ok r' → InvC2 C r'
  | [], r, r', hInv, _, h => by
    unfold runReqs at h
    cases h
    exact hInv
  | q :: rest, r, r', hInv, hpre, h => by
    unfold runReqs at h
    unfold preRunB at hpre
    cases ha : applyReq C r q with
    | error s =>
      simp only [ha] at hpre
      simp at hpre
    | ok r1 =>
      simp only [ha] at hpre
      rw [ha] at h
      rw [Bool.and_eq_true] at hpre
      obtain ⟨hq, hrest⟩ := hpre
      have hInv1 : InvC2 C r1 := by
        cases q with
        | line off pairs cst muls nxt =>
          have hol : one_line C r off pairs cst (muls, nxt) = .ok r1 := ha
          have hq' : linePairsPreB r off pairs = true := hq
          exact (one_line_C2 hInv hq' hol).1
        | lineLast off pairs tv tc cst muls nxt =>
          have hol : one_line_with_last C r off pairs (tv, tc) cst (muls, nxt) = .ok r1 := ha
          have hq' : (linePairsPreB r off pairs && schemaOkB r tv &&
              freshB r off (C.VAR_COLUMNS - 1)) = true := hq
          rw [Bool.and_eq_true, Bool.and_eq_true] at hq'
          exact one_line_with_last_C2 hV hInv hq'.1.1 hq'.1.2 hq'.2 hol
        | singleRange off v lb => simp [reqPreB] at hq
        | rangeVal off v chunks lb => simp [reqPreB] at hq
      exact runReqs_C2 hV rest r1 r' hInv1 hrest h

theorem InvC2_empty (C : Consts) : InvC2 C (Records.empty : Records N) := by
  refine ⟨?_, ?_, ?_, ?_, ?_⟩
  · intro p hp
    simp [Records.empty] at hp
  · intro c v hc
    obtain ⟨reg, ccol, crow⟩ := c
    cases reg <;> simp [advValAt, Records.empty] at hc
  · intro l hl
    simp [Records.empty] at hl
  · exact Nat.le_refl _
  · rfl

theorem placedVal_of_flag {C : Consts} {r : Records N} (hWF : WFr C r)
    (c : Cell) (v : N) (hreg : c.region = Chip.BaseChip) (hrow : c.row < r.base_height)
    (hval : advValAt r c = some v) (hflag : flagAt r c = true) :
    placedVal C r c = some v := by
  obtain ⟨reg, ccol, crow⟩ := c
  cases reg with
  | RangeChip => exact Chip.noConfusion hreg
  | BaseChip =>
    have hrow' : crow < r.base_height := hrow
    have hval' : advValAt r (Cell.new Chip.BaseChip ccol crow) = some v := hval
    have hflag' : flagAt r (Cell.new Chip.BaseChip ccol crow) = true := hflag
    have hrowlen : crow < r.base_adv_record.length := lt_of_lt_of_le hrow' hWF.2.1
    obtain ⟨rowl, hx, hlen⟩ := WFrows_lookup hWF.1 hrowlen
    cases hy : rowl[ccol]? with
    | none =>
      rw [advValAt_base_entry_none hx hy] at hval'
      exact Option.noConfusion hval'
    | some e =>
      rw [advValAt_base_entry hx hy] at hval'
      rw [flagAt_base_entry hx hy] at hflag'
      have hcol : ccol < rowl.length := by
        by_contra hcon
        rw [List.getElem?_eq_none (Nat.le_of_not_lt hcon)] at hy
        exact Option.noConfusion hy
      have he : e = (some v, true) := Prod.ext_iff.mpr ⟨hval', hflag'⟩
      have hb1 : (List.replicate C.VAR_COLUMNS
          (List.replicate r.base_height (none : Option (AssignedCell N))))[ccol]? =
          some (List.replicate r.base_height none) := by
        rw [List.getElem?_replicate, if_pos (by omega : ccol < C.VAR_COLUMNS)]
      have hb2 : crow <
          (List.replicate r.base_height (none : Option (AssignedCell N))).length := by
        rw [List.length_replicate]
        exact hrow'
      have hloop := baseAdvLoop_get2_at r.base_adv_record
        ([], List.replicate C.VAR_COLUMNS (List.replicate r.base_height none))
        r.base_height 0 ccol crow rowl v (Nat.zero_le _) hrow'
        (by rw [Nat.sub_zero]; exact hx) (by rw [hy, he])
        ⟨List.replicate r.base_height none, hb1, hb2⟩
      show (cellsLookup (matCells C r) ⟨Chip.BaseChip, ccol, crow⟩).map AssignedCell.val =
        some v
      have hcl : cellsLookup (matCells C r) ⟨Chip.BaseChip, ccol, crow⟩ =
          get2 (baseAdvLoop ([], List.replicate C.VAR_COLUMNS
            (List.replicate r.base_height none)) r.base_height 0 r.base_adv_record).2
            ccol crow := rfl
      rw [hcl, hloop]
      rfl

/-! ## Claim C2 -/

/-- Claim C2 (corrected): the per-request `ValueSchema` invariant alone
("when `cell()` is present, `value()` equals the value already recorded
at that cell") does not make the copy constraints sound — a later request
may overwrite a slot an existing pair refers to. Strengthened so that
every advice slot a gate-packing request targets is still unwritten when
the request runs (`preRunB`), every pair `(left, right)` in
`permutations` refers to two cells holding one common recorded advice
value, and after materialization both placed handles carry that value. -/
theorem claim_C2 [Zero N] [One N] [NatCast N] [DecidableEq N] (C : Consts)
    (hV : 1 ≤ C.VAR_COLUMNS) (reqs : List (Req N)) (r' : Records N)
    (hpre : preRunB C Records.empty reqs = true)
    (hrun : runReqs C Records.empty reqs = .ok r') :
    ∀ p ∈ r'.permutations, ∃ v,
      advValAt r' p.1 = some v ∧ advValAt r' p.2 = some v ∧
      placedVal C r' p.1 = some v ∧ placedVal C r' p.2 = some v := by
  obtain ⟨hPI, hVH, hWF⟩ := runReqs_C2 hV reqs Records.empty r' (InvC2_empty C) hpre hrun
  intro p hp
  obtain ⟨v, h1, h2, hf1, hf2⟩ := hPI p hp
  obtain ⟨hreg1, hrow1⟩ := hVH p.1 v h1
  obtain ⟨hreg2, hrow2⟩ := hVH p.2 v h2
  exact ⟨v, h1, h2, placedVal_of_flag hWF p.1 v hreg1 hrow1 h1 hf1,
    placedVal_of_flag hWF p.2 v hreg2 hrow2 h2 hf2⟩

set_option maxRecDepth 100000 in
/-- Witness for the (corrected) claim C2: place `3`, then copy it to step
1 through an `assigned` schema; the resulting pair holds the common value
`3` in the ledger and in the materialized cell tables. -/
theorem claim_C2_witness :
    1 ≤ constsEx.VAR_COLUMNS ∧
    preRunB constsEx Records.empty c2WitTrace = true ∧
    ∃ r', runReqs constsEx Records.empty c2WitTrace = .ok r' ∧
      ∀ p ∈ r'.permutations, ∃ v,
        advValAt r' p.1 = some v ∧ advValAt r' p.2 = some v ∧
        placedVal constsEx r' p.1 = some v ∧ placedVal constsEx r' p.2 = some v := by
  refine ⟨by decide, by decide, ?_⟩
  obtain ⟨r', hr⟩ : ∃ r', runReqs constsEx Records.empty c2WitTrace = .ok r' := ⟨_, rfl⟩
  exact ⟨r', hr, claim_C2 constsEx (by decide) c2WitTrace r' (by decide) hr⟩

set_option maxRecDepth 100000 in
/-- Counterexample to claim C2 as stated: on `c2CexTrace` the schema-only
precondition holds at every call, yet the run ends with a permutation
pair whose endpoints record `4` and `3` and whose materialized handles
carry different values — the third request overwrites the slot the pair's
left endpoint refers to. -/
theorem claim_C2_counterexample :
    preRunSchemaOnlyB constsEx Records.empty c2CexTrace = true ∧
    ∃ r', runReqs constsEx Records.empty c2CexTrace = .ok r' ∧
      ∃ p ∈ r'.permutations,
        advValAt r' p.1 = some 4 ∧ advValAt r' p.2 = some 3 ∧
        placedVal constsEx r' p.1 ≠ placedVal constsEx r' p.2 := by
  refine ⟨by decide, _, rfl, ?_⟩
  decide

/-! ## Lemmas: `WFr` and `ValHeight` hold after any gate-packing run -/

theorem writePair_VH {C : Consts} {r r' : Records N} {off i : Nat}
    {b : ValueSchema N} {co : N}
    (hWF : WFr C r) (hVH : ValHeight r)
    (hrow : off < r.base_height) (hiV : i < C.VAR_COLUMNS)
    (h : writePair r off i b co = .ok r') :
    WFr C r' ∧ ValHeight r' ∧ r'.base_height = r.base_height := by
  have hrowlen : off < r.base_adv_record.length := lt_of_lt_of_le hrow hWF.2.1
  obtain ⟨_, hWFrows', _⟩ := writePair_flags hWF.1 hrowlen hiV h
  have hshape := writePair_shape h
  obtain ⟨hself, hne⟩ := writePair_advVals hWF.1 hrowlen hiV h
  refine ⟨WFr_of_shape hWF hWFrows' hshape, ?_, hshape.1⟩
  intro c v hc
  by_cases hctgt : c = Cell.new Chip.BaseChip i off
  · subst hctgt
    refine ⟨rfl, ?_⟩
    rw [hshape.1]
    exact hrow
  · rw [hne c hctgt] at hc
    obtain ⟨ha, hb⟩ := hVH c v hc
    refine ⟨ha, ?_⟩
    rw [hshape.1]
    exact hb

theorem one_line_pairs_VH {C : Consts} {off : Nat} :
    ∀ (pairs : List (ValueSchema N × N)) (r r' : Records N) (i : Nat),
      WFr C r → ValHeight r → off < r.base_height → i + pairs.length ≤ C.VAR_COLUMNS →
      one_line_pairs r off i pairs = .ok r' →
      WFr C r' ∧ ValHeight r' ∧ r'.base_height = r.base_height
  | [], r, r', i, hWF, hVH, hrow, hle, h => by
    unfold one_line_pairs at h
    cases h
    exact ⟨hWF, hVH, rfl⟩
  | (b, co) :: rest, r, r', i, hWF, hVH, hrow, hle, h => by
    unfold one_line_pairs at h
    cases hw : writePair r off i b co with
    | error s => rw [hw] at h; exact Except.noConfusion h
    | ok r1 =>
      rw [hw] at h
      have hiV : i < C.VAR_COLUMNS := by
        simp only [List.length_cons] at hle
        omega
      obtain ⟨hWF1, hVH1, hbh1⟩ := writePair_VH hWF hVH hrow hiV hw
      have hrow1 : off < r1.base_height := by
        rw [hbh1]
        exact hrow
      have hle1 : (i + 1) + rest.length ≤ C.VAR_COLUMNS := by
        simp only [List.length_cons] at hle
        omega
      obtain ⟨hWF', hVH', hbh'⟩ := one_line_pairs_VH rest r1 r' (i + 1) hWF1 hVH1 hrow1 hle1 h
      exact ⟨hWF', hVH', hbh'.trans hbh1⟩

theorem one_line_VH {C : Consts} {r r' : Records N} {off : Nat}
    {pairs : List (ValueSchema N × N)} {cst : Option N} {mn : List N × Option N}
    (hWF : WFr C r) (hVH : ValHeight r)
    (h : one_line C r off pairs cst mn = .ok r') :
    WFr C r' ∧ ValHeight r' ∧ off < r'.base_height := by
  obtain ⟨hWFrows, hhle, hrange⟩ := hWF
  unfold one_line at h
  split at h
  · next hlen =>
    set r2 := bumpBaseHeight (extendBase C r off) off with hr2
    have hadv2 : ∀ c, advValAt r2 c = advValAt r c := by
      intro c
      rw [hr2]
      rw [advValAt_congr c (bumpBaseHeight_rest _ _).1 (bumpBaseHeight_rest _ _).2.2.1]
      exact extendBase_advValAt C r off c
    have hbh2 : r2.base_height = max r.base_height (off + 1) := by
      rw [hr2, bumpBaseHeight_base_height, (extendBase_rest C r off).1]
    have hlen2 : r2.base_adv_record.length = (extendBase C r off).base_adv_record.length := by
      rw [hr2, (bumpBaseHeight_rest _ _).1]
    have hWF2 : WFr C r2 := by
      refine ⟨WFrows_bumpBaseHeight (WFrows_extendBase hWFrows off) off, ?_, ?_⟩
      · rw [hbh2, hlen2]
        have ha := extendBase_adv_le C r off
        have hb := extendBase_adv_length C r off
        omega
      · rw [hr2, (bumpBaseHeight_rest _ _).2.2.1, (extendBase_rest C r off).2.1]
        exact hrange
    have hVH2 : ValHeight r2 := by
      intro c v hc
      rw [hadv2 c] at hc
      obtain ⟨ha, hb⟩ := hVH c v hc
      refine ⟨ha, ?_⟩
      rw [hbh2]
      omega
    have hrow2 : off < r2.base_height := by
      rw [hbh2]
      omega
    cases hlp : one_line_pairs r2 off 0 pairs with
    | error s => simp only [hlp] at h; exact Except.noConfusion h
    | ok r3 =>
      simp only [hlp] at h
      obtain ⟨hWF3, hVH3, hbh3⟩ :=
        one_line_pairs_VH pairs r2 r3 0 hWF2 hVH2 hrow2 (by omega) hlp
      obtain ⟨ms, nx⟩ := mn
      have hrest := @writeMuls_rest N C off ms r3 0
      have hfin : ∀ r'' : Records N,
          r''.base_adv_record = (writeMuls C r3 off 0 ms).base_adv_record →
          r''.range_adv_record = (writeMuls C r3 off 0 ms).range_adv_record →
          r''.base_height = (writeMuls C r3 off 0 ms).base_height →
          WFr C r'' ∧ ValHeight r'' ∧ off < r''.base_height := by
        intro r'' hba hra hbh
        have e1 : r''.base_adv_record = r3.base_adv_record := hba.trans hrest.1
        have e2 : r''.range_adv_record = r3.range_adv_record := hra.trans hrest.2.1
        have e3 : r''.base_height = r3.base_height := hbh.trans hrest.2.2.1
        refine ⟨⟨?_, ?_, ?_⟩, ?_, ?_⟩
        · intro l hl
          rw [e1] at hl
          exact hWF3.1 l hl
        · rw [e3, e1]
          exact hWF3.2.1
        · rw [e2]
          exact hWF3.2.2
        · intro c v hc
          rw [advValAt_congr c e1 e2] at hc
          obtain ⟨ha, hb⟩ := hVH3 c v hc
          refine ⟨ha, ?_⟩
          rw [e3]
          exact hb
        · rw [e3, hbh3, hbh2]
          omega
      cases nx with
      | none =>
        cases cst with
        | none =>
          simp only [Except.ok.injEq] at h
          subst h
          exact hfin _ rfl rfl rfl
        | some cv =>
          simp only [Except.ok.injEq] at h
          subst h
          exact hfin _ rfl rfl rfl
      | some nxv =>
        cases cst with
        | none =>
          simp only [Except.ok.injEq] at h
          subst h
          exact hfin _ rfl rfl rfl
        | some cv =>
          simp only [Except.ok.injEq] at h
          subst h
          exact hfin _ rfl rfl rfl
  · exact Except.noConfusion h

theorem one_line_with_last_VH {C : Consts} {r r' : Records N} {off : Nat}
    {pairs : List (ValueSchema N × N)} {tl : ValueSchema N × N} {cst : Option N}
    {mn : List N × Option N} (hV : 1 ≤ C.VAR_COLUMNS)
    (hWF : WFr C r) (hVH : ValHeight r)
    (h : one_line_with_last C r off pairs tl cst mn = .ok r') :
    WFr C r' ∧ ValHeight r' := by
  unfold one_line_with_last at h
  split at h
  · cases hol : one_line C r off pairs cst mn with
    | error s => simp only [hol] at h; exact Except.noConfusion h
    | ok r1 =>
      simp only [hol] at h
      obtain ⟨hWF1, hVH1, hrow1⟩ := one_line_VH hWF hVH hol
      obtain ⟨hWF', hVH', _⟩ := writePair_VH hWF1 hVH1 hrow1 (by omega) h
      exact ⟨hWF', hVH'⟩
  · exact Except.noConfusion h

theorem runReqs_VH [Zero N] [One N] [NatCast N] {C : Consts} (hV : 1 ≤ C.VAR_COLUMNS) :
    ∀ (reqs : List (Req N)) (r r' : Records N), reqs.all isLineReq = true →
      WFr C r → ValHeight r → runReqs C r reqs = .ok r' →
      WFr C r' ∧ ValHeight r'
  | [], r, r', _, hWF, hVH, h => by
    unfold runReqs at h
    cases h
    exact ⟨hWF, hVH⟩
  | q :: rest, r, r', hall, hWF, hVH, h => by
    unfold runReqs at h
    rw [List.all_cons, Bool.and_eq_true] at hall
    cases ha : applyReq C r q with
    | error s => rw [ha] at h; exact Except.noConfusion h
    | ok r1 =>
      rw [ha] at h
      have hstep : WFr C r1 ∧ ValHeight r1 := by
        cases q with
        | line off pairs cst muls nxt =>
          have hol : one_line C r off pairs cst (muls, nxt) = .ok r1 := ha
          obtain ⟨a, b, _⟩ := one_line_VH hWF hVH hol
          exact ⟨a, b⟩
        | lineLast off pairs tv tc cst muls nxt =>
          have hol : one_line_with_last C r off pairs (tv, tc) cst (muls, nxt) = .ok r1 := ha
          exact one_line_with_last_VH hV hWF hVH hol
        | singleRange off v lb => exact absurd hall.1 (by simp [isLineReq])
        | rangeVal off v chunks lb => exact absurd hall.1 (by simp [isLineReq])
      exact runReqs_VH hV rest r1 r' hall.2 hstep.1 hstep.2 h

/-! ## Claim C10 -/

/-- Claim C10: after any successful sequence of `one_line` /
`one_line_with_last` requests from an empty ledger, both `needs_copy`
flags of every pending permutation pair are set (each push sets the new
placement's flag directly and the referenced cell's flag via
`enable_permute`); consequently the materialization cell tables retain a
placed-cell handle for every permutation endpoint whose value was placed
(the handle carries that value); and the flag, once true, is never reset
by any further gate-packing request. -/
theorem claim_C10 [Zero N] [One N] [NatCast N] (C : Consts) (hV : 1 ≤ C.VAR_COLUMNS) :
    (∀ (reqs : List (Req N)) (r' : Records N), reqs.all isLineReq = true →
      runReqs C Records.empty reqs = .ok r' →
      ∀ p ∈ r'.permutations,
        (flagAt r' p.1 = true ∧ flagAt r' p.2 = true) ∧
        (∀ v, advValAt r' p.1 = some v → placedVal C r' p.1 = some v) ∧
        (∀ v, advValAt r' p.2 = some v → placedVal C r' p.2 = some v)) ∧
    (∀ (reqs : List (Req N)) (r r' : Records N), reqs.all isLineReq = true →
      WFrows C r → FlagPairsInv r → runReqs C r reqs = .ok r' →
      ∀ c, flagAt r c = true → flagAt r' c = true) := by
  constructor
  · intro reqs r' hall h
    have hWFrows0 : WFrows C (Records.empty : Records N) := by
      intro l hl
      simp [Records.empty] at hl
    have hFPI0 : FlagPairsInv (Records.empty : Records N) := by
      intro p hp
      simp [Records.empty] at hp
    have hflags := (runReqs_flags hV reqs Records.empty r' hall hWFrows0 hFPI0 h).1
    obtain ⟨hWF', hVH'⟩ := runReqs_VH hV reqs Records.empty r' hall
      ((InvC2_empty C).2.2) ((InvC2_empty C).2.1) h
    intro p hp
    obtain ⟨hf1, hf2⟩ := hflags p hp
    refine ⟨⟨hf1, hf2⟩, ?_, ?_⟩
    · intro v hv
      obtain ⟨hreg, hrow⟩ := hVH' p.1 v hv
      exact placedVal_of_flag hWF' p.1 v hreg hrow hv hf1
    · intro v hv
      obtain ⟨hreg, hrow⟩ := hVH' p.2 v hv
      exact placedVal_of_flag hWF' p.2 v hreg hrow hv hf2
  · intro reqs r r' hall hWFrows hFPI h
    exact (runReqs_flags hV reqs r r' hall hWFrows hFPI h).2.1

set_option maxRecDepth 100000 in
/-- Witness for claim C10: a two-request trace whose second request
copies the value placed by the first; the resulting single permutation
pair has both flags set and both materialized handles retained. -/
theorem claim_C10_witness :
    c10WitTrace.all isLineReq = true ∧
    ∃ r', runReqs constsEx Records.empty c10WitTrace = .ok r' ∧
      ∀ p ∈ r'.permutations,
        (flagAt r' p.1 = true ∧ flagAt r' p.2 = true) ∧
        (∀ v, advValAt r' p.1 = some v → placedVal constsEx r' p.1 = some v) ∧
        (∀ v, advValAt r' p.2 = some v → placedVal constsEx r' p.2 = some v) := by
  refine ⟨by decide, ?_⟩
  obtain ⟨r', hr⟩ : ∃ r', runReqs constsEx Records.empty c10WitTrace = .ok r' := ⟨_, rfl⟩
  exact ⟨r', hr, (claim_C10 constsEx (by decide)).1 c10WitTrace r' (by decide) hr⟩

end Halo2Layout
